import Mathlib

/-!
# Layout arithmetic of `loc`: cut, split, repeat, anchor and align

A shallow embedding of the rectangle algebra (`loc.go`) and of the layout operators
`CutX`, `CutY`, `CutXRate`, `CutYRate`, `SplitX`, `SplitY`, `RepeatX`, `RepeatY`, `Anchor`
and `Align` (`align.go`), with the generic `Scalar` instantiated at the integers.
Boolean methods of the source are `Bool` valued functions here; slices are lists; the
quotient `/` of the source, which truncates toward zero on integers, is `Int.tdiv`.

The development has two layers.

* The exact layer (`Loc.Rect.CutX`, `Loc.Rect.SplitX`, `Loc.rel`, ...) computes over
  unbounded `Int` and exact rationals.  Comparisons, swaps and identities that hold modulo
  `2^64` are stated on it.
* The `int` layer (`Loc.Int64.CutX`, `Loc.Int64.SplitX`, `Loc.Int64.rel`, ...) is the code at
  `S = int`: every sum, difference and product wraps modulo `2^64` (`wrap`), a `float64`
  operation rounds to nearest, ties to even (`roundFloat64`), and the conversion of a
  `float64` to `int` truncates toward zero and, for a value outside the `int64` range, gives
  the least `int64`, as on amd64 (`toInt64`).  Statements that depend on the size of the numbers are made on this layer;
  where nothing overflows it agrees with the exact layer (`SplitX64_eq`, `RepeatX64_eq`,
  `CutX64_eq`).
-/

namespace Loc

/-! ## Data model (`loc.go`) -/

/-- A Point is an X, Y coordinate pair. -/
structure Point where
  X : Int
  Y : Int
  deriving DecidableEq, Repr

/-- A Rect holds the points with `Min.X <= X < Max.X`, `Min.Y <= Y < Max.Y`. -/
structure Rect where
  Min : Point
  Max : Point
  deriving DecidableEq, Repr

/-- The zero rectangle `Rect{}` of the source. -/
def Rect.zero : Rect := ⟨⟨0, 0⟩, ⟨0, 0⟩⟩

/-- Well-formedness as the comment on the type states it: `Min.X <= Max.X` and likewise for Y. -/
def Rect.WellFormed (r : Rect) : Prop := r.Min.X ≤ r.Max.X ∧ r.Min.Y ≤ r.Max.Y

instance (r : Rect) : Decidable r.WellFormed := by
  unfold Rect.WellFormed; exact inferInstance

/-- Xyxy creates a rectangle from two points, (x0, y0) and (x1, y1). -/
def Xyxy (x0 y0 x1 y1 : Int) : Rect := ⟨⟨x0, y0⟩, ⟨x1, y1⟩⟩

/-- Xywh creates a rectangle from a point (x, y) and a size (w, h). -/
def Xywh (x y w h : Int) : Rect := ⟨⟨x, y⟩, ⟨x + w, y + h⟩⟩

/-- Dx returns the width of r. -/
def Rect.Dx (r : Rect) : Int := r.Max.X - r.Min.X

/-- Dy returns the height of r. -/
def Rect.Dy (r : Rect) : Int := r.Max.Y - r.Min.Y

/-- Empty reports whether the rectangle contains no points. -/
def Rect.Empty (r : Rect) : Bool :=
  decide (r.Min.X ≥ r.Max.X) || decide (r.Min.Y ≥ r.Max.Y)

/-- Eq reports whether r and s contain the same set of points; all empty rectangles are equal. -/
def Rect.Eq (r s : Rect) : Bool :=
  decide (r = s) || (r.Empty && s.Empty)

/-- Overlaps reports whether r and s have a non-empty intersection. -/
def Rect.Overlaps (r s : Rect) : Bool :=
  !r.Empty && !s.Empty &&
    decide (r.Min.X < s.Max.X) && decide (s.Min.X < r.Max.X) &&
    decide (r.Min.Y < s.Max.Y) && decide (s.Min.Y < r.Max.Y)

/-- Union returns the smallest rectangle that contains both r and s; an empty operand is
skipped.  The four assignments of the source act on separate fields of the copy of `r`. -/
def Rect.Union (r s : Rect) : Rect :=
  if r.Empty then s
  else if s.Empty then r
  else
    { Min := { X := if r.Min.X > s.Min.X then s.Min.X else r.Min.X,
               Y := if r.Min.Y > s.Min.Y then s.Min.Y else r.Min.Y },
      Max := { X := if r.Max.X < s.Max.X then s.Max.X else r.Max.X,
               Y := if r.Max.Y < s.Max.Y then s.Max.Y else r.Max.Y } }

/-! ## Cut (`align.go`) -/

/-- CutX cuts r into two rectangles at `x = r.Min.X + w`, with `w` clamped by
`min(max(w, 0), r.Dx())`; the pair is `(got, rest)`. -/
def Rect.CutX (r : Rect) (w : Int) : Rect × Rect :=
  let w := min (max w 0) r.Dx
  ({ Min := r.Min, Max := { X := r.Min.X + w, Y := r.Max.Y } },
   { Min := { X := r.Min.X + w, Y := r.Min.Y }, Max := r.Max })

/-- CutY cuts r into two rectangles at `y = r.Min.Y + h`, with `h` clamped by
`min(max(h, 0), r.Dy())`; the pair is `(got, rest)`. -/
def Rect.CutY (r : Rect) (h : Int) : Rect × Rect :=
  let h := min (max h 0) r.Dy
  ({ Min := r.Min, Max := { X := r.Max.X, Y := r.Min.Y + h } },
   { Min := { X := r.Min.X, Y := r.Min.Y + h }, Max := r.Max })

/-! ## Split (`align.go`) -/

/-- The loop `for i := range n - 1` of `SplitX`: `k` iterations from cursor `cur`, each
emitting `Xywh(cur, r.Min.Y, w, r.Dy())` and advancing the cursor by `w + gap`.  Returns the
emitted rectangles in order and the cursor after the loop. -/
def splitXLoop (r : Rect) (w gap : Int) : Nat → Int → List Rect × Int
  | 0, cur => ([], cur)
  | k + 1, cur =>
    let out := splitXLoop r w gap k (cur + (w + gap))
    (Xywh cur r.Min.Y w r.Dy :: out.1, out.2)

/-- SplitX splits r into n rectangles of (mostly) equal width with a gap between them. -/
def Rect.SplitX (r : Rect) (n : Int) (gap : Int) : List Rect :=
  if n ≤ 0 then []
  else if n = 1 then [r]
  else
    let gap := if gap < 0 then 0 else gap
    let totalItemWidth := r.Dx - (n - 1) * gap
    let totalItemWidth := if totalItemWidth < 0 then 0 else totalItemWidth
    let singleItemWidth := totalItemWidth.tdiv n
    let singleItemWidth := if singleItemWidth < 0 then 0 else singleItemWidth
    let out := splitXLoop r singleItemWidth gap (n - 1).toNat r.Min.X
    let currentPosX := out.2
    let lastItemWidth := r.Max.X - currentPosX
    let lastItemWidth := if lastItemWidth < 0 then 0 else lastItemWidth
    out.1 ++ [Xywh currentPosX r.Min.Y lastItemWidth r.Dy]

/-- The loop `for i := range n - 1` of `SplitY`: `k` iterations from cursor `cur`, each
emitting `Xywh(r.Min.X, cur, r.Dx(), h)` and advancing the cursor by `h + gap`. -/
def splitYLoop (r : Rect) (h gap : Int) : Nat → Int → List Rect × Int
  | 0, cur => ([], cur)
  | k + 1, cur =>
    let out := splitYLoop r h gap k (cur + (h + gap))
    (Xywh r.Min.X cur r.Dx h :: out.1, out.2)

/-- SplitY splits r into n rectangles of (mostly) equal height with a gap between them. -/
def Rect.SplitY (r : Rect) (n : Int) (gap : Int) : List Rect :=
  if n ≤ 0 then []
  else if n = 1 then [r]
  else
    let gap := if gap < 0 then 0 else gap
    let totalItemHeight := r.Dy - (n - 1) * gap
    let totalItemHeight := if totalItemHeight < 0 then 0 else totalItemHeight
    let singleItemHeight := totalItemHeight.tdiv n
    let singleItemHeight := if singleItemHeight < 0 then 0 else singleItemHeight
    let out := splitYLoop r singleItemHeight gap (n - 1).toNat r.Min.Y
    let currentPosY := out.2
    let lastItemHeight := r.Max.Y - currentPosY
    let lastItemHeight := if lastItemHeight < 0 then 0 else lastItemHeight
    out.1 ++ [Xywh r.Min.X currentPosY r.Dx lastItemHeight]

/-! ## Repeat (`align.go`) -/

/-- The loop `for i := range n` of `RepeatX`: `k` iterations from cursor `cur`, each emitting
`Xywh(cur, r.Min.Y, dx, r.Dy())` and advancing the cursor by `dx + gap`. -/
def repeatXLoop (r : Rect) (dx gap : Int) : Nat → Int → List Rect × Int
  | 0, cur => ([], cur)
  | k + 1, cur =>
    let out := repeatXLoop r dx gap k (cur + (dx + gap))
    (Xywh cur r.Min.Y dx r.Dy :: out.1, out.2)

/-- RepeatX repeats the rectangle n times in the X direction with a given gap; it returns the
copies and the overall rectangle `Xyxy(r.Min.X, r.Min.Y, currentX-gap, r.Max.Y)`. -/
def Rect.RepeatX (r : Rect) (n : Int) (gap : Int) : List Rect × Rect :=
  if n ≤ 0 then ([], Rect.zero)
  else
    let dx := r.Dx
    let out := repeatXLoop r dx gap n.toNat r.Min.X
    let currentX := out.2
    (out.1, Xyxy r.Min.X r.Min.Y (currentX - gap) r.Max.Y)

/-- The loop `for i := range n` of `RepeatY`: `k` iterations from cursor `cur`, each emitting
`Xywh(r.Min.X, cur, r.Dx(), dy)` and advancing the cursor by `dy + gap`. -/
def repeatYLoop (r : Rect) (dy gap : Int) : Nat → Int → List Rect × Int
  | 0, cur => ([], cur)
  | k + 1, cur =>
    let out := repeatYLoop r dy gap k (cur + (dy + gap))
    (Xywh r.Min.X cur r.Dx dy :: out.1, out.2)

/-- RepeatY repeats the rectangle n times in the Y direction with a given gap; it returns the
copies and the overall rectangle `Xyxy(r.Min.X, r.Min.Y, r.Max.X, currentY-gap)`. -/
def Rect.RepeatY (r : Rect) (n : Int) (gap : Int) : List Rect × Rect :=
  if n ≤ 0 then ([], Rect.zero)
  else
    let dy := r.Dy
    let out := repeatYLoop r dy gap n.toNat r.Min.Y
    let currentY := out.2
    (out.1, Xyxy r.Min.X r.Min.Y r.Max.X (currentY - gap))

/-! ## More of the rectangle algebra (`loc.go`) -/

/-- In reports whether p is in r. -/
def Point.In (p : Point) (r : Rect) : Bool :=
  decide (r.Min.X ≤ p.X) && decide (p.X < r.Max.X) &&
    decide (r.Min.Y ≤ p.Y) && decide (p.Y < r.Max.Y)

/-- Eq reports whether p and q are equal. -/
def Point.Eq (p q : Point) : Bool := decide (p.X = q.X) && decide (p.Y = q.Y)

/-- Size returns the width and height of r. -/
def Rect.Size (r : Rect) : Point := ⟨r.Max.X - r.Min.X, r.Max.Y - r.Min.Y⟩

/-- Add returns the rectangle r translated by p. -/
def Rect.Add (r : Rect) (p : Point) : Rect :=
  ⟨⟨r.Min.X + p.X, r.Min.Y + p.Y⟩, ⟨r.Max.X + p.X, r.Max.Y + p.Y⟩⟩

/-- In reports whether every point in r is in s. -/
def Rect.In (r s : Rect) : Bool :=
  if r.Empty then true
  else
    decide (s.Min.X ≤ r.Min.X) && decide (r.Max.X ≤ s.Max.X) &&
      decide (s.Min.Y ≤ r.Min.Y) && decide (r.Max.Y ≤ s.Max.Y)

/-- Inset4 returns the rectangle r inset by left, top, right and bottom; an axis whose extent
is less than the two insets together collapses to `(Min + Max) / 2`.  The quotient truncates
toward zero. -/
def Rect.Inset4 (r : Rect) (left top right bottom : Int) : Rect :=
  let minX := if r.Dx < left + right then (r.Min.X + r.Max.X).tdiv 2 else r.Min.X + left
  let maxX := if r.Dx < left + right then minX else r.Max.X - right
  let minY := if r.Dy < top + bottom then (r.Min.Y + r.Max.Y).tdiv 2 else r.Min.Y + top
  let maxY := if r.Dy < top + bottom then minY else r.Max.Y - bottom
  ⟨⟨minX, minY⟩, ⟨maxX, maxY⟩⟩

/-- Intersect returns the largest rectangle contained by both r and s; if the clamped
rectangle is empty the zero rectangle is returned. -/
def Rect.Intersect (r s : Rect) : Rect :=
  let t : Rect :=
    { Min := { X := if r.Min.X < s.Min.X then s.Min.X else r.Min.X,
               Y := if r.Min.Y < s.Min.Y then s.Min.Y else r.Min.Y },
      Max := { X := if r.Max.X > s.Max.X then s.Max.X else r.Max.X,
               Y := if r.Max.Y > s.Max.Y then s.Max.Y else r.Max.Y } }
  if t.Empty then Rect.zero else t

/-- The receiver copy of `Intersect` after its four conditional assignments, before the
emptiness test: the larger of the two `Min` and the smaller of the two `Max` per axis. -/
def Rect.clamped (r s : Rect) : Rect :=
  { Min := { X := if r.Min.X < s.Min.X then s.Min.X else r.Min.X,
             Y := if r.Min.Y < s.Min.Y then s.Min.Y else r.Min.Y },
    Max := { X := if r.Max.X > s.Max.X then s.Max.X else r.Max.X,
             Y := if r.Max.Y > s.Max.Y then s.Max.Y else r.Max.Y } }

/-- Canon returns the canonical version of r: the minimum and maximum coordinates are swapped
per axis where inverted.  The two conditional swaps run in sequence on the copy of r. -/
def Rect.Canon (r : Rect) : Rect :=
  let r1 : Rect :=
    if r.Max.X < r.Min.X then ⟨⟨r.Max.X, r.Min.Y⟩, ⟨r.Min.X, r.Max.Y⟩⟩ else r
  if r1.Max.Y < r1.Min.Y then ⟨⟨r1.Min.X, r1.Max.Y⟩, ⟨r1.Max.X, r1.Min.Y⟩⟩ else r1

/-! ## Rates, anchoring and alignment (`align.go`) -/

/-- The conversion `S(x)` of the source at an integer Scalar, with the `float64` argument taken
as an exact rational: truncation toward zero. -/
def truncRat (x : ℚ) : Int := x.num.tdiv (x.den : Int)

/-- The function `rel` returns a relative portion of length: `S(r * float64(length))`. -/
def rel (length : Int) (r : ℚ) : Int := truncRat (r * (length : ℚ))

/-- Anchor returns a point within r, scaled by rx and ry. -/
def Rect.Anchor (r : Rect) (rx ry : ℚ) : Point :=
  ⟨r.Min.X + rel r.Dx rx, r.Min.Y + rel r.Dy ry⟩

/-- Center returns the center point of r. -/
def Rect.Center (r : Rect) : Point := r.Anchor (1 / 2) (1 / 2)

/-- Align returns a new rectangle where the point p is at the relative position (rx, ry). -/
def Point.Align (p : Point) (r : Rect) (rx ry : ℚ) : Rect :=
  ⟨⟨p.X - rel r.Dx rx, p.Y - rel r.Dy ry⟩,
   ⟨p.X + rel r.Dx (1 - rx), p.Y + rel r.Dy (1 - ry)⟩⟩

/-- AlignCenter returns a new rectangle where the point p is at its center. -/
def Point.AlignCenter (p : Point) (r : Rect) : Rect := p.Align r (1 / 2) (1 / 2)

/-- CutXRate cuts the rectangle by a rate of its width. -/
def Rect.CutXRate (r : Rect) (rate : ℚ) : Rect × Rect := r.CutX (rel r.Dx rate)

/-- CutYRate cuts the rectangle by a rate of its height. -/
def Rect.CutYRate (r : Rect) (rate : ℚ) : Rect × Rect := r.CutY (rel r.Dy rate)

/-! ## The code at `S = int`: 64-bit wrap-around

The definitions above compute over the unbounded integers.  The definitions of this section,
in the namespace `Int64`, are the same source functions at the Scalar `int` of a 64-bit
platform: every `+`, `-` and `*` of the source wraps around modulo `2^64`, comparisons and
quotients are as above.  Arguments are meant to be `int64` values (`InRange`). -/

/-- The least `int64` value. -/
def minInt64 : Int := -9223372036854775808

/-- The greatest `int64` value. -/
def maxInt64 : Int := 9223372036854775807

/-- Wrap-around of `int64` arithmetic: the representative of x modulo `2^64` in
`[-2^63, 2^63)`. -/
def wrap (x : Int) : Int :=
  (x + 9223372036854775808) % 18446744073709551616 - 9223372036854775808

/-- The integer x is an `int64` value. -/
def InRange (x : Int) : Prop := -9223372036854775808 ≤ x ∧ x ≤ 9223372036854775807

instance (x : Int) : Decidable (InRange x) := by
  unfold InRange; exact inferInstance

/-- All four coordinates of r are `int64` values. -/
def Rect.InRange (r : Rect) : Prop :=
  Loc.InRange r.Min.X ∧ Loc.InRange r.Min.Y ∧ Loc.InRange r.Max.X ∧ Loc.InRange r.Max.Y

instance (r : Rect) : Decidable r.InRange := by
  unfold Rect.InRange; exact inferInstance

/-- Xywh creates a rectangle from a point (x, y) and a size (w, h); the sums wrap. -/
def Int64.Xywh (x y w h : Int) : Rect := ⟨⟨x, y⟩, ⟨wrap (x + w), wrap (y + h)⟩⟩

/-- Dx returns the width of r; the difference wraps. -/
def Int64.Dx (r : Rect) : Int := wrap (r.Max.X - r.Min.X)

/-- Dy returns the height of r; the difference wraps. -/
def Int64.Dy (r : Rect) : Int := wrap (r.Max.Y - r.Min.Y)

/-- Size returns the width and height of r; the differences wrap. -/
def Int64.Size (r : Rect) : Point := ⟨wrap (r.Max.X - r.Min.X), wrap (r.Max.Y - r.Min.Y)⟩

/-- Add returns the rectangle r translated by p; the sums wrap. -/
def Int64.Add (r : Rect) (p : Point) : Rect :=
  ⟨⟨wrap (r.Min.X + p.X), wrap (r.Min.Y + p.Y)⟩, ⟨wrap (r.Max.X + p.X), wrap (r.Max.Y + p.Y)⟩⟩

/-- CutX cuts r into two rectangles at `x = r.Min.X + w`, w clamped by
`min(max(w, 0), r.Dx())`. -/
def Int64.CutX (r : Rect) (w : Int) : Rect × Rect :=
  let w := min (max w 0) (Int64.Dx r)
  ({ Min := r.Min, Max := { X := wrap (r.Min.X + w), Y := r.Max.Y } },
   { Min := { X := wrap (r.Min.X + w), Y := r.Min.Y }, Max := r.Max })

/-- CutY cuts r into two rectangles at `y = r.Min.Y + h`, h clamped by
`min(max(h, 0), r.Dy())`. -/
def Int64.CutY (r : Rect) (h : Int) : Rect × Rect :=
  let h := min (max h 0) (Int64.Dy r)
  ({ Min := r.Min, Max := { X := r.Max.X, Y := wrap (r.Min.Y + h) } },
   { Min := { X := r.Min.X, Y := wrap (r.Min.Y + h) }, Max := r.Max })

/-- The loop `for i := range n - 1` of `SplitX`, with a wrapping cursor. -/
def Int64.splitXLoop (r : Rect) (w gap : Int) : Nat → Int → List Rect × Int
  | 0, cur => ([], cur)
  | k + 1, cur =>
    let out := Int64.splitXLoop r w gap k (wrap (cur + wrap (w + gap)))
    (Int64.Xywh cur r.Min.Y w (Int64.Dy r) :: out.1, out.2)

/-- SplitX splits r into n rectangles of (mostly) equal width with a gap between them. -/
def Int64.SplitX (r : Rect) (n : Int) (gap : Int) : List Rect :=
  if n ≤ 0 then []
  else if n = 1 then [r]
  else
    let gap := if gap < 0 then 0 else gap
    let totalItemWidth := wrap (Int64.Dx r - wrap (wrap (n - 1) * gap))
    let totalItemWidth := if totalItemWidth < 0 then 0 else totalItemWidth
    let singleItemWidth := wrap (totalItemWidth.tdiv n)
    let singleItemWidth := if singleItemWidth < 0 then 0 else singleItemWidth
    let out := Int64.splitXLoop r singleItemWidth gap (wrap (n - 1)).toNat r.Min.X
    let currentPosX := out.2
    let lastItemWidth := wrap (r.Max.X - currentPosX)
    let lastItemWidth := if lastItemWidth < 0 then 0 else lastItemWidth
    out.1 ++ [Int64.Xywh currentPosX r.Min.Y lastItemWidth (Int64.Dy r)]

/-- The loop `for i := range n - 1` of `SplitY`, with a wrapping cursor. -/
def Int64.splitYLoop (r : Rect) (h gap : Int) : Nat → Int → List Rect × Int
  | 0, cur => ([], cur)
  | k + 1, cur =>
    let out := Int64.splitYLoop r h gap k (wrap (cur + wrap (h + gap)))
    (Int64.Xywh r.Min.X cur (Int64.Dx r) h :: out.1, out.2)

/-- SplitY splits r into n rectangles of (mostly) equal height with a gap between them. -/
def Int64.SplitY (r : Rect) (n : Int) (gap : Int) : List Rect :=
  if n ≤ 0 then []
  else if n = 1 then [r]
  else
    let gap := if gap < 0 then 0 else gap
    let totalItemHeight := wrap (Int64.Dy r - wrap (wrap (n - 1) * gap))
    let totalItemHeight := if totalItemHeight < 0 then 0 else totalItemHeight
    let singleItemHeight := wrap (totalItemHeight.tdiv n)
    let singleItemHeight := if singleItemHeight < 0 then 0 else singleItemHeight
    let out := Int64.splitYLoop r singleItemHeight gap (wrap (n - 1)).toNat r.Min.Y
    let currentPosY := out.2
    let lastItemHeight := wrap (r.Max.Y - currentPosY)
    let lastItemHeight := if lastItemHeight < 0 then 0 else lastItemHeight
    out.1 ++ [Int64.Xywh r.Min.X currentPosY (Int64.Dx r) lastItemHeight]

/-- The loop `for i := range n` of `RepeatX`, with a wrapping cursor. -/
def Int64.repeatXLoop (r : Rect) (dx gap : Int) : Nat → Int → List Rect × Int
  | 0, cur => ([], cur)
  | k + 1, cur =>
    let out := Int64.repeatXLoop r dx gap k (wrap (cur + wrap (dx + gap)))
    (Int64.Xywh cur r.Min.Y dx (Int64.Dy r) :: out.1, out.2)

/-- RepeatX repeats the rectangle n times in the X direction with a given gap. -/
def Int64.RepeatX (r : Rect) (n : Int) (gap : Int) : List Rect × Rect :=
  if n ≤ 0 then ([], Rect.zero)
  else
    let dx := Int64.Dx r
    let out := Int64.repeatXLoop r dx gap n.toNat r.Min.X
    let currentX := out.2
    (out.1, Xyxy r.Min.X r.Min.Y (wrap (currentX - gap)) r.Max.Y)

/-- The loop `for i := range n` of `RepeatY`, with a wrapping cursor. -/
def Int64.repeatYLoop (r : Rect) (dy gap : Int) : Nat → Int → List Rect × Int
  | 0, cur => ([], cur)
  | k + 1, cur =>
    let out := Int64.repeatYLoop r dy gap k (wrap (cur + wrap (dy + gap)))
    (Int64.Xywh r.Min.X cur (Int64.Dx r) dy :: out.1, out.2)

/-- RepeatY repeats the rectangle n times in the Y direction with a given gap. -/
def Int64.RepeatY (r : Rect) (n : Int) (gap : Int) : List Rect × Rect :=
  if n ≤ 0 then ([], Rect.zero)
  else
    let dy := Int64.Dy r
    let out := Int64.repeatYLoop r dy gap n.toNat r.Min.Y
    let currentY := out.2
    (out.1, Xyxy r.Min.X r.Min.Y r.Max.X (wrap (currentY - gap)))

/-- Inset4 returns the rectangle r inset by left, top, right and bottom; the sums
`left+right`, `top+bottom`, `Min+Max` and the shifted edges wrap. -/
def Int64.Inset4 (r : Rect) (left top right bottom : Int) : Rect :=
  let minX := if Int64.Dx r < wrap (left + right) then (wrap (r.Min.X + r.Max.X)).tdiv 2
    else wrap (r.Min.X + left)
  let maxX := if Int64.Dx r < wrap (left + right) then minX else wrap (r.Max.X - right)
  let minY := if Int64.Dy r < wrap (top + bottom) then (wrap (r.Min.Y + r.Max.Y)).tdiv 2
    else wrap (r.Min.Y + top)
  let maxY := if Int64.Dy r < wrap (top + bottom) then minY else wrap (r.Max.Y - bottom)
  ⟨⟨minX, minY⟩, ⟨maxX, maxY⟩⟩

/-- The arguments of `r.SplitX(n, gap)` are `int64` values, r is well-formed along X, and no
quantity of the computation leaves the `int64` range: the width, the total of the gaps, and
the cursor behind the last gap. -/
def SplitXInRange (r : Rect) (n gap : Int) : Prop :=
  r.InRange ∧ InRange n ∧ InRange gap ∧ r.Min.X ≤ r.Max.X ∧
    r.Max.X - r.Min.X ≤ maxInt64 ∧ (n - 1) * max gap 0 ≤ maxInt64 ∧
    r.Min.X + (n - 1) * max gap 0 ≤ maxInt64

instance (r : Rect) (n gap : Int) : Decidable (SplitXInRange r n gap) := by
  unfold SplitXInRange; exact inferInstance

/-- The arguments of `r.SplitY(n, gap)` are `int64` values, r is well-formed along Y, and no
quantity of the computation leaves the `int64` range. -/
def SplitYInRange (r : Rect) (n gap : Int) : Prop :=
  r.InRange ∧ InRange n ∧ InRange gap ∧ r.Min.Y ≤ r.Max.Y ∧
    r.Max.Y - r.Min.Y ≤ maxInt64 ∧ (n - 1) * max gap 0 ≤ maxInt64 ∧
    r.Min.Y + (n - 1) * max gap 0 ≤ maxInt64

instance (r : Rect) (n gap : Int) : Decidable (SplitYInRange r n gap) := by
  unfold SplitYInRange; exact inferInstance

/-! ## The code at `S = int`: rates through `float64`

A `float64` value is the rational it denotes.  An arithmetic result is rounded to the nearest
`float64`, ties to even (53-bit significand, least exponent `-1074`); a result beyond the
largest finite `float64` is left as it is, since the conversion to `int` treats it like any
other value outside the `int64` range. -/

/-- Binary logarithm by halving, with fuel. -/
def log2Fuel : Nat → Nat → Nat
  | 0, _ => 0
  | fuel + 1, n => if 2 ≤ n then log2Fuel fuel (n / 2) + 1 else 0

/-- The greatest k with `2^k <= n`, for `n >= 1`. -/
def natLog2 (n : Nat) : Nat := log2Fuel n n

/-- The power `2^e` for an integer exponent. -/
def pow2 (e : Int) : ℚ :=
  if 0 ≤ e then ((2 ^ e.toNat : Nat) : ℚ) else 1 / ((2 ^ (-e).toNat : Nat) : ℚ)

/-- The exponent e with `2^e <= x < 2^(e+1)`, for `x > 0`. -/
def floorLog2 (x : ℚ) : Int :=
  let e0 : Int := (natLog2 x.num.natAbs : Int) - (natLog2 x.den : Int)
  if pow2 e0 ≤ x then e0 else e0 - 1

/-- The nearest integer, ties to even. -/
def roundEven (m : ℚ) : Int :=
  let f : Int := m.num / (m.den : Int)
  if m - f < 1 / 2 then f
  else if 1 / 2 < m - f then f + 1
  else if f % 2 = 0 then f else f + 1

/-- The nearest `float64` to x, ties to even. -/
def roundFloat64 (x : ℚ) : ℚ :=
  if x = 0 then 0
  else
    let a : ℚ := if x < 0 then -x else x
    let q : Int := max (floorLog2 a - 52) (-1074)
    (roundEven (x / pow2 q) : ℚ) * pow2 q

/-- The conversion `int(x)` of a `float64`: truncation toward zero; outside the `int64`
range the result depends on the platform, and is the least `int64` on amd64. -/
def toInt64 (x : ℚ) : Int :=
  if minInt64 ≤ truncRat x ∧ truncRat x ≤ maxInt64 then truncRat x else minInt64

/-- The function `rel` returns a relative portion of length: `S(r * float64(length))`, with
the conversion of the length, the product and the conversion back as the code performs
them. -/
def Int64.rel (length : Int) (r : ℚ) : Int :=
  toInt64 (roundFloat64 (r * roundFloat64 (length : ℚ)))

/-- Anchor returns a point within r, scaled by rx and ry. -/
def Int64.Anchor (r : Rect) (rx ry : ℚ) : Point :=
  ⟨wrap (r.Min.X + Int64.rel (Int64.Dx r) rx), wrap (r.Min.Y + Int64.rel (Int64.Dy r) ry)⟩

/-- Center returns the center point of r. -/
def Int64.Center (r : Rect) : Point := Int64.Anchor r (1 / 2) (1 / 2)

/-- Align returns a new rectangle where the point p is at the relative position (rx, ry);
`1-rx` and `1-ry` are `float64` differences. -/
def Int64.Align (p : Point) (r : Rect) (rx ry : ℚ) : Rect :=
  ⟨⟨wrap (p.X - Int64.rel (Int64.Dx r) rx), wrap (p.Y - Int64.rel (Int64.Dy r) ry)⟩,
   ⟨wrap (p.X + Int64.rel (Int64.Dx r) (roundFloat64 (1 - rx))),
    wrap (p.Y + Int64.rel (Int64.Dy r) (roundFloat64 (1 - ry)))⟩⟩

/-- AlignCenter returns a new rectangle where the point p is at its center. -/
def Int64.AlignCenter (p : Point) (r : Rect) : Rect := Int64.Align p r (1 / 2) (1 / 2)

/-- CutXRate cuts the rectangle by a rate of its width. -/
def Int64.CutXRate (r : Rect) (rate : ℚ) : Rect × Rect :=
  Int64.CutX r (Int64.rel (Int64.Dx r) rate)

/-- CutYRate cuts the rectangle by a rate of its height. -/
def Int64.CutYRate (r : Rect) (rate : ℚ) : Rect × Rect :=
  Int64.CutY r (Int64.rel (Int64.Dy r) rate)

/-- Rejoining a sequence of parts: `u := Rect{}; for _, p := range parts { u = u.Union(p) }`. -/
def unionAll (parts : List Rect) : Rect := parts.foldl Rect.Union Rect.zero

/-- Reflection about the diagonal (X and Y exchanged); a proof device that carries every
X-axis result to the Y axis. -/
def Point.swap (p : Point) : Point := ⟨p.Y, p.X⟩

/-- Reflection of a rectangle about the diagonal. -/
def Rect.swap (r : Rect) : Rect := ⟨r.Min.swap, r.Max.swap⟩

/-! ## Cut: clamping, conservation, rejoining -/

/-- Over unbounded integers CutX clamps its offset.  For a well-formed r: if `w <= 0` then
`got` is the zero-width
rectangle `Rect{r.Min, (r.Min.X, r.Max.Y)}` (which is Empty) and `rest` is r; if `w >= r.Dx()`
then `got` is r and `rest` is the zero-width rectangle `Rect{(r.Max.X, r.Min.Y), r.Max}`
(which is Empty).  CutY behaves the same way on the Y axis with h and `r.Dy()`. -/
theorem cut_clamps (r : Rect) (hr : r.WellFormed) (w : Int) :
    (w ≤ 0 → (r.CutX w).1 = ⟨r.Min, ⟨r.Min.X, r.Max.Y⟩⟩ ∧ (r.CutX w).1.Empty = true ∧
        (r.CutX w).2 = r) ∧
    (w ≥ r.Dx → (r.CutX w).1 = r ∧ (r.CutX w).2 = ⟨⟨r.Max.X, r.Min.Y⟩, r.Max⟩ ∧
        (r.CutX w).2.Empty = true) ∧
    (w ≤ 0 → (r.CutY w).1 = ⟨r.Min, ⟨r.Max.X, r.Min.Y⟩⟩ ∧ (r.CutY w).1.Empty = true ∧
        (r.CutY w).2 = r) ∧
    (w ≥ r.Dy → (r.CutY w).1 = r ∧ (r.CutY w).2 = ⟨⟨r.Min.X, r.Max.Y⟩, r.Max⟩ ∧
        (r.CutY w).2.Empty = true) := by
  obtain ⟨⟨a, b⟩, ⟨c, d⟩⟩ := r
  obtain ⟨hx, hy⟩ := hr
  simp only [Rect.Dx, Rect.Dy] at *
  refine ⟨fun hw => ?_, fun hw => ?_, fun hw => ?_, fun hw => ?_⟩
  · have e : min (max w 0) (c - a) = 0 := by omega
    simp [Rect.CutX, Rect.Dx, Rect.Empty, e]
  · have e : min (max w 0) (c - a) = c - a := by omega
    simp [Rect.CutX, Rect.Dx, Rect.Empty, e]
  · have e : min (max w 0) (d - b) = 0 := by omega
    simp [Rect.CutY, Rect.Dy, Rect.Empty, e]
  · have e : min (max w 0) (d - b) = d - b := by omega
    simp [Rect.CutY, Rect.Dy, Rect.Empty, e]

/-- C2: CutX conserves width and CutY conserves height, for every rectangle (well-formed or
not) and every offset: `got.Dx() + rest.Dx() == r.Dx()` and `got.Dy() + rest.Dy() == r.Dy()`. -/
theorem cut_conserves_extent (r : Rect) (w : Int) :
    (r.CutX w).1.Dx + (r.CutX w).2.Dx = r.Dx ∧ (r.CutY w).1.Dy + (r.CutY w).2.Dy = r.Dy := by
  simp only [Rect.CutX, Rect.CutY, Rect.Dx, Rect.Dy]
  constructor <;> omega

/-- Rejoining the two sides of a vertical cut line `m` with `a <= m <= c`. -/
theorem union_cut_line (a b c d m : Int) (h1 : a ≤ m) (h2 : m ≤ c) (hy : b ≤ d) :
    (Rect.Union ⟨⟨a, b⟩, ⟨m, d⟩⟩ ⟨⟨m, b⟩, ⟨c, d⟩⟩).Eq ⟨⟨a, b⟩, ⟨c, d⟩⟩ = true ∧
    (Rect.Empty ⟨⟨a, b⟩, ⟨m, d⟩⟩ = false → Rect.Empty ⟨⟨m, b⟩, ⟨c, d⟩⟩ = false →
      Rect.Union ⟨⟨a, b⟩, ⟨m, d⟩⟩ ⟨⟨m, b⟩, ⟨c, d⟩⟩ = ⟨⟨a, b⟩, ⟨c, d⟩⟩) := by
  by_cases hbd : b = d
  · subst hbd
    simp [Rect.Union, Rect.Empty, Rect.Eq]
  have hbd2 : ¬ d ≤ b := by omega
  by_cases ham : a = m
  · subst ham
    simp [Rect.Union, Rect.Empty, Rect.Eq]
  have ham2 : ¬ m ≤ a := by omega
  by_cases hmc : m = c
  · subst hmc
    simp [Rect.Union, Rect.Empty, Rect.Eq, hbd2, ham2]
  have hmc2 : ¬ c ≤ m := by omega
  have hma : ¬ m < a := by omega
  have hcm : m < c := by omega
  simp [Rect.Union, Rect.Empty, Rect.Eq, hbd2, ham2, hmc2, hma, hcm]

/-- Rejoining the two sides of a horizontal cut line `k` with `b <= k <= d`. -/
theorem union_cut_row (a b c d k : Int) (hx : a ≤ c) (h1 : b ≤ k) (h2 : k ≤ d) :
    (Rect.Union ⟨⟨a, b⟩, ⟨c, k⟩⟩ ⟨⟨a, k⟩, ⟨c, d⟩⟩).Eq ⟨⟨a, b⟩, ⟨c, d⟩⟩ = true ∧
    (Rect.Empty ⟨⟨a, b⟩, ⟨c, k⟩⟩ = false → Rect.Empty ⟨⟨a, k⟩, ⟨c, d⟩⟩ = false →
      Rect.Union ⟨⟨a, b⟩, ⟨c, k⟩⟩ ⟨⟨a, k⟩, ⟨c, d⟩⟩ = ⟨⟨a, b⟩, ⟨c, d⟩⟩) := by
  by_cases hac : a = c
  · subst hac
    simp [Rect.Union, Rect.Empty, Rect.Eq]
  have hac2 : ¬ c ≤ a := by omega
  by_cases hbk : b = k
  · subst hbk
    simp [Rect.Union, Rect.Empty, Rect.Eq]
  have hbk2 : ¬ k ≤ b := by omega
  by_cases hkd : k = d
  · subst hkd
    simp [Rect.Union, Rect.Empty, Rect.Eq, hac2, hbk2]
  have hkd2 : ¬ d ≤ k := by omega
  have hkb : ¬ k < b := by omega
  have hdk : k < d := by omega
  simp [Rect.Union, Rect.Empty, Rect.Eq, hac2, hbk2, hkd2, hkb, hdk]

/-- C3: cutting then rejoining restores the rectangle.  For a well-formed r and every offset,
`got.Union(rest).Eq(r)`; when neither part is Empty the union is r itself.  Same for CutY. -/
theorem cut_union_restores (r : Rect) (hr : r.WellFormed) (w : Int) :
    ((r.CutX w).1.Union (r.CutX w).2).Eq r = true ∧
    ((r.CutX w).1.Empty = false → (r.CutX w).2.Empty = false →
      (r.CutX w).1.Union (r.CutX w).2 = r) ∧
    ((r.CutY w).1.Union (r.CutY w).2).Eq r = true ∧
    ((r.CutY w).1.Empty = false → (r.CutY w).2.Empty = false →
      (r.CutY w).1.Union (r.CutY w).2 = r) := by
  obtain ⟨⟨a, b⟩, ⟨c, d⟩⟩ := r
  obtain ⟨hx, hy⟩ := hr
  simp only at hx hy
  have key : ∀ (lo hi v : Int), lo ≤ hi → lo ≤ lo + min (max v 0) (hi - lo) ∧
      lo + min (max v 0) (hi - lo) ≤ hi := by
    intro lo hi v h; omega
  obtain ⟨x1, x2⟩ := key a c w hx
  obtain ⟨y1, y2⟩ := key b d w hy
  have hX := union_cut_line a b c d _ x1 x2 hy
  have hY := union_cut_row a b c d _ hx y1 y2
  exact ⟨hX.1, hX.2, hY.1, hY.2⟩

/-- Witness of C3 at `Xyxy(0, 0, 100, 50)` cut at 30. -/
theorem cut_union_restores_witness :
    (Xyxy 0 0 100 50).WellFormed ∧
    (((Xyxy 0 0 100 50).CutX 30).1.Union ((Xyxy 0 0 100 50).CutX 30).2).Eq
      (Xyxy 0 0 100 50) = true :=
  ⟨by decide, (cut_union_restores (Xyxy 0 0 100 50) (by decide) 30).1⟩

/-! ## Split: the loop and the closed form of the parts -/

theorem splitXLoop_length (r : Rect) (w g : Int) (k : Nat) (cur : Int) :
    (splitXLoop r w g k cur).1.length = k := by
  induction k generalizing cur with
  | zero => rfl
  | succ k ih => simp [splitXLoop, ih]

theorem splitXLoop_cursor (r : Rect) (w g : Int) (k : Nat) (cur : Int) :
    (splitXLoop r w g k cur).2 = cur + (k : Int) * (w + g) := by
  induction k generalizing cur with
  | zero => simp [splitXLoop]
  | succ k ih =>
    simp only [splitXLoop, ih]
    push_cast
    ring

theorem splitXLoop_getElem (r : Rect) (w g : Int) (k : Nat) (cur : Int) (i : Nat) (hi : i < k) :
    (splitXLoop r w g k cur).1[i]? = some (Xywh (cur + (i : Int) * (w + g)) r.Min.Y w r.Dy) := by
  induction k generalizing cur i with
  | zero => omega
  | succ k ih =>
    cases i with
    | zero => simp [splitXLoop]
    | succ i =>
      have h := ih (cur + (w + g)) i (by omega)
      simp only [splitXLoop, List.getElem?_cons_succ, h]
      congr 2
      push_cast
      ring

theorem splitYLoop_eq_swap (r : Rect) (h g : Int) (k : Nat) (cur : Int) :
    splitYLoop r h g k cur =
      ((splitXLoop r.swap h g k cur).1.map Rect.swap, (splitXLoop r.swap h g k cur).2) := by
  induction k generalizing cur with
  | zero => rfl
  | succ k ih =>
    simp only [splitYLoop, splitXLoop, ih, List.map_cons]
    rfl

theorem swap_swap (r : Rect) : r.swap.swap = r := rfl

/-- SplitY is SplitX reflected about the diagonal. -/
theorem SplitY_eq_swap (r : Rect) (n gap : Int) :
    r.SplitY n gap = (r.swap.SplitX n gap).map Rect.swap := by
  by_cases h1 : n ≤ 0
  · simp [Rect.SplitY, Rect.SplitX, h1]
  by_cases h2 : n = 1
  · subst h2
    simp [Rect.SplitY, Rect.SplitX, swap_swap]
  unfold Rect.SplitY Rect.SplitX
  rw [if_neg h1, if_neg h2, if_neg h1, if_neg h2]
  simp only [splitYLoop_eq_swap, List.map_append, List.map_cons, List.map_nil]
  rfl

/-- The uniform item width computed by `SplitX`, in terms of the clamped gap. -/
theorem tdiv_item (a n : Int) (ha : 0 ≤ a) (hn : 2 ≤ n) :
    (if a.tdiv n < 0 then 0 else a.tdiv n) = a / n ∧ 0 ≤ a / n ∧ n * (a / n) ≤ a ∧
      a < n * (a / n) + n := by
  have e : a.tdiv n = a / n := Int.tdiv_eq_ediv ha (by omega)
  have h0 : 0 ≤ a / n := Int.ediv_nonneg ha (by omega)
  have h1 : n * (a / n) ≤ a := Int.mul_ediv_self_le (by omega)
  have h2 : a < n * (a / n) + n := Int.lt_mul_ediv_self_add (by omega)
  rw [e]
  refine ⟨?_, h0, h1, h2⟩
  simp [h0]

/-- Closed form of `SplitX` for `n >= 2`: the loop output followed by the last item. -/
theorem SplitX_closed (r : Rect) (n gap : Int) (hn : 2 ≤ n) :
    r.SplitX n gap =
      (splitXLoop r ((max 0 (r.Dx - (n - 1) * max gap 0)) / n) (max gap 0)
          (n - 1).toNat r.Min.X).1 ++
        [Xywh (r.Min.X + (n - 1) * ((max 0 (r.Dx - (n - 1) * max gap 0)) / n + max gap 0))
          r.Min.Y
          (max 0 (r.Max.X -
            (r.Min.X + (n - 1) * ((max 0 (r.Dx - (n - 1) * max gap 0)) / n + max gap 0))))
          r.Dy] := by
  have hg : (if gap < 0 then 0 else gap) = max gap 0 := by
    split_ifs <;> omega
  have ha : ∀ t : Int, (if t < 0 then 0 else t) = max 0 t := by
    intro t; split_ifs <;> omega
  have hk : (((n - 1).toNat : Nat) : Int) = n - 1 := Int.toNat_of_nonneg (by omega)
  unfold Rect.SplitX
  rw [if_neg (by omega), if_neg (by omega)]
  simp only [hg, ha (r.Dx - (n - 1) * max gap 0), splitXLoop_cursor, hk]
  have hw := (tdiv_item (max 0 (r.Dx - (n - 1) * max gap 0)) n (by omega) hn).1
  rw [ha] at hw
  have hw0 := (tdiv_item (max 0 (r.Dx - (n - 1) * max gap 0)) n (by omega) hn).2.1
  have hw2 : max 0 ((max 0 (r.Dx - (n - 1) * max gap 0)).tdiv n) =
      (max 0 (r.Dx - (n - 1) * max gap 0)) / n := by
    rw [hw]
  rw [ha, hw2, ha]

/-- The parts of `SplitX` for `n >= 2`, by index: `n - 1` uniform items, then the last item. -/
theorem SplitX_parts (r : Rect) (n gap : Int) (hn : 2 ≤ n) (g w : Int) (hg : g = max gap 0)
    (hw : w = (max 0 (r.Dx - (n - 1) * g)) / n) :
    ((r.SplitX n gap).length : Int) = n ∧
    (∀ i : Nat, (i : Int) < n - 1 →
      (r.SplitX n gap)[i]? = some (Xywh (r.Min.X + (i : Int) * (w + g)) r.Min.Y w r.Dy)) ∧
    (r.SplitX n gap)[(n - 1).toNat]? =
      some (Xywh (r.Min.X + (n - 1) * (w + g)) r.Min.Y
        (max 0 (r.Max.X - (r.Min.X + (n - 1) * (w + g)))) r.Dy) ∧
    (r.SplitX n gap).getLast? =
      some (Xywh (r.Min.X + (n - 1) * (w + g)) r.Min.Y
        (max 0 (r.Max.X - (r.Min.X + (n - 1) * (w + g)))) r.Dy) := by
  subst hg hw
  have hk : (((n - 1).toNat : Nat) : Int) = n - 1 := Int.toNat_of_nonneg (by omega)
  rw [SplitX_closed r n gap hn]
  refine ⟨?_, ?_, ?_, ?_⟩
  · rw [List.length_append, splitXLoop_length]
    push_cast
    rw [hk]
    simp
  · intro i hi
    have hi2 : i < (n - 1).toNat := by omega
    rw [List.getElem?_append_left (by rw [splitXLoop_length]; exact hi2)]
    exact splitXLoop_getElem r _ _ _ _ i hi2
  · rw [List.getElem?_append_right (by rw [splitXLoop_length])]
    simp [splitXLoop_length]
  · simp

theorem Xywh_swap (x y w h : Int) : (Xywh x y w h).swap = Xywh y x h w := rfl

/-- The parts of `SplitY` for `n >= 2`, by index. -/
theorem SplitY_parts (r : Rect) (n gap : Int) (hn : 2 ≤ n) (g h : Int) (hg : g = max gap 0)
    (hh : h = (max 0 (r.Dy - (n - 1) * g)) / n) :
    ((r.SplitY n gap).length : Int) = n ∧
    (∀ i : Nat, (i : Int) < n - 1 →
      (r.SplitY n gap)[i]? = some (Xywh r.Min.X (r.Min.Y + (i : Int) * (h + g)) r.Dx h)) ∧
    (r.SplitY n gap)[(n - 1).toNat]? =
      some (Xywh r.Min.X (r.Min.Y + (n - 1) * (h + g)) r.Dx
        (max 0 (r.Max.Y - (r.Min.Y + (n - 1) * (h + g))))) ∧
    (r.SplitY n gap).getLast? =
      some (Xywh r.Min.X (r.Min.Y + (n - 1) * (h + g)) r.Dx
        (max 0 (r.Max.Y - (r.Min.Y + (n - 1) * (h + g))))) := by
  obtain ⟨p1, p2, p3, p4⟩ := SplitX_parts r.swap n gap hn g h hg hh
  rw [SplitY_eq_swap]
  refine ⟨?_, ?_, ?_, ?_⟩
  · rw [List.length_map]; exact p1
  · intro i hi
    rw [List.getElem?_map, p2 i hi]
    rfl
  · rw [List.getElem?_map, p3]
    rfl
  · rw [List.getLast?_map, p4]
    rfl

/-- Arithmetic of the uniform width `w = max(0, D - (n-1)*g) / n` for `n >= 2`, `g >= 0`. -/
theorem split_arith (D g n w : Int) (hn : 2 ≤ n) (hw : w = (max 0 (D - (n - 1) * g)) / n) :
    0 ≤ w ∧
    ((n - 1) * g ≤ D → (n - 1) * (w + g) ≤ D ∧ n * w ≤ D - (n - 1) * g ∧
      D - (n - 1) * g < n * w + n) ∧
    (D < (n - 1) * g → w = 0) := by
  obtain ⟨-, h0, h1, h2⟩ := tdiv_item (max 0 (D - (n - 1) * g)) n (by omega) hn
  rw [← hw] at h0 h1 h2
  have e : (n - 1) * (w + g) = n * w - w + (n - 1) * g := by ring
  refine ⟨h0, fun h => ?_, fun h => ?_⟩
  · rw [e]
    have hm : max 0 (D - (n - 1) * g) = D - (n - 1) * g := by omega
    rw [hm] at h1 h2
    refine ⟨by omega, h1, h2⟩
  · have hm : max 0 (D - (n - 1) * g) = 0 := by omega
    rw [hw, hm]
    simp

/-! ## Split: the far edge -/

/-! ## Split: uniform parts, tiling, gaps -/

/-- Over unbounded integers: for `n >= 2`, with `g = max(gap, 0)`,
`avail = max(0, r.Dx() - (n-1)*g)` and
`w = avail / n`, `r.SplitX(n, gap)` has exactly n elements, element `i < n-1` is
`Xywh(r.Min.X + i*(w+g), r.Min.Y, w, r.Dy())`, and element `i+1` starts at element i's
`Max.X + g`.  SplitY is the same on the Y axis, with `r.Dy()` in place of `r.Dx()`. -/
theorem split_uniform_parts (r : Rect) (n gap : Int) (hn : 2 ≤ n) (g w h : Int)
    (hg : g = max gap 0) (hw : w = (max 0 (r.Dx - (n - 1) * g)) / n)
    (hh : h = (max 0 (r.Dy - (n - 1) * g)) / n) :
    (((r.SplitX n gap).length : Int) = n ∧
      (∀ i : Nat, (i : Int) < n - 1 →
        (r.SplitX n gap)[i]? = some (Xywh (r.Min.X + (i : Int) * (w + g)) r.Min.Y w r.Dy)) ∧
      (∀ i : Nat, (i : Int) < n - 1 → ∃ p q, (r.SplitX n gap)[i]? = some p ∧
        (r.SplitX n gap)[i + 1]? = some q ∧ q.Min.X = p.Max.X + g)) ∧
    (((r.SplitY n gap).length : Int) = n ∧
      (∀ i : Nat, (i : Int) < n - 1 →
        (r.SplitY n gap)[i]? = some (Xywh r.Min.X (r.Min.Y + (i : Int) * (h + g)) r.Dx h)) ∧
      (∀ i : Nat, (i : Int) < n - 1 → ∃ p q, (r.SplitY n gap)[i]? = some p ∧
        (r.SplitY n gap)[i + 1]? = some q ∧ q.Min.Y = p.Max.Y + g)) := by
  obtain ⟨x1, x2, x3, -⟩ := SplitX_parts r n gap hn g w hg hw
  obtain ⟨y1, y2, y3, -⟩ := SplitY_parts r n gap hn g h hg hh
  refine ⟨⟨x1, x2, fun i hi => ?_⟩, ⟨y1, y2, fun i hi => ?_⟩⟩
  · by_cases hlast : ((i + 1 : Nat) : Int) < n - 1
    · refine ⟨_, _, x2 i hi, x2 (i + 1) hlast, ?_⟩
      simp only [Xywh]
      push_cast
      ring
    · have e : i + 1 = (n - 1).toNat := by omega
      have e2 : n - 1 = (i : Int) + 1 := by omega
      refine ⟨_, _, x2 i hi, e ▸ x3, ?_⟩
      simp only [Xywh, e2]
      ring
  · by_cases hlast : ((i + 1 : Nat) : Int) < n - 1
    · refine ⟨_, _, y2 i hi, y2 (i + 1) hlast, ?_⟩
      simp only [Xywh]
      push_cast
      ring
    · have e : i + 1 = (n - 1).toNat := by omega
      have e2 : n - 1 = (i : Int) + 1 := by omega
      refine ⟨_, _, y2 i hi, e ▸ y3, ?_⟩
      simp only [Xywh, e2]
      ring

theorem splitXLoop_sum_Dx (r : Rect) (w g : Int) (k : Nat) (cur : Int) :
    ((splitXLoop r w g k cur).1.map Rect.Dx).sum = (k : Int) * w := by
  induction k generalizing cur with
  | zero => simp [splitXLoop]
  | succ k ih =>
    simp only [splitXLoop, List.map_cons, List.sum_cons, ih]
    simp only [Xywh, Rect.Dx]
    push_cast
    ring

/-- Tiling on the X axis: sum of widths, first start and last end, when the gaps fit. -/
theorem SplitX_tiles (r : Rect) (n gap : Int) (hn : 1 ≤ n) (hfit : (n - 1) * max gap 0 ≤ r.Dx) :
    ((r.SplitX n gap).map Rect.Dx).sum = r.Dx - (n - 1) * max gap 0 ∧
    (∃ p, (r.SplitX n gap).head? = some p ∧ p.Min.X = r.Min.X) ∧
    (∃ q, (r.SplitX n gap).getLast? = some q ∧ q.Max.X = r.Max.X) := by
  by_cases h1 : n = 1
  · subst h1
    simp [Rect.SplitX]
  have hn2 : 2 ≤ n := by omega
  obtain ⟨-, p2, -, p4⟩ := SplitX_parts r n gap hn2 _ _ rfl rfl
  obtain ⟨h0, ha, -⟩ := split_arith r.Dx (max gap 0) n _ hn2 rfl
  obtain ⟨ha1, -, -⟩ := ha hfit
  have hk : (((n - 1).toNat : Nat) : Int) = n - 1 := Int.toNat_of_nonneg (by omega)
  refine ⟨?_, ?_, ?_⟩
  · rw [SplitX_closed r n gap hn2, List.map_append, List.sum_append, splitXLoop_sum_Dx, hk]
    generalize (max 0 (r.Dx - (n - 1) * max gap 0)) / n = w at h0 ha1 ⊢
    have e : (n - 1) * (w + max gap 0) = (n - 1) * w + (n - 1) * max gap 0 := by ring
    simp only [Xywh, Rect.Dx, List.map_cons, List.map_nil, List.sum_cons, List.sum_nil] at *
    omega
  · have := p2 0 (by simp; omega)
    rw [List.head?_eq_getElem?, this]
    exact ⟨_, rfl, by simp [Xywh]⟩
  · refine ⟨_, p4, ?_⟩
    generalize (max 0 (r.Dx - (n - 1) * max gap 0)) / n = w at h0 ha1 ⊢
    simp only [Xywh, Rect.Dx] at *
    omega

/-- Over unbounded integers: when the gaps fit, `(n-1) * max(gap, 0) <= r.Dx()`, the widths
of the parts of
`r.SplitX(n, gap)` for `n >= 1` sum to `r.Dx() - (n-1)*g`, the first part starts at `r.Min.X`
and the last part ends at `r.Max.X`.  The same holds for SplitY with heights. -/
theorem split_tiles_extent (r : Rect) (n gap : Int) (hn : 1 ≤ n) (g : Int) (hg : g = max gap 0) :
    ((n - 1) * g ≤ r.Dx →
      ((r.SplitX n gap).map Rect.Dx).sum = r.Dx - (n - 1) * g ∧
      (∃ p, (r.SplitX n gap).head? = some p ∧ p.Min.X = r.Min.X) ∧
      (∃ q, (r.SplitX n gap).getLast? = some q ∧ q.Max.X = r.Max.X)) ∧
    ((n - 1) * g ≤ r.Dy →
      ((r.SplitY n gap).map Rect.Dy).sum = r.Dy - (n - 1) * g ∧
      (∃ p, (r.SplitY n gap).head? = some p ∧ p.Min.Y = r.Min.Y) ∧
      (∃ q, (r.SplitY n gap).getLast? = some q ∧ q.Max.Y = r.Max.Y)) := by
  subst hg
  refine ⟨fun hfit => SplitX_tiles r n gap hn hfit, fun hfit => ?_⟩
  obtain ⟨t1, ⟨p, tp, hp⟩, ⟨q, tq, hq⟩⟩ := SplitX_tiles r.swap n gap hn hfit
  rw [SplitY_eq_swap]
  refine ⟨?_, ⟨p.swap, ?_, hp⟩, ⟨q.swap, ?_, hq⟩⟩
  · rw [List.map_map]
    exact t1
  · rw [List.head?_map, tp]
    rfl
  · rw [List.getLast?_map, tq]
    rfl

/-- C7: a negative split gap is neutralised.  For every r, every n and every `gap < 0`,
`r.SplitX(n, gap)` is `r.SplitX(n, 0)` and `r.SplitY(n, gap)` is `r.SplitY(n, 0)`. -/
theorem split_negative_gap_neutralised (r : Rect) (n gap : Int) (hgap : gap < 0) :
    r.SplitX n gap = r.SplitX n 0 ∧ r.SplitY n gap = r.SplitY n 0 := by
  simp [Rect.SplitX, Rect.SplitY, hgap]

/-- Witness of C7 at `Xyxy(0, 0, 100, 50)`, `n = 3`, `gap = -7`. -/
theorem split_negative_gap_neutralised_witness :
    (-7 : Int) < 0 ∧ (Xyxy 0 0 100 50).SplitX 3 (-7) = (Xyxy 0 0 100 50).SplitX 3 0 ∧
      (Xyxy 0 0 100 50).SplitY 3 (-7) = (Xyxy 0 0 100 50).SplitY 3 0 :=
  ⟨by decide, split_negative_gap_neutralised (Xyxy 0 0 100 50) 3 (-7) (by decide)⟩

/-- Over unbounded integers: when the gaps alone exceed the extent, `(n-1)*gap > r.Dx()` with
`n >= 2` and `gap > 0`,
element i of `r.SplitX(n, gap)` is `Xyxy(r.Min.X + i*gap, r.Min.Y, r.Min.X + i*gap, r.Max.Y)`
for every `i < n`, the last included.  SplitY is the same on the Y axis. -/
theorem split_large_gap_collapses (r : Rect) (n gap : Int) (hn : 2 ≤ n) (hgap : 0 < gap) :
    ((n - 1) * gap > r.Dx → ∀ i : Nat, (i : Int) < n →
      (r.SplitX n gap)[i]? =
        some (Xyxy (r.Min.X + (i : Int) * gap) r.Min.Y (r.Min.X + (i : Int) * gap) r.Max.Y)) ∧
    ((n - 1) * gap > r.Dy → ∀ i : Nat, (i : Int) < n →
      (r.SplitY n gap)[i]? =
        some (Xyxy r.Min.X (r.Min.Y + (i : Int) * gap) r.Max.X (r.Min.Y + (i : Int) * gap))) := by
  have hg : max gap 0 = gap := by omega
  constructor
  · intro hbig i hi
    obtain ⟨-, p2, p3, -⟩ := SplitX_parts r n gap hn _ _ rfl rfl
    obtain ⟨-, -, hz⟩ := split_arith r.Dx (max gap 0) n _ hn rfl
    have hw := hz (by rw [hg]; omega)
    rw [hw, hg] at p2 p3
    by_cases hlast : (i : Int) < n - 1
    · rw [p2 i hlast]
      simp [Xywh, Xyxy, Rect.Dy]
    · have e : i = (n - 1).toNat := by omega
      have e2 : n - 1 = (i : Int) := by omega
      rw [e, p3, ← e, e2]
      have hm : max 0 (r.Max.X - (r.Min.X + (i : Int) * (0 + gap))) = 0 := by
        rw [← e2]
        simp only [Rect.Dx, zero_add] at hbig ⊢
        omega
      rw [hm]
      simp [Xywh, Xyxy, Rect.Dy]
  · intro hbig i hi
    obtain ⟨-, p2, p3, -⟩ := SplitY_parts r n gap hn _ _ rfl rfl
    obtain ⟨-, -, hz⟩ := split_arith r.Dy (max gap 0) n _ hn rfl
    have hw := hz (by rw [hg]; omega)
    rw [hw, hg] at p2 p3
    by_cases hlast : (i : Int) < n - 1
    · rw [p2 i hlast]
      simp [Xywh, Xyxy, Rect.Dx]
    · have e : i = (n - 1).toNat := by omega
      have e2 : n - 1 = (i : Int) := by omega
      rw [e, p3, ← e, e2]
      have hm : max 0 (r.Max.Y - (r.Min.Y + (i : Int) * (0 + gap))) = 0 := by
        rw [← e2]
        simp only [Rect.Dy, zero_add] at hbig ⊢
        omega
      rw [hm]
      simp [Xywh, Xyxy, Rect.Dx]

/-! ## Split: order of the parts and overlap -/

theorem overlaps_false_of_X (p q : Rect) (h : p.Max.X ≤ q.Min.X) :
    p.Overlaps q = false ∧ q.Overlaps p = false := by
  have h1 : ¬ q.Min.X < p.Max.X := by omega
  simp [Rect.Overlaps, h1]

theorem overlaps_false_of_Y (p q : Rect) (h : p.Max.Y ≤ q.Min.Y) :
    p.Overlaps q = false ∧ q.Overlaps p = false := by
  have h1 : ¬ q.Min.Y < p.Max.Y := by omega
  simp [Rect.Overlaps, h1]

/-- Parts of `SplitX` are laid out left to right: for `i < j`, part i ends at or before the
start of part j, and `max(gap, 0)` before the start of part `i + 1`. -/
theorem SplitX_ordered (r : Rect) (n gap : Int) (i j : Nat) (hij : i < j) (p q : Rect)
    (hp : (r.SplitX n gap)[i]? = some p) (hq : (r.SplitX n gap)[j]? = some q) :
    p.Max.X ≤ q.Min.X ∧ (j = i + 1 → q.Min.X = p.Max.X + max gap 0) := by
  by_cases h0 : n ≤ 0
  · simp [Rect.SplitX, h0] at hp
  by_cases h1 : n = 1
  · subst h1
    have : ([r] : List Rect)[j]? = none := by
      rw [List.getElem?_eq_none_iff]; simp; omega
    simp [Rect.SplitX, this] at hq
  have hn : 2 ≤ n := by omega
  obtain ⟨p1, p2, p3, -⟩ := SplitX_parts r n gap hn _ _ rfl rfl
  obtain ⟨hw0, -, -⟩ := split_arith r.Dx (max gap 0) n _ hn rfl
  generalize (max 0 (r.Dx - (n - 1) * max gap 0)) / n = w at p2 p3 hw0
  have hjlen : j < (r.SplitX n gap).length := by
    rcases List.getElem?_eq_some_iff.mp hq with ⟨hlt, -⟩
    exact hlt
  have hjn : (j : Int) < n := by omega
  have hi : (i : Int) < n - 1 := by omega
  have ep : p = Xywh (r.Min.X + (i : Int) * (w + max gap 0)) r.Min.Y w r.Dy := by
    have := p2 i hi
    rw [hp] at this
    exact Option.some.inj this
  have eq : q.Min.X = r.Min.X + (j : Int) * (w + max gap 0) := by
    by_cases hlast : (j : Int) < n - 1
    · have := p2 j hlast
      rw [hq] at this
      rw [Option.some.inj this]
      rfl
    · have e : j = (n - 1).toNat := by omega
      have e2 : n - 1 = (j : Int) := by omega
      rw [e, p3] at hq
      rw [← Option.some.inj hq, e2]
      rfl
  have hg0 : 0 ≤ max gap 0 := by omega
  rw [ep, eq]
  simp only [Xywh]
  constructor
  · have hd : (0 : Int) ≤ ((j : Int) - i - 1) * (w + max gap 0) :=
      mul_nonneg (by omega) (by omega)
    have e : (j : Int) * (w + max gap 0) =
        ((j : Int) - i - 1) * (w + max gap 0) + (i : Int) * (w + max gap 0) + w + max gap 0 := by
      ring
    omega
  · intro hj
    subst hj
    push_cast
    ring

/-- Parts of `SplitY` are laid out top to bottom. -/
theorem SplitY_ordered (r : Rect) (n gap : Int) (i j : Nat) (hij : i < j) (p q : Rect)
    (hp : (r.SplitY n gap)[i]? = some p) (hq : (r.SplitY n gap)[j]? = some q) :
    p.Max.Y ≤ q.Min.Y ∧ (j = i + 1 → q.Min.Y = p.Max.Y + max gap 0) := by
  rw [SplitY_eq_swap, List.getElem?_map] at hp hq
  obtain ⟨p0, hp0, rfl⟩ := Option.map_eq_some'.mp hp
  obtain ⟨q0, hq0, rfl⟩ := Option.map_eq_some'.mp hq
  exact SplitX_ordered r.swap n gap i j hij p0 q0 hp0 hq0

/-! ## Split with no gap: the parts reassemble the rectangle -/

theorem union_of_empty_left (a s : Rect) (h : a.Empty = true) : a.Union s = s := by
  simp [Rect.Union, h]

theorem foldl_union_empty (l : List Rect) (acc : Rect) (hacc : acc.Empty = true)
    (hl : ∀ p ∈ l, p.Empty = true) : (l.foldl Rect.Union acc).Empty = true := by
  induction l generalizing acc with
  | nil => exact hacc
  | cons p l ih =>
    rw [List.foldl_cons, union_of_empty_left acc p hacc]
    exact ih p (hl p (List.mem_cons_self p l)) (fun t ht => hl t (List.mem_cons_of_mem p ht))

theorem splitXLoop_mem_empty (r : Rect) (w g : Int) (k : Nat) (cur : Int)
    (h : w ≤ 0 ∨ r.Max.Y ≤ r.Min.Y) : ∀ p ∈ (splitXLoop r w g k cur).1, p.Empty = true := by
  induction k generalizing cur with
  | zero => simp [splitXLoop]
  | succ k ih =>
    intro p hp
    simp only [splitXLoop, List.mem_cons] at hp
    rcases hp with rfl | hp
    · simp only [Xywh, Rect.Empty, Rect.Dy, Bool.or_eq_true, decide_eq_true_eq]
      omega
    · exact ih _ p hp

/-- Accumulating the union over the uniform items, gap 0, all items non-empty: the
accumulator `(a, Min.Y)-(cur, Max.Y)` grows to the cursor after the loop. -/
theorem foldl_union_loop (r : Rect) (w : Int) (hw : 0 < w) (hy : r.Min.Y < r.Max.Y) (k : Nat)
    (a cur : Int) (ha : a < cur) :
    (splitXLoop r w 0 k cur).1.foldl Rect.Union ⟨⟨a, r.Min.Y⟩, ⟨cur, r.Max.Y⟩⟩ =
      ⟨⟨a, r.Min.Y⟩, ⟨cur + (k : Int) * w, r.Max.Y⟩⟩ := by
  induction k generalizing cur with
  | zero => simp [splitXLoop]
  | succ k ih =>
    have step : Rect.Union ⟨⟨a, r.Min.Y⟩, ⟨cur, r.Max.Y⟩⟩ (Xywh cur r.Min.Y w r.Dy) =
        ⟨⟨a, r.Min.Y⟩, ⟨cur + (w + 0), r.Max.Y⟩⟩ := by
      have e1 : ¬ cur ≤ a := by omega
      have e2 : ¬ r.Max.Y ≤ r.Min.Y := by omega
      have e3 : ¬ w ≤ 0 := by omega
      have e4 : ¬ cur < a := by omega
      have e5 : r.Min.Y + (r.Max.Y - r.Min.Y) = r.Max.Y := by omega
      simp [Rect.Union, Rect.Empty, Xywh, Rect.Dy, e1, e2, e3, e4, e5, hw]
    simp only [splitXLoop, List.foldl_cons, step]
    rw [ih (cur + (w + 0)) (by omega)]
    congr 2
    push_cast
    ring

/-- Rejoining the parts of `SplitX` with no gap, on a well-formed rectangle. -/
theorem SplitX_union (r : Rect) (hr : r.WellFormed) (n : Int) (hn : 1 ≤ n) :
    (unionAll (r.SplitX n 0)).Eq r = true ∧
    (r.Empty = false → unionAll (r.SplitX n 0) = r) := by
  have eqof : ∀ u : Rect, u = r → u.Eq r = true := by
    intro u hu; subst hu; simp [Rect.Eq]
  by_cases h1 : n = 1
  · subst h1
    have e : unionAll (r.SplitX 1 0) = r := by
      simp [Rect.SplitX, unionAll, Rect.Union, Rect.zero, Rect.Empty]
    exact ⟨eqof _ e, fun _ => e⟩
  have hn2 : 2 ≤ n := by omega
  obtain ⟨hx, hy⟩ := hr
  have hk : (((n - 1).toNat : Nat) : Int) = n - 1 := Int.toNat_of_nonneg (by omega)
  obtain ⟨hw0, ha, -⟩ := split_arith r.Dx 0 n _ hn2 rfl
  obtain ⟨ha1, ha2, -⟩ := ha (by simp [Rect.Dx]; omega)
  have hcl := SplitX_closed r n 0 hn2
  simp only [max_self] at hcl
  generalize (max 0 (r.Dx - (n - 1) * 0)) / n = w at hw0 ha1 ha2 hcl
  have hnw : (n - 1) * (w + 0) = n * w - w := by ring
  have hnw2 : (n - 1) * w = n * w - w := by ring
  simp only [Rect.Dx] at ha1 ha2
  have hlast : max 0 (r.Max.X - (r.Min.X + (n - 1) * (w + 0))) =
      r.Max.X - (r.Min.X + (n - 1) * (w + 0)) := by omega
  rw [hlast] at hcl
  have hlastR : Xywh (r.Min.X + (n - 1) * (w + 0)) r.Min.Y
      (r.Max.X - (r.Min.X + (n - 1) * (w + 0))) r.Dy =
      ⟨⟨r.Min.X + (n - 1) * w, r.Min.Y⟩, ⟨r.Max.X, r.Max.Y⟩⟩ := by
    simp only [Xywh, Rect.Dy, add_zero]
    congr 2
    · omega
    · omega
  rw [hlastR] at hcl
  rw [hcl, unionAll, List.foldl_append, List.foldl_cons, List.foldl_nil]
  by_cases hdeg : w ≤ 0 ∨ r.Max.Y ≤ r.Min.Y
  · -- every uniform item is empty: the fold keeps only the last part
    have hem := foldl_union_empty _ Rect.zero (by decide)
      (splitXLoop_mem_empty r w 0 (n - 1).toNat r.Min.X hdeg)
    rw [union_of_empty_left _ _ hem]
    rcases hdeg with hwz | hyz
    · have hw : w = 0 := by omega
      subst hw
      have e : (⟨⟨r.Min.X + (n - 1) * 0, r.Min.Y⟩, ⟨r.Max.X, r.Max.Y⟩⟩ : Rect) = r := by
        simp
      exact ⟨eqof _ e, fun _ => e⟩
    · have hre : r.Empty = true := by
        simp only [Rect.Empty, Bool.or_eq_true, decide_eq_true_eq]
        omega
      refine ⟨?_, fun hne => ?_⟩
      · simp only [Rect.Eq, hre, Bool.and_true, Bool.or_eq_true, decide_eq_true_eq]
        right
        simp only [Rect.Empty, Bool.or_eq_true, decide_eq_true_eq]
        omega
      · rw [hre] at hne
        cases hne
  · -- every part is non-empty: the accumulator grows to the cut line before the last part
    have hw : 0 < w := by omega
    have hyy : r.Min.Y < r.Max.Y := by omega
    obtain ⟨k, hkk⟩ : ∃ k, (n - 1).toNat = k + 1 := ⟨(n - 1).toNat - 1, by omega⟩
    have hfold : (splitXLoop r w 0 (n - 1).toNat r.Min.X).1.foldl Rect.Union Rect.zero =
        ⟨⟨r.Min.X, r.Min.Y⟩, ⟨r.Min.X + (n - 1) * w, r.Max.Y⟩⟩ := by
      rw [hkk]
      have e5 : r.Min.Y + (r.Max.Y - r.Min.Y) = r.Max.Y := by omega
      have first : Rect.Union Rect.zero (Xywh r.Min.X r.Min.Y w r.Dy) =
          ⟨⟨r.Min.X, r.Min.Y⟩, ⟨r.Min.X + (w + 0), r.Max.Y⟩⟩ := by
        rw [union_of_empty_left _ _ (by decide)]
        simp [Xywh, Rect.Dy, e5]
      simp only [splitXLoop, List.foldl_cons, first]
      rw [foldl_union_loop r w hw hyy k r.Min.X (r.Min.X + (w + 0)) (by omega)]
      have hk2 : (k : Int) + 1 = n - 1 := by omega
      congr 2
      rw [← hk2]
      ring
    rw [hfold]
    have hpos : w ≤ (n - 1) * w := by nlinarith
    have hcut := union_cut_line r.Min.X r.Min.Y r.Max.X r.Max.Y (r.Min.X + (n - 1) * w)
      (by omega) (by omega) hy
    have e : Rect.Union ⟨⟨r.Min.X, r.Min.Y⟩, ⟨r.Min.X + (n - 1) * w, r.Max.Y⟩⟩
        ⟨⟨r.Min.X + (n - 1) * w, r.Min.Y⟩, ⟨r.Max.X, r.Max.Y⟩⟩ = r := by
      refine hcut.2 ?_ ?_
      · simp only [Rect.Empty, Bool.or_eq_false_iff, decide_eq_false_iff_not]
        omega
      · simp only [Rect.Empty, Bool.or_eq_false_iff, decide_eq_false_iff_not]
        omega
    exact ⟨eqof _ e, fun _ => e⟩

theorem Empty_swap (r : Rect) : r.swap.Empty = r.Empty := by
  simp only [Rect.Empty, Rect.swap, Point.swap]
  exact Bool.or_comm _ _

theorem Union_swap (p q : Rect) : p.swap.Union q.swap = (p.Union q).swap := by
  unfold Rect.Union
  rw [Empty_swap, Empty_swap]
  by_cases hp : p.Empty = true
  · simp [hp]
  by_cases hq : q.Empty = true
  · simp [hp, hq]
  simp only [hp, hq, if_false, Bool.false_eq_true]
  rfl

theorem foldl_union_swap (l : List Rect) (acc : Rect) :
    (l.map Rect.swap).foldl Rect.Union acc.swap = (l.foldl Rect.Union acc).swap := by
  induction l generalizing acc with
  | nil => rfl
  | cons p l ih => rw [List.map_cons, List.foldl_cons, List.foldl_cons, Union_swap, ih]

theorem unionAll_swap (l : List Rect) : unionAll (l.map Rect.swap) = (unionAll l).swap :=
  foldl_union_swap l Rect.zero

theorem Eq_swap (a b : Rect) : a.swap.Eq b.swap = a.Eq b := by
  have h : (a.swap = b.swap) ↔ (a = b) := by
    constructor
    · intro h
      have := congrArg Rect.swap h
      rwa [swap_swap, swap_swap] at this
    · intro h
      rw [h]
  simp only [Rect.Eq, Empty_swap, h]

/-- Over unbounded integers, with no gap the parts of a split reassemble the rectangle.  For
a well-formed r and
`n >= 1`, folding `Rect.Union` over the elements of `r.SplitX(n, 0)` gives a rectangle that is
`Eq` to r, and r itself when r is not Empty; the same holds for `r.SplitY(n, 0)`. -/
theorem split_no_gap_reassembles (r : Rect) (hr : r.WellFormed) (n : Int) (hn : 1 ≤ n) :
    ((unionAll (r.SplitX n 0)).Eq r = true ∧
      (r.Empty = false → unionAll (r.SplitX n 0) = r)) ∧
    ((unionAll (r.SplitY n 0)).Eq r = true ∧
      (r.Empty = false → unionAll (r.SplitY n 0) = r)) := by
  refine ⟨SplitX_union r hr n hn, ?_⟩
  obtain ⟨h1, h2⟩ := SplitX_union r.swap ⟨hr.2, hr.1⟩ n hn
  rw [SplitY_eq_swap, unionAll_swap]
  constructor
  · rw [← Eq_swap, swap_swap]
    exact h1
  · intro hne
    rw [h2 (by rw [Empty_swap]; exact hne), swap_swap]

/-! ## Split: cross axis, order and well-formedness of the parts -/

/-- Every part of `SplitX` for `n >= 2` spans the cross axis of r and has `Min.X <= Max.X`. -/
theorem SplitX_mem_form (r : Rect) (n gap : Int) (hn : 2 ≤ n) (p : Rect)
    (hp : p ∈ r.SplitX n gap) :
    p.Min.Y = r.Min.Y ∧ p.Max.Y = r.Max.Y ∧ p.Min.X ≤ p.Max.X := by
  obtain ⟨i, hi⟩ := List.mem_iff_getElem?.mp hp
  obtain ⟨p1, p2, p3, -⟩ := SplitX_parts r n gap hn _ _ rfl rfl
  obtain ⟨hw0, -, -⟩ := split_arith r.Dx (max gap 0) n _ hn rfl
  generalize (max 0 (r.Dx - (n - 1) * max gap 0)) / n = w at p2 p3 hw0
  have hilen : i < (r.SplitX n gap).length := by
    rcases List.getElem?_eq_some_iff.mp hi with ⟨hlt, -⟩
    exact hlt
  have hin : (i : Int) < n := by omega
  by_cases hlast : (i : Int) < n - 1
  · have := p2 i hlast
    rw [hi] at this
    rw [Option.some.inj this]
    refine ⟨rfl, ?_, ?_⟩ <;> simp only [Xywh, Rect.Dy] <;> omega
  · have e : i = (n - 1).toNat := by omega
    rw [e, p3] at hi
    rw [← Option.some.inj hi]
    refine ⟨rfl, ?_, ?_⟩ <;> simp only [Xywh, Rect.Dy] <;> omega

/-- Every part of `SplitX`, any n: cross axis kept; `Min.X <= Max.X` given it for r. -/
theorem SplitX_mem_all (r : Rect) (n gap : Int) (p : Rect) (hp : p ∈ r.SplitX n gap) :
    p.Min.Y = r.Min.Y ∧ p.Max.Y = r.Max.Y ∧ (r.Min.X ≤ r.Max.X → p.Min.X ≤ p.Max.X) := by
  by_cases h0 : n ≤ 0
  · simp [Rect.SplitX, h0] at hp
  by_cases h1 : n = 1
  · subst h1
    simp [Rect.SplitX] at hp
    subst hp
    exact ⟨rfl, rfl, fun h => h⟩
  obtain ⟨a, b, c⟩ := SplitX_mem_form r n gap (by omega) p hp
  exact ⟨a, b, fun _ => c⟩

/-- Starts of the parts of `SplitX` are non-decreasing in index order. -/
theorem SplitX_starts_mono (r : Rect) (n gap : Int) (i j : Nat) (hij : i ≤ j) (p q : Rect)
    (hp : (r.SplitX n gap)[i]? = some p) (hq : (r.SplitX n gap)[j]? = some q) :
    p.Min.X ≤ q.Min.X := by
  rcases Nat.eq_or_lt_of_le hij with h | h
  · subst h
    rw [hp] at hq
    rw [Option.some.inj hq]
  · have hord := (SplitX_ordered r n gap i j h p q hp hq).1
    by_cases h0 : n ≤ 0
    · simp [Rect.SplitX, h0] at hp
    by_cases h1 : n = 1
    · subst h1
      have : ([r] : List Rect)[j]? = none := by
        rw [List.getElem?_eq_none_iff]; simp; omega
      simp [Rect.SplitX, this] at hq
    have hm := (SplitX_mem_form r n gap (by omega) p (List.mem_iff_getElem?.mpr ⟨i, hp⟩)).2.2
    omega

/-- Over unbounded integers split keeps the cross axis and returns parts in axis order.
Every element p of
`r.SplitX(n, gap)` has `p.Min.Y == r.Min.Y` and `p.Max.Y == r.Max.Y`, and the elements'
`Min.X` are non-decreasing in index order; for `r.SplitY` every element has the X extent of r
and the elements' `Min.Y` are non-decreasing.  Holds for every r, n and gap. -/
theorem split_cross_axis_and_order (r : Rect) (n gap : Int) :
    ((∀ p ∈ r.SplitX n gap, p.Min.Y = r.Min.Y ∧ p.Max.Y = r.Max.Y) ∧
      (∀ (i j : Nat) (p q : Rect), i ≤ j → (r.SplitX n gap)[i]? = some p →
        (r.SplitX n gap)[j]? = some q → p.Min.X ≤ q.Min.X)) ∧
    ((∀ p ∈ r.SplitY n gap, p.Min.X = r.Min.X ∧ p.Max.X = r.Max.X) ∧
      (∀ (i j : Nat) (p q : Rect), i ≤ j → (r.SplitY n gap)[i]? = some p →
        (r.SplitY n gap)[j]? = some q → p.Min.Y ≤ q.Min.Y)) := by
  refine ⟨⟨fun p hp => ?_, fun i j p q hij hp hq => SplitX_starts_mono r n gap i j hij p q hp hq⟩,
    ⟨fun p hp => ?_, fun i j p q hij hp hq => ?_⟩⟩
  · obtain ⟨a, b, -⟩ := SplitX_mem_all r n gap p hp
    exact ⟨a, b⟩
  · rw [SplitY_eq_swap, List.mem_map] at hp
    obtain ⟨p0, hp0, rfl⟩ := hp
    obtain ⟨a, b, -⟩ := SplitX_mem_all r.swap n gap p0 hp0
    exact ⟨a, b⟩
  · rw [SplitY_eq_swap, List.getElem?_map] at hp hq
    obtain ⟨p0, hp0, rfl⟩ := Option.map_eq_some'.mp hp
    obtain ⟨q0, hq0, rfl⟩ := Option.map_eq_some'.mp hq
    exact SplitX_starts_mono r.swap n gap i j hij p0 q0 hp0 hq0

theorem wf_ite (c : Bool) (a b : Rect) (ha : c = true → a.WellFormed)
    (hb : c = false → b.WellFormed) : (if c = true then a else b).WellFormed := by
  cases c
  · simpa using hb rfl
  · simpa using ha rfl

theorem wf_of_not_empty (t : Rect) (h : t.Empty = false) : t.WellFormed := by
  simp only [Rect.Empty, Bool.or_eq_false_iff, decide_eq_false_iff_not] at h
  exact ⟨by omega, by omega⟩

/-- Over unbounded integers Rect methods keep well-formedness.  For well-formed r and s and
all arguments,
`r.Inset4(l, t, rt, b)`, `r.Intersect(s)`, `r.Union(s)`, both results of `r.CutX(w)` and of
`r.CutY(h)`, and every element of `r.SplitX(n, gap)` and `r.SplitY(n, gap)` are well-formed. -/
theorem methods_keep_well_formed (r s : Rect) (hr : r.WellFormed) (hs : s.WellFormed)
    (l t rt b w h n gap : Int) :
    (r.Inset4 l t rt b).WellFormed ∧ (r.Intersect s).WellFormed ∧ (r.Union s).WellFormed ∧
    (r.CutX w).1.WellFormed ∧ (r.CutX w).2.WellFormed ∧
    (r.CutY h).1.WellFormed ∧ (r.CutY h).2.WellFormed ∧
    (∀ p ∈ r.SplitX n gap, p.WellFormed) ∧ (∀ p ∈ r.SplitY n gap, p.WellFormed) := by
  obtain ⟨hx, hy⟩ := hr
  obtain ⟨sx, sy⟩ := hs
  refine ⟨?_, ?_, ?_, ?_, ?_, ?_, ?_, ?_, ?_⟩
  · simp only [Rect.Inset4, Rect.WellFormed, Rect.Dx, Rect.Dy]
    constructor <;> split_ifs <;> omega
  · unfold Rect.Intersect
    exact wf_ite _ _ _ (fun _ => by decide) (fun he => wf_of_not_empty _ he)
  · unfold Rect.Union
    refine wf_ite _ _ _ (fun _ => ⟨sx, sy⟩) (fun _ => wf_ite _ _ _ (fun _ => ⟨hx, hy⟩)
      (fun _ => ?_))
    simp only [Rect.WellFormed]
    constructor <;> split_ifs <;> omega
  · simp only [Rect.CutX, Rect.WellFormed, Rect.Dx]
    constructor <;> omega
  · simp only [Rect.CutX, Rect.WellFormed, Rect.Dx]
    constructor <;> omega
  · simp only [Rect.CutY, Rect.WellFormed, Rect.Dy]
    constructor <;> omega
  · simp only [Rect.CutY, Rect.WellFormed, Rect.Dy]
    constructor <;> omega
  · intro p hp
    obtain ⟨a, b, c⟩ := SplitX_mem_all r n gap p hp
    exact ⟨c hx, by rw [a, b]; exact hy⟩
  · intro p hp
    rw [SplitY_eq_swap, List.mem_map] at hp
    obtain ⟨p0, hp0, rfl⟩ := hp
    obtain ⟨a, b, c⟩ := SplitX_mem_all r.swap n gap p0 hp0
    exact ⟨by show p0.Min.Y ≤ p0.Max.Y; rw [a, b]; exact hx, c hy⟩

/-! ## Degenerate counts -/

/-- C12: degenerate counts are not errors.  If `n <= 0` then `r.SplitX(n, gap)` and
`r.SplitY(n, gap)` are the empty sequence and `r.RepeatX(n, gap)`, `r.RepeatY(n, gap)` return
the empty sequence with the zero rectangle, which is Empty; and `r.SplitX(1, gap)`,
`r.SplitY(1, gap)` are exactly `[r]` whatever the gap. -/
theorem degenerate_counts (r : Rect) (n gap : Int) :
    (n ≤ 0 → r.SplitX n gap = [] ∧ r.SplitY n gap = [] ∧
      r.RepeatX n gap = ([], Rect.zero) ∧ r.RepeatY n gap = ([], Rect.zero) ∧
      (r.RepeatX n gap).2.Empty = true ∧ (r.RepeatY n gap).2.Empty = true) ∧
    r.SplitX 1 gap = [r] ∧ r.SplitY 1 gap = [r] := by
  refine ⟨fun h => ?_, ?_, ?_⟩
  · simp [Rect.SplitX, Rect.SplitY, Rect.RepeatX, Rect.RepeatY, h, Rect.zero, Rect.Empty]
  · simp [Rect.SplitX]
  · simp [Rect.SplitY]

/-- Witness of C12 at `Xyxy(0, 0, 20, 30)`, `n = -2`, `gap = 5`. -/
theorem degenerate_counts_witness :
    (-2 : Int) ≤ 0 ∧ (Xyxy 0 0 20 30).SplitX (-2) 5 = [] ∧
    (Xyxy 0 0 20 30).RepeatX (-2) 5 = ([], Rect.zero) :=
  ⟨by decide, ((degenerate_counts (Xyxy 0 0 20 30) (-2) 5).1 (by decide)).1,
    ((degenerate_counts (Xyxy 0 0 20 30) (-2) 5).1 (by decide)).2.2.1⟩

/-! ## Repeat -/

theorem repeatXLoop_eq (r : Rect) (dx gap : Int) (k : Nat) (cur : Int) :
    repeatXLoop r dx gap k cur = splitXLoop r dx gap k cur := by
  induction k generalizing cur with
  | zero => rfl
  | succ k ih => simp only [repeatXLoop, splitXLoop, ih]

theorem repeatYLoop_eq (r : Rect) (dy gap : Int) (k : Nat) (cur : Int) :
    repeatYLoop r dy gap k cur = splitYLoop r dy gap k cur := by
  induction k generalizing cur with
  | zero => rfl
  | succ k ih => simp only [repeatYLoop, splitYLoop, ih]

/-- RepeatY is RepeatX reflected about the diagonal. -/
theorem RepeatY_eq_swap (r : Rect) (n gap : Int) :
    r.RepeatY n gap =
      ((r.swap.RepeatX n gap).1.map Rect.swap, (r.swap.RepeatX n gap).2.swap) := by
  by_cases h : n ≤ 0
  · simp [Rect.RepeatY, Rect.RepeatX, h]
    rfl
  · simp only [Rect.RepeatY, Rect.RepeatX, if_neg h, repeatYLoop_eq, repeatXLoop_eq,
      splitYLoop_eq_swap]
    rfl

/-- The copies of `RepeatX` for `n >= 1`, by index, and the overall rectangle. -/
theorem RepeatX_parts (r : Rect) (n gap : Int) (hn : 1 ≤ n) :
    ((r.RepeatX n gap).1.length : Int) = n ∧
    (∀ i : Nat, (i : Int) < n →
      (r.RepeatX n gap).1[i]? = some (r.Add ⟨(i : Int) * (r.Dx + gap), 0⟩)) ∧
    (r.RepeatX n gap).2 =
      ⟨r.Min, ⟨r.Max.X + (n - 1) * (r.Dx + gap), r.Max.Y⟩⟩ := by
  have hk : ((n.toNat : Nat) : Int) = n := Int.toNat_of_nonneg (by omega)
  simp only [Rect.RepeatX, if_neg (show ¬ n ≤ 0 by omega), repeatXLoop_eq]
  refine ⟨?_, ?_, ?_⟩
  · rw [splitXLoop_length, hk]
  · intro i hi
    rw [splitXLoop_getElem r _ _ _ _ i (by omega)]
    simp only [Xywh, Rect.Add, Rect.Dx, Rect.Dy, Option.some.injEq, Rect.mk.injEq,
      Point.mk.injEq]
    refine ⟨⟨trivial, by omega⟩, by omega, by omega⟩
  · rw [splitXLoop_cursor, hk]
    simp only [Xyxy, Rect.Dx, Rect.mk.injEq, Point.mk.injEq]
    refine ⟨trivial, ?_, trivial⟩
    ring

/-- The copies and overall rectangle of `RepeatX` for `n >= 1`: count, copies by index,
size of every copy, and the overall rectangle from `r.Min` to the last copy's `Max`. -/
theorem RepeatX_tiles (r : Rect) (n gap : Int) (hn : 1 ≤ n) :
    ((r.RepeatX n gap).1.length : Int) = n ∧
    (∀ i : Nat, (i : Int) < n →
      (r.RepeatX n gap).1[i]? = some (r.Add ⟨(i : Int) * (r.Dx + gap), 0⟩)) ∧
    (∀ c ∈ (r.RepeatX n gap).1, c.Size = r.Size) ∧
    (∃ last, (r.RepeatX n gap).1.getLast? = some last ∧
      (r.RepeatX n gap).2 = ⟨r.Min, last.Max⟩) := by
  obtain ⟨p1, p2, p3⟩ := RepeatX_parts r n gap hn
  refine ⟨p1, p2, fun c hc => ?_, ?_⟩
  · obtain ⟨i, hi⟩ := List.mem_iff_getElem?.mp hc
    have hilen : i < (r.RepeatX n gap).1.length := by
      rcases List.getElem?_eq_some_iff.mp hi with ⟨hlt, -⟩
      exact hlt
    have := p2 i (by omega)
    rw [hi] at this
    rw [Option.some.inj this]
    simp only [Rect.Size, Rect.Add, Point.mk.injEq]
    constructor <;> omega
  · have hlen : (r.RepeatX n gap).1.length - 1 = (n - 1).toNat := by omega
    have hk : (((n - 1).toNat : Nat) : Int) = n - 1 := Int.toNat_of_nonneg (by omega)
    refine ⟨r.Add ⟨(((n - 1).toNat : Nat) : Int) * (r.Dx + gap), 0⟩, ?_, ?_⟩
    · rw [List.getLast?_eq_getElem?, hlen]
      exact p2 (n - 1).toNat (by omega)
    · rw [p3, hk]
      simp [Rect.Add]

/-- Over unbounded integers RepeatX tiles fixed-size copies.  For `n >= 1` and a gap of any sign,
`r.RepeatX(n, gap)` returns exactly n rectangles, element i is r translated by
`(i*(r.Dx()+gap), 0)`, so each has the size of r, and the overall rectangle is
`Rect{Min: r.Min, Max: Max of the last element}`.  RepeatY is the same with
`(0, i*(r.Dy()+gap))`. -/
theorem repeat_tiles_copies (r : Rect) (n gap : Int) (hn : 1 ≤ n) :
    (((r.RepeatX n gap).1.length : Int) = n ∧
      (∀ i : Nat, (i : Int) < n →
        (r.RepeatX n gap).1[i]? = some (r.Add ⟨(i : Int) * (r.Dx + gap), 0⟩)) ∧
      (∀ c ∈ (r.RepeatX n gap).1, c.Size = r.Size) ∧
      (∃ last, (r.RepeatX n gap).1.getLast? = some last ∧
        (r.RepeatX n gap).2 = ⟨r.Min, last.Max⟩)) ∧
    (((r.RepeatY n gap).1.length : Int) = n ∧
      (∀ i : Nat, (i : Int) < n →
        (r.RepeatY n gap).1[i]? = some (r.Add ⟨0, (i : Int) * (r.Dy + gap)⟩)) ∧
      (∀ c ∈ (r.RepeatY n gap).1, c.Size = r.Size) ∧
      (∃ last, (r.RepeatY n gap).1.getLast? = some last ∧
        (r.RepeatY n gap).2 = ⟨r.Min, last.Max⟩)) := by
  refine ⟨RepeatX_tiles r n gap hn, ?_⟩
  obtain ⟨t1, t2, t3, ⟨last, t4, t5⟩⟩ := RepeatX_tiles r.swap n gap hn
  rw [RepeatY_eq_swap]
  refine ⟨?_, fun i hi => ?_, fun c hc => ?_, ⟨last.swap, ?_, ?_⟩⟩
  · rw [List.length_map]
    exact t1
  · rw [List.getElem?_map, t2 i hi]
    rfl
  · simp only [List.mem_map] at hc
    obtain ⟨c0, hc0, rfl⟩ := hc
    have := t3 c0 hc0
    simp only [Rect.Size, Rect.swap, Point.swap, Point.mk.injEq] at this ⊢
    exact ⟨this.2, this.1⟩
  · simp only
    rw [List.getLast?_map, t4]
    rfl
  · simp only
    rw [t5]
    rfl

/-- C14, the code at a failing input: `Xyxy(0, 0, 20, 30).RepeatX(2, -50)` returns the copies
`(0,0)-(20,30)` and `(-30,0)-(-10,30)` with the overall rectangle `(0,0)-(-10,30)`, which is
not well-formed and contains neither copy. -/
theorem repeat_overall_not_bounding :
    (Xyxy 0 0 20 30).WellFormed ∧ (1 : Int) ≤ 2 ∧
    (Xyxy 0 0 20 30).RepeatX 2 (-50) =
      ([Xyxy 0 0 20 30, Xyxy (-30) 0 (-10) 30], Xyxy 0 0 (-10) 30) ∧
    ¬ (Xyxy 0 0 (-10) 30).WellFormed ∧
    (Xyxy 0 0 20 30).In (Xyxy 0 0 (-10) 30) = false ∧
    (Xyxy (-30) 0 (-10) 30).In (Xyxy 0 0 (-10) 30) = false := by
  decide

/-- Where the overall rectangle of `RepeatX` is the bounding box: for a well-formed r,
`n >= 1` and a step `r.Dx() + gap >= 0`, the overall rectangle is well-formed and every copy
is `In` it. -/
theorem RepeatX_bounding_of_step_nonneg (r : Rect) (hr : r.WellFormed) (n gap : Int)
    (hn : 1 ≤ n) (hstep : 0 ≤ r.Dx + gap) :
    (r.RepeatX n gap).2.WellFormed ∧
      ∀ c ∈ (r.RepeatX n gap).1, c.In (r.RepeatX n gap).2 = true := by
  obtain ⟨p1, p2, p3⟩ := RepeatX_parts r n gap hn
  obtain ⟨hx, hy⟩ := hr
  have hlast : 0 ≤ (n - 1) * (r.Dx + gap) := mul_nonneg (by omega) hstep
  rw [p3]
  refine ⟨⟨by simp only; omega, hy⟩, fun c hc => ?_⟩
  obtain ⟨i, hi⟩ := List.mem_iff_getElem?.mp hc
  have hilen : i < (r.RepeatX n gap).1.length := by
    rcases List.getElem?_eq_some_iff.mp hi with ⟨hlt, -⟩
    exact hlt
  have := p2 i (by omega)
  rw [hi] at this
  rw [Option.some.inj this]
  have h1 : 0 ≤ (i : Int) * (r.Dx + gap) := mul_nonneg (by omega) hstep
  have h2 : 0 ≤ (n - 1 - (i : Int)) * (r.Dx + gap) := mul_nonneg (by omega) hstep
  have e : (n - 1) * (r.Dx + gap) =
      (n - 1 - (i : Int)) * (r.Dx + gap) + (i : Int) * (r.Dx + gap) := by ring
  simp only [Rect.In, Rect.Add]
  split_ifs
  · rfl
  · simp only [Bool.and_eq_true, decide_eq_true_eq]
    refine ⟨⟨⟨by omega, by omega⟩, by omega⟩, by omega⟩

/-! ## Rates: truncation toward zero -/

theorem truncRat_neg (x : ℚ) : truncRat (-x) = -truncRat x := by
  simp [truncRat]

theorem truncRat_of_nonneg (x : ℚ) (hx : 0 ≤ x) : truncRat x = ⌊x⌋ := by
  rw [Rat.floor_def, truncRat]
  exact Int.tdiv_eq_ediv (Rat.num_nonneg.mpr hx) (by exact_mod_cast Nat.zero_le _)

theorem truncRat_intCast (k : Int) : truncRat (k : ℚ) = k := by
  simp [truncRat]

theorem truncRat_nonpos (x : ℚ) (hx : x ≤ 0) : truncRat x ≤ 0 := by
  have h : truncRat (-x) = ⌊-x⌋ := truncRat_of_nonneg (-x) (by linarith)
  rw [truncRat_neg] at h
  have h2 : 0 ≤ ⌊-x⌋ := Int.floor_nonneg.mpr (by linarith)
  omega

theorem le_truncRat (x : ℚ) (D : Int) (hD : 0 ≤ D) (hx : (D : ℚ) ≤ x) : D ≤ truncRat x := by
  have h0 : (0 : ℚ) ≤ x := le_trans (by exact_mod_cast hD) hx
  rw [truncRat_of_nonneg x h0]
  exact Int.le_floor.mpr hx

/-- An integer rate multiplies the length exactly. -/
theorem rel_int (length k : Int) : rel length (k : ℚ) = k * length := by
  rw [rel, ← Int.cast_mul, truncRat_intCast]

theorem rel_zero (length : Int) : rel length 0 = 0 := by
  simp [rel, truncRat]

theorem rel_one (length : Int) : rel length 1 = length := by
  simp [rel, truncRat_intCast]

theorem rel_nonpos (length : Int) (hl : 0 ≤ length) (r : ℚ) (hr : r < 0) :
    rel length r ≤ 0 := by
  apply truncRat_nonpos
  have : (0 : ℚ) ≤ (length : ℚ) := by exact_mod_cast hl
  nlinarith

theorem rel_ge (length : Int) (hl : 0 ≤ length) (r : ℚ) (hr : 1 < r) :
    length ≤ rel length r := by
  apply le_truncRat _ _ hl
  have : (0 : ℚ) ≤ (length : ℚ) := by exact_mod_cast hl
  nlinarith

/-- Half of an even length is exact. -/
theorem rel_half_double (a : Int) : rel (2 * a) (1 / 2) = a := by
  have : (1 / 2 : ℚ) * ((2 * a : Int) : ℚ) = (a : ℚ) := by push_cast; ring
  rw [rel, this, truncRat_intCast]

/-! ## Rate cuts -/

theorem CutX_eq_of_clamp (r : Rect) (w v : Int)
    (h : min (max w 0) r.Dx = min (max v 0) r.Dx) : r.CutX w = r.CutX v := by
  unfold Rect.CutX
  simp only [h]

theorem CutY_eq_of_clamp (r : Rect) (w v : Int)
    (h : min (max w 0) r.Dy = min (max v 0) r.Dy) : r.CutY w = r.CutY v := by
  unfold Rect.CutY
  simp only [h]

/-- In exact arithmetic rate cuts inherit the clamping.  With the rate an exact rational and
the conversion
truncating `rate * extent` toward zero, for a well-formed r `r.CutXRate(rate)` is
`r.CutXRate(0)`, which is `r.CutX(0)`, for every `rate < 0`, and is `r.CutXRate(1)`, which is
`r.CutX(r.Dx())`, for every `rate > 1`; CutYRate likewise with `r.Dy()`. -/
theorem rate_cut_clamps (r : Rect) (hr : r.WellFormed) (rate : ℚ) :
    (rate < 0 → r.CutXRate rate = r.CutXRate 0 ∧ r.CutXRate 0 = r.CutX 0) ∧
    (1 < rate → r.CutXRate rate = r.CutXRate 1 ∧ r.CutXRate 1 = r.CutX r.Dx) ∧
    (rate < 0 → r.CutYRate rate = r.CutYRate 0 ∧ r.CutYRate 0 = r.CutY 0) ∧
    (1 < rate → r.CutYRate rate = r.CutYRate 1 ∧ r.CutYRate 1 = r.CutY r.Dy) := by
  have hx : 0 ≤ r.Dx := by have := hr.1; simp only [Rect.Dx]; omega
  have hy : 0 ≤ r.Dy := by have := hr.2; simp only [Rect.Dy]; omega
  simp only [Rect.CutXRate, Rect.CutYRate, rel_zero, rel_one]
  refine ⟨fun h => ⟨?_, trivial⟩, fun h => ⟨?_, trivial⟩, fun h => ⟨?_, trivial⟩,
    fun h => ⟨?_, trivial⟩⟩
  · have := rel_nonpos r.Dx hx rate h
    exact CutX_eq_of_clamp r _ _ (by omega)
  · have := rel_ge r.Dx hx rate h
    exact CutX_eq_of_clamp r _ _ (by omega)
  · have := rel_nonpos r.Dy hy rate h
    exact CutY_eq_of_clamp r _ _ (by omega)
  · have := rel_ge r.Dy hy rate h
    exact CutY_eq_of_clamp r _ _ (by omega)

/-! ## Anchor and Align -/

/-- C16, the code at a failing input: aligning the 3 by 3 rectangle `Xyxy(0, 0, 3, 3)` at its
center on the point `(0, 0)` gives `(-1,-1)-(1,1)`, of size `(2, 2)` and not `(3, 3)`: both
halves `rel(3, 0.5)` truncate to 1. -/
theorem align_center_loses_size :
    (Xyxy 0 0 3 3).WellFormed ∧
    (⟨0, 0⟩ : Point).AlignCenter (Xyxy 0 0 3 3) = Xyxy (-1) (-1) 1 1 ∧
    ((⟨0, 0⟩ : Point).Align (Xyxy 0 0 3 3) (1 / 2) (1 / 2)).Size = ⟨2, 2⟩ ∧
    (Xyxy 0 0 3 3).Size = ⟨3, 3⟩ := by
  decide!

/-- Where Align keeps the size: integer rates, for which no truncation happens. -/
theorem Align_size_of_int_rates (p : Point) (r : Rect) (kx ky : Int) :
    (p.Align r (kx : ℚ) (ky : ℚ)).Size = r.Size := by
  have ex : (1 - (kx : ℚ)) = ((1 - kx : Int) : ℚ) := by push_cast; rfl
  have ey : (1 - (ky : ℚ)) = ((1 - ky : Int) : ℚ) := by push_cast; rfl
  simp only [Point.Align, Rect.Size, ex, ey, rel_int, Rect.Dx, Rect.Dy, Point.mk.injEq]
  constructor <;> ring

/-- In exact arithmetic (unbounded integers, rates and products exact rationals) centering
round-trips.  For every point p and every rectangle r,
`p.AlignCenter(r).Center().Eq(p)`, odd widths and heights included. -/
theorem align_center_round_trip (p : Point) (r : Rect) :
    ((p.AlignCenter r).Center).Eq p = true := by
  have e : (1 - 1 / 2 : ℚ) = 1 / 2 := by norm_num
  have hw : ∀ (x a : Int), x - a + rel (x + a - (x - a)) (1 / 2) = x := by
    intro x a
    have e2 : x + a - (x - a) = 2 * a := by ring
    rw [e2, rel_half_double]
    ring
  simp only [Point.AlignCenter, Point.Align, Rect.Center, Rect.Anchor, Rect.Dx, Rect.Dy, e,
    Point.Eq, hw]
  simp

/-- In exact arithmetic Anchor maps rate 0 to Min and rate 1 to Max and extrapolates without
clamping.  For
integer rates kx, ky, `r.Anchor(kx, ky) == (r.Min.X + kx*r.Dx(), r.Min.Y + ky*r.Dy())`;
`r.Anchor(0, 0) == r.Min`, `r.Anchor(1, 1) == r.Max`, and a rate below 0 or above 1 on either
axis gives a point that is not in r. -/
theorem anchor_extrapolates (r : Rect) (kx ky : Int) :
    r.Anchor (kx : ℚ) (ky : ℚ) = ⟨r.Min.X + kx * r.Dx, r.Min.Y + ky * r.Dy⟩ ∧
    r.Anchor 0 0 = r.Min ∧ r.Anchor 1 1 = r.Max ∧
    ((kx < 0 ∨ 1 < kx ∨ ky < 0 ∨ 1 < ky) → (r.Anchor (kx : ℚ) (ky : ℚ)).In r = false) := by
  have key : ∀ (k lo hi : Int), (k < 0 ∨ 1 < k) → lo ≤ lo + k * (hi - lo) →
      lo + k * (hi - lo) < hi → False := by
    intro k lo hi hk h1 h2
    have hd : 0 < hi - lo := by omega
    rcases hk with hk | hk
    · have := mul_neg_of_neg_of_pos hk hd
      omega
    · have : 2 * (hi - lo) ≤ k * (hi - lo) := mul_le_mul_of_nonneg_right (by omega) (by omega)
      omega
  refine ⟨by simp only [Rect.Anchor, rel_int], ?_, ?_, fun h => ?_⟩
  · simp [Rect.Anchor, rel_zero]
  · simp only [Rect.Anchor, rel_one, Rect.Dx, Rect.Dy]
    obtain ⟨a, ⟨c, d⟩⟩ := r
    simp
  · simp only [Rect.Anchor, rel_int, Rect.Dx, Rect.Dy, Point.In]
    by_contra hc
    simp only [Bool.not_eq_false, Bool.and_eq_true, decide_eq_true_eq] at hc
    obtain ⟨⟨⟨x1, x2⟩, y1⟩, y2⟩ := hc
    rcases h with h | h | h | h
    · exact key kx _ _ (Or.inl h) x1 x2
    · exact key kx _ _ (Or.inr h) x1 x2
    · exact key ky _ _ (Or.inl h) y1 y2
    · exact key ky _ _ (Or.inr h) y1 y2

/-! ## Inset -/

/-! ## Point sets: membership, emptiness, inclusion -/

theorem point_in_iff (p : Point) (r : Rect) :
    p.In r = true ↔ r.Min.X ≤ p.X ∧ p.X < r.Max.X ∧ r.Min.Y ≤ p.Y ∧ p.Y < r.Max.Y := by
  simp only [Point.In, Bool.and_eq_true, decide_eq_true_eq]
  tauto

theorem Rect.Empty_iff (r : Rect) :
    r.Empty = true ↔ r.Max.X ≤ r.Min.X ∨ r.Max.Y ≤ r.Min.Y := by
  simp only [Rect.Empty, Bool.or_eq_true, decide_eq_true_eq, ge_iff_le]

theorem Rect.Empty_false_iff (r : Rect) :
    r.Empty = false ↔ r.Min.X < r.Max.X ∧ r.Min.Y < r.Max.Y := by
  simp only [Rect.Empty, Bool.or_eq_false_iff, decide_eq_false_iff_not, ge_iff_le, not_le]

theorem rect_in_iff (r s : Rect) :
    r.In s = true ↔ r.Empty = true ∨
      (s.Min.X ≤ r.Min.X ∧ r.Max.X ≤ s.Max.X ∧ s.Min.Y ≤ r.Min.Y ∧ r.Max.Y ≤ s.Max.Y) := by
  unfold Rect.In
  cases h : r.Empty
  · simp only [Bool.false_eq_true, if_false, Bool.and_eq_true, decide_eq_true_eq, false_or]
    tauto
  · simp

/-- A rectangle is Empty exactly when no point is in it. -/
theorem Rect.Empty_iff_no_point (r : Rect) : r.Empty = true ↔ ∀ p : Point, p.In r = false := by
  constructor
  · intro h p
    rw [Rect.Empty_iff] at h
    cases hp : p.In r
    · rfl
    · rw [point_in_iff] at hp
      omega
  · intro h
    cases he : r.Empty
    · rw [Rect.Empty_false_iff] at he
      have := h r.Min
      have hin : r.Min.In r = true := by
        rw [point_in_iff]
        omega
      rw [hin] at this
      cases this
    · rfl

/-! ## Canon -/

/-- C24: Canon normalises and is idempotent.  For every rectangle r, well-formed or not,
`r.Canon()` is well-formed, `r.Canon().Canon() == r.Canon()` (hence Eq), and `r.Canon() == r`
whenever r is already well-formed. -/
theorem canon_normalises (r : Rect) :
    r.Canon.WellFormed ∧ r.Canon.Canon = r.Canon ∧ r.Canon.Canon.Eq r.Canon = true ∧
    (r.WellFormed → r.Canon = r) := by
  obtain ⟨⟨a, b⟩, ⟨c, d⟩⟩ := r
  have hwf : ∀ t : Rect, t.WellFormed → t.Canon = t := by
    rintro ⟨⟨a, b⟩, ⟨c, d⟩⟩ ⟨hx, hy⟩
    simp only at hx hy
    have h1 : ¬ c < a := by omega
    have h2 : ¬ d < b := by omega
    simp [Rect.Canon, h1, h2]
  have hcan : (Rect.Canon ⟨⟨a, b⟩, ⟨c, d⟩⟩).WellFormed := by
    by_cases h1 : c < a <;> by_cases h2 : d < b <;>
      simp only [Rect.Canon, h1, h2, if_true, if_false, Rect.WellFormed] <;>
      constructor <;> omega
  have hidem := hwf _ hcan
  refine ⟨hcan, hidem, ?_, hwf _⟩
  rw [hidem]
  simp [Rect.Eq]

/-- Witness of C24 at the inverted rectangle `Xyxy(10, 50, 0, 20)`, and at a well-formed one. -/
theorem canon_normalises_witness :
    (Xyxy 10 50 0 20).Canon.WellFormed ∧ (Xyxy 0 0 100 50).WellFormed ∧
    (Xyxy 0 0 100 50).Canon = Xyxy 0 0 100 50 :=
  ⟨(canon_normalises (Xyxy 10 50 0 20)).1, by decide,
    (canon_normalises (Xyxy 0 0 100 50)).2.2.2 (by decide)⟩

/-! ## Intersect -/

theorem Intersect_eq (r s : Rect) :
    r.Intersect s = if (r.clamped s).Empty then Rect.zero else r.clamped s := rfl

theorem clamped_fields (r s : Rect) :
    (r.clamped s).Min.X = max r.Min.X s.Min.X ∧ (r.clamped s).Min.Y = max r.Min.Y s.Min.Y ∧
    (r.clamped s).Max.X = min r.Max.X s.Max.X ∧ (r.clamped s).Max.Y = min r.Max.Y s.Max.Y := by
  simp only [Rect.clamped]
  refine ⟨?_, ?_, ?_, ?_⟩ <;> split_ifs <;> omega

/-- A point is in the clamped rectangle exactly when it is in both operands. -/
theorem In_clamped (r s : Rect) (p : Point) :
    p.In (r.clamped s) = true ↔ p.In r = true ∧ p.In s = true := by
  obtain ⟨e1, e2, e3, e4⟩ := clamped_fields r s
  rw [point_in_iff, point_in_iff, point_in_iff, e1, e2, e3, e4]
  constructor
  · intro h
    refine ⟨⟨?_, ?_, ?_, ?_⟩, ⟨?_, ?_, ?_, ?_⟩⟩ <;> omega
  · intro h
    refine ⟨?_, ?_, ?_, ?_⟩ <;> omega

/-- C21: Intersect is set intersection with a canonical empty result.  For all rectangles r, s
and every point p, `p.In(r.Intersect(s))` holds iff `p.In(r)` and `p.In(s)`; and whenever no
point lies in both, `r.Intersect(s)` is exactly the zero rectangle `Rect{}`. -/
theorem intersect_is_set_intersection (r s : Rect) :
    (∀ p : Point, p.In (r.Intersect s) = true ↔ p.In r = true ∧ p.In s = true) ∧
    ((∀ p : Point, ¬ (p.In r = true ∧ p.In s = true)) → r.Intersect s = Rect.zero) := by
  constructor
  · intro p
    rw [Intersect_eq]
    cases he : (r.clamped s).Empty
    · simp only [Bool.false_eq_true, if_false]
      exact In_clamped r s p
    · simp only [if_true]
      have hno := (Rect.Empty_iff_no_point _).mp he p
      rw [← In_clamped, hno]
      simp [Point.In, Rect.zero]
  · intro h
    have he : (r.clamped s).Empty = true := by
      rw [Rect.Empty_iff_no_point]
      intro p
      cases hp : p.In (r.clamped s)
      · rfl
      · exact absurd ((In_clamped r s p).mp hp) (h p)
    rw [Intersect_eq, he]
    rfl

/-- Witness of C21: `Xyxy(0, 0, 10, 10)` and `Xyxy(20, 0, 30, 10)` share no point, and their
intersection is the zero rectangle, not the clamped pair `(20,0)-(10,10)`. -/
theorem intersect_is_set_intersection_witness :
    (Xyxy 0 0 10 10).clamped (Xyxy 20 0 30 10) = Xyxy 20 0 10 10 ∧
    (Xyxy 0 0 10 10).Intersect (Xyxy 20 0 30 10) = Rect.zero :=
  ⟨by decide, (intersect_is_set_intersection (Xyxy 0 0 10 10) (Xyxy 20 0 30 10)).2 (by
    intro p hp
    have h1 := (point_in_iff p _).mp hp.1
    have h2 := (point_in_iff p _).mp hp.2
    simp only [Xyxy] at h1 h2
    omega)⟩

/-! ## Union and Eq -/

/-- The union of two non-empty rectangles, field by field. -/
theorem Union_of_nonempty (r s : Rect) (hr : r.Empty = false) (hs : s.Empty = false) :
    (r.Union s).Min.X = min r.Min.X s.Min.X ∧ (r.Union s).Min.Y = min r.Min.Y s.Min.Y ∧
    (r.Union s).Max.X = max r.Max.X s.Max.X ∧ (r.Union s).Max.Y = max r.Max.Y s.Max.Y := by
  simp only [Rect.Union, hr, hs, Bool.false_eq_true, if_false]
  refine ⟨?_, ?_, ?_, ?_⟩ <;> split_ifs <;> omega

theorem In_self (r : Rect) : r.In r = true := by
  rw [rect_in_iff]
  right
  omega

/-- C22: Union is the smallest rectangle containing both operands.  For all rectangles r, s,
with `u = r.Union(s)`, `r.In(u)` and `s.In(u)` hold, and every rectangle t with `r.In(t)` and
`s.In(t)` satisfies `u.In(t)`; if r is Empty then u is exactly s, and if s is Empty and r is
not then u is exactly r. -/
theorem union_is_smallest (r s : Rect) :
    r.In (r.Union s) = true ∧ s.In (r.Union s) = true ∧
    (∀ t : Rect, r.In t = true → s.In t = true → (r.Union s).In t = true) ∧
    (r.Empty = true → r.Union s = s) ∧
    (s.Empty = true → r.Empty = false → r.Union s = r) := by
  have hE : r.Empty = true → r.Union s = s := fun h => union_of_empty_left r s h
  have hS : s.Empty = true → r.Empty = false → r.Union s = r := by
    intro h1 h2
    simp [Rect.Union, h1, h2]
  refine ⟨?_, ?_, ?_, hE, hS⟩
  · cases hr : r.Empty
    · cases hs : s.Empty
      · obtain ⟨e1, e2, e3, e4⟩ := Union_of_nonempty r s hr hs
        rw [rect_in_iff, e1, e2, e3, e4]
        right
        omega
      · rw [hS hs hr]
        exact In_self r
    · rw [rect_in_iff]
      exact Or.inl hr
  · cases hr : r.Empty
    · cases hs : s.Empty
      · obtain ⟨e1, e2, e3, e4⟩ := Union_of_nonempty r s hr hs
        rw [rect_in_iff, e1, e2, e3, e4]
        right
        omega
      · rw [rect_in_iff]
        exact Or.inl hs
    · rw [hE hr]
      exact In_self s
  · intro t ht1 ht2
    cases hr : r.Empty
    · cases hs : s.Empty
      · obtain ⟨e1, e2, e3, e4⟩ := Union_of_nonempty r s hr hs
        rw [rect_in_iff, hr] at ht1
        rw [rect_in_iff, hs] at ht2
        rw [rect_in_iff, e1, e2, e3, e4]
        right
        rcases ht1 with h | h
        · cases h
        rcases ht2 with h2 | h2
        · cases h2
        omega
      · rw [hS hs hr]
        exact ht1
    · rw [hE hr]
      exact ht2

/-- Witness of C22 at `Xyxy(0, 0, 10, 10)`, `Xyxy(20, 5, 30, 40)` and the container
`Xyxy(-5, -5, 50, 50)`. -/
theorem union_is_smallest_witness :
    (Xyxy 0 0 10 10).In (Xyxy (-5) (-5) 50 50) = true ∧
    (Xyxy 20 5 30 40).In (Xyxy (-5) (-5) 50 50) = true ∧
    (Xyxy 0 0 10 10).Union (Xyxy 20 5 30 40) = Xyxy 0 0 30 40 ∧
    ((Xyxy 0 0 10 10).Union (Xyxy 20 5 30 40)).In (Xyxy (-5) (-5) 50 50) = true :=
  ⟨by decide, by decide, by decide,
    (union_is_smallest (Xyxy 0 0 10 10) (Xyxy 20 5 30 40)).2.2.1 (Xyxy (-5) (-5) 50 50)
      (by decide) (by decide)⟩

/-- Two non-empty rectangles with the same points are the same rectangle. -/
theorem eq_of_same_points (r s : Rect) (hr : r.Empty = false) (hs : s.Empty = false)
    (h : ∀ p : Point, p.In r = p.In s) : r = s := by
  obtain ⟨⟨a, b⟩, ⟨c, d⟩⟩ := r
  obtain ⟨⟨a2, b2⟩, ⟨c2, d2⟩⟩ := s
  rw [Rect.Empty_false_iff] at hr hs
  simp only at hr hs
  have use : ∀ x y : Int, (a ≤ x ∧ x < c ∧ b ≤ y ∧ y < d) ↔ (a2 ≤ x ∧ x < c2 ∧ b2 ≤ y ∧ y < d2) := by
    intro x y
    have := h ⟨x, y⟩
    rw [Bool.eq_iff_iff, point_in_iff, point_in_iff] at this
    exact this
  have k1 := (use a b).mp (by omega)
  have k2 := (use a2 b2).mpr (by omega)
  have k3 := (use (c - 1) (d - 1)).mp (by omega)
  have k4 := (use (c2 - 1) (d2 - 1)).mpr (by omega)
  have e1 : a = a2 := by omega
  have e2 : b = b2 := by omega
  have e3 : c = c2 := by omega
  have e4 : d = d2 := by omega
  subst e1 e2 e3 e4
  rfl

/-- C23: Eq is equality of point sets.  For all rectangles r, s, `r.Eq(s)` holds iff every
point is in r exactly when it is in s; any two Empty rectangles are Eq whatever their
coordinates, and two non-empty rectangles are Eq only when they are structurally equal. -/
theorem eq_is_point_set_equality (r s : Rect) :
    (r.Eq s = true ↔ ∀ p : Point, p.In r = p.In s) ∧
    (r.Empty = true → s.Empty = true → r.Eq s = true) ∧
    (r.Empty = false → s.Empty = false → r.Eq s = true → r = s) := by
  have hEq : r.Eq s = true ↔ r = s ∨ (r.Empty = true ∧ s.Empty = true) := by
    simp only [Rect.Eq, Bool.or_eq_true, decide_eq_true_eq, Bool.and_eq_true]
  refine ⟨⟨fun h p => ?_, fun h => ?_⟩, fun h1 h2 => hEq.mpr (Or.inr ⟨h1, h2⟩),
    fun h1 h2 h => ?_⟩
  · rcases hEq.mp h with h | ⟨h1, h2⟩
    · rw [h]
    · rw [(Rect.Empty_iff_no_point r).mp h1 p, (Rect.Empty_iff_no_point s).mp h2 p]
  · rw [hEq]
    cases hr : r.Empty
    · cases hs : s.Empty
      · exact Or.inl (eq_of_same_points r s hr hs h)
      · have hno := (Rect.Empty_iff_no_point s).mp hs
        have : r.Empty = true := by
          rw [Rect.Empty_iff_no_point]
          intro p
          rw [h p]
          exact hno p
        rw [hr] at this
        cases this
    · have hno := (Rect.Empty_iff_no_point r).mp hr
      have : s.Empty = true := by
        rw [Rect.Empty_iff_no_point]
        intro p
        rw [← h p]
        exact hno p
      exact Or.inr ⟨rfl, this⟩
  · rcases hEq.mp h with h | ⟨h3, -⟩
    · exact h
    · rw [h1] at h3
      cases h3

/-- Witness of C23: the Empty rectangles `Xyxy(120, 0, 120, 50)` and `Rect{}` are Eq. -/
theorem eq_is_point_set_equality_witness :
    (Xyxy 120 0 120 50).Empty = true ∧ Rect.zero.Empty = true ∧
    (Xyxy 120 0 120 50).Eq Rect.zero = true :=
  ⟨by decide, by decide,
    (eq_is_point_set_equality (Xyxy 120 0 120 50) Rect.zero).2.1 (by decide) (by decide)⟩

/-! ## Split: the remainder lands on the last part -/

/-- Width of the last item when the gaps fit: the uniform width plus the remainder. -/
theorem last_width_arith (D g n lo hi : Int) (hn : 2 ≤ n) (hfit : (n - 1) * g ≤ D)
    (hD : D = hi - lo) :
    (max 0 (D - (n - 1) * g)) / n = (D - (n - 1) * g) / n ∧
    max 0 (hi - (lo + (n - 1) * ((max 0 (D - (n - 1) * g)) / n + g))) =
      (D - (n - 1) * g) / n + (D - (n - 1) * g) % n ∧
    0 ≤ (D - (n - 1) * g) % n ∧ (D - (n - 1) * g) % n ≤ n - 1 := by
  have hm : max 0 (D - (n - 1) * g) = D - (n - 1) * g := by omega
  rw [hm]
  have h1 : n * ((D - (n - 1) * g) / n) + (D - (n - 1) * g) % n = D - (n - 1) * g :=
    Int.ediv_add_emod _ _
  have h2 : 0 ≤ (D - (n - 1) * g) % n := Int.emod_nonneg _ (by omega)
  have h3 : (D - (n - 1) * g) % n < n := Int.emod_lt_of_pos _ (by omega)
  have h0 : 0 ≤ (D - (n - 1) * g) / n := Int.ediv_nonneg (by omega) (by omega)
  refine ⟨rfl, ?_, h2, by omega⟩
  generalize (D - (n - 1) * g) / n = w at h1 h0 ⊢
  generalize (D - (n - 1) * g) % n = m at h1 h2 h3 ⊢
  have e : (n - 1) * (w + g) = n * w - w + (n - 1) * g := by ring
  rw [e]
  omega

/-- Over unbounded integers, integer truncation in Split is bounded and lands only on the
last part.  For
`n >= 2`, `g = max(gap, 0)` and `(n-1)*g <= r.Dx()`, with `avail = r.Dx() - (n-1)*g` and
`w = avail / n`, the last element of `r.SplitX(n, gap)` has width `w + (avail mod n)`, every
other part has width w, so the last is at least as wide as each of them and wider by at most
`n-1`; the same holds for SplitY with heights and `r.Dy()`. -/
theorem split_last_absorbs_remainder (r : Rect) (n gap : Int) (hn : 2 ≤ n) (g : Int)
    (hg : g = max gap 0) :
    ((n - 1) * g ≤ r.Dx → ∃ last, (r.SplitX n gap).getLast? = some last ∧
      last.Dx = (r.Dx - (n - 1) * g) / n + (r.Dx - (n - 1) * g) % n ∧
      ∀ i : Nat, (i : Int) < n - 1 → ∃ p, (r.SplitX n gap)[i]? = some p ∧
        p.Dx = (r.Dx - (n - 1) * g) / n ∧ p.Dx ≤ last.Dx ∧ last.Dx ≤ p.Dx + (n - 1)) ∧
    ((n - 1) * g ≤ r.Dy → ∃ last, (r.SplitY n gap).getLast? = some last ∧
      last.Dy = (r.Dy - (n - 1) * g) / n + (r.Dy - (n - 1) * g) % n ∧
      ∀ i : Nat, (i : Int) < n - 1 → ∃ p, (r.SplitY n gap)[i]? = some p ∧
        p.Dy = (r.Dy - (n - 1) * g) / n ∧ p.Dy ≤ last.Dy ∧ last.Dy ≤ p.Dy + (n - 1)) := by
  subst hg
  constructor
  · intro hfit
    obtain ⟨-, p2, -, p4⟩ := SplitX_parts r n gap hn _ _ rfl rfl
    obtain ⟨a1, a2, a3, a4⟩ := last_width_arith r.Dx (max gap 0) n r.Min.X r.Max.X hn hfit rfl
    have hl : (Xywh (r.Min.X + (n - 1) * ((max 0 (r.Dx - (n - 1) * max gap 0)) / n + max gap 0))
        r.Min.Y (max 0 (r.Max.X - (r.Min.X +
          (n - 1) * ((max 0 (r.Dx - (n - 1) * max gap 0)) / n + max gap 0)))) r.Dy).Dx =
        (r.Dx - (n - 1) * max gap 0) / n + (r.Dx - (n - 1) * max gap 0) % n := by
      rw [← a2]
      simp only [Xywh, Rect.Dx]
      omega
    refine ⟨_, p4, hl, fun i hi => ⟨_, p2 i hi, ?_⟩⟩
    have hp : (Xywh (r.Min.X + (i : Int) * ((max 0 (r.Dx - (n - 1) * max gap 0)) / n + max gap 0))
        r.Min.Y ((max 0 (r.Dx - (n - 1) * max gap 0)) / n) r.Dy).Dx =
        (r.Dx - (n - 1) * max gap 0) / n := by
      rw [← a1]
      simp only [Xywh, Rect.Dx]
      omega
    rw [hp, hl]
    refine ⟨rfl, by omega, by omega⟩
  · intro hfit
    obtain ⟨-, p2, -, p4⟩ := SplitY_parts r n gap hn _ _ rfl rfl
    obtain ⟨a1, a2, a3, a4⟩ := last_width_arith r.Dy (max gap 0) n r.Min.Y r.Max.Y hn hfit rfl
    have hl : (Xywh r.Min.X
        (r.Min.Y + (n - 1) * ((max 0 (r.Dy - (n - 1) * max gap 0)) / n + max gap 0)) r.Dx
        (max 0 (r.Max.Y - (r.Min.Y +
          (n - 1) * ((max 0 (r.Dy - (n - 1) * max gap 0)) / n + max gap 0))))).Dy =
        (r.Dy - (n - 1) * max gap 0) / n + (r.Dy - (n - 1) * max gap 0) % n := by
      rw [← a2]
      simp only [Xywh, Rect.Dy]
      omega
    refine ⟨_, p4, hl, fun i hi => ⟨_, p2 i hi, ?_⟩⟩
    have hp : (Xywh r.Min.X
        (r.Min.Y + (i : Int) * ((max 0 (r.Dy - (n - 1) * max gap 0)) / n + max gap 0)) r.Dx
        ((max 0 (r.Dy - (n - 1) * max gap 0)) / n)).Dy =
        (r.Dy - (n - 1) * max gap 0) / n := by
      rw [← a1]
      simp only [Xywh, Rect.Dy]
      omega
    rw [hp, hl]
    refine ⟨rfl, by omega, by omega⟩

/-! ## Split: parts stay inside and do not overlap -/

/-- When the gaps fit, every part of `SplitX` for `n >= 2` lies between `r.Min.X` and
`r.Max.X`. -/
theorem SplitX_mem_inside (r : Rect) (n gap : Int) (hn : 2 ≤ n)
    (hfit : (n - 1) * max gap 0 ≤ r.Dx) (p : Rect) (hp : p ∈ r.SplitX n gap) :
    r.Min.X ≤ p.Min.X ∧ p.Max.X ≤ r.Max.X := by
  obtain ⟨i, hi⟩ := List.mem_iff_getElem?.mp hp
  obtain ⟨p1, p2, p3, -⟩ := SplitX_parts r n gap hn _ _ rfl rfl
  obtain ⟨hw0, ha, -⟩ := split_arith r.Dx (max gap 0) n _ hn rfl
  obtain ⟨ha1, -, -⟩ := ha hfit
  generalize (max 0 (r.Dx - (n - 1) * max gap 0)) / n = w at p2 p3 hw0 ha1
  have hilen : i < (r.SplitX n gap).length := by
    rcases List.getElem?_eq_some_iff.mp hi with ⟨hlt, -⟩
    exact hlt
  have hin : (i : Int) < n := by omega
  have hg0 : 0 ≤ max gap 0 := by omega
  simp only [Rect.Dx] at ha1
  by_cases hlast : (i : Int) < n - 1
  · have := p2 i hlast
    rw [hi] at this
    rw [Option.some.inj this]
    have h1 : 0 ≤ (i : Int) * (w + max gap 0) := mul_nonneg (by omega) (by omega)
    have h2 : 0 ≤ (n - 2 - (i : Int)) * (w + max gap 0) := mul_nonneg (by omega) (by omega)
    have e : (n - 1) * (w + max gap 0) =
        (n - 2 - (i : Int)) * (w + max gap 0) + (i : Int) * (w + max gap 0) + w + max gap 0 := by
      ring
    simp only [Xywh]
    constructor <;> omega
  · have e : i = (n - 1).toNat := by omega
    rw [e, p3] at hi
    rw [← Option.some.inj hi]
    have h1 : 0 ≤ (n - 1) * (w + max gap 0) := mul_nonneg (by omega) (by omega)
    simp only [Xywh]
    constructor <;> omega

/-- When the gaps fit, every part of `SplitX` is `In` r, and two parts at distinct indices
never overlap. -/
theorem SplitX_inside_disjoint (r : Rect) (n gap : Int) (hn : 1 ≤ n)
    (hfit : (n - 1) * max gap 0 ≤ r.Dx) :
    (∀ p ∈ r.SplitX n gap, p.In r = true) ∧
    (∀ (i j : Nat) (p q : Rect), i ≠ j → (r.SplitX n gap)[i]? = some p →
      (r.SplitX n gap)[j]? = some q → p.Overlaps q = false) := by
  constructor
  · intro p hp
    by_cases h1 : n = 1
    · subst h1
      simp [Rect.SplitX] at hp
      subst hp
      exact In_self p
    · have hn2 : 2 ≤ n := by omega
      obtain ⟨a, b, -⟩ := SplitX_mem_form r n gap hn2 p hp
      obtain ⟨c, d⟩ := SplitX_mem_inside r n gap hn2 hfit p hp
      rw [rect_in_iff]
      right
      omega
  · intro i j p q hij hp hq
    rcases Nat.lt_or_gt_of_ne hij with h | h
    · exact (overlaps_false_of_X p q (SplitX_ordered r n gap i j h p q hp hq).1).1
    · exact (overlaps_false_of_X q p (SplitX_ordered r n gap j i h q p hq hp).1).2

theorem In_swap (p r : Rect) : p.swap.In r.swap = p.In r := by
  rw [Bool.eq_iff_iff, rect_in_iff, rect_in_iff, Empty_swap]
  simp only [Rect.swap, Point.swap]
  tauto

theorem Overlaps_swap (p q : Rect) : p.swap.Overlaps q.swap = p.Overlaps q := by
  rw [Bool.eq_iff_iff]
  simp only [Rect.Overlaps, Empty_swap]
  simp only [Rect.swap, Point.swap, Bool.and_eq_true, decide_eq_true_eq]
  tauto

/-- C26: split parts stay inside the rectangle and never overlap.  For `n >= 1` and
`(n-1)*max(gap, 0) <= r.Dx()`, every element p of `r.SplitX(n, gap)` satisfies `p.In(r)`, and
for all indices `i != j` the elements i and j do not overlap; the same holds for SplitY with
`r.Dy()`. -/
theorem split_parts_inside_disjoint (r : Rect) (n gap : Int) (hn : 1 ≤ n) :
    ((n - 1) * max gap 0 ≤ r.Dx →
      (∀ p ∈ r.SplitX n gap, p.In r = true) ∧
      (∀ (i j : Nat) (p q : Rect), i ≠ j → (r.SplitX n gap)[i]? = some p →
        (r.SplitX n gap)[j]? = some q → p.Overlaps q = false)) ∧
    ((n - 1) * max gap 0 ≤ r.Dy →
      (∀ p ∈ r.SplitY n gap, p.In r = true) ∧
      (∀ (i j : Nat) (p q : Rect), i ≠ j → (r.SplitY n gap)[i]? = some p →
        (r.SplitY n gap)[j]? = some q → p.Overlaps q = false)) := by
  refine ⟨fun hfit => SplitX_inside_disjoint r n gap hn hfit, fun hfit => ?_⟩
  obtain ⟨h1, h2⟩ := SplitX_inside_disjoint r.swap n gap hn hfit
  rw [SplitY_eq_swap]
  constructor
  · intro p hp
    rw [List.mem_map] at hp
    obtain ⟨p0, hp0, rfl⟩ := hp
    have := h1 p0 hp0
    rw [← In_swap] at this
    rwa [swap_swap] at this
  · intro i j p q hij hp hq
    rw [List.getElem?_map] at hp hq
    obtain ⟨p0, hp0, rfl⟩ := Option.map_eq_some'.mp hp
    obtain ⟨q0, hq0, rfl⟩ := Option.map_eq_some'.mp hq
    rw [Overlaps_swap]
    exact h2 i j p0 q0 hij hp0 hq0

/-- Witness of C26 at `Xyxy(0, 0, 100, 50)`, `n = 3`, `gap = 5`: parts 0 and 1. -/
theorem split_parts_inside_disjoint_witness :
    (1 : Int) ≤ 3 ∧ (3 - 1) * max (5 : Int) 0 ≤ (Xyxy 0 0 100 50).Dx ∧
    ((Xyxy 0 0 100 50).SplitX 3 5)[0]? = some (Xyxy 0 0 30 50) ∧
    ((Xyxy 0 0 100 50).SplitX 3 5)[1]? = some (Xyxy 35 0 65 50) ∧
    (Xyxy 0 0 30 50).Overlaps (Xyxy 35 0 65 50) = false :=
  ⟨by decide, by decide, by decide, by decide,
    ((split_parts_inside_disjoint (Xyxy 0 0 100 50) 3 5 (by decide)).1 (by decide)).2 0 1
      (Xyxy 0 0 30 50) (Xyxy 35 0 65 50) (by decide) (by decide) (by decide)⟩

/-! ## The code at `S = int` agrees with the unbounded arithmetic when nothing overflows -/

theorem wrap_of_inRange (x : Int) (h : InRange x) : wrap x = x := by
  unfold InRange at h
  unfold wrap
  omega

theorem wrap_add_wrap (a b : Int) : wrap (a + wrap b) = wrap (a + b) := by
  unfold wrap
  omega

/-- The far cross-axis edge `Min.Y + Dy()` wraps back to `Max.Y`. -/
theorem xywh64_eq (r : Rect) (hr : r.InRange) (x w : Int)
    (hx : minInt64 ≤ x + w ∧ x + w ≤ maxInt64) :
    Int64.Xywh x r.Min.Y w (Int64.Dy r) = Xywh x r.Min.Y w r.Dy := by
  obtain ⟨-, h2, -, h4⟩ := hr
  unfold InRange at h2 h4
  unfold minInt64 maxInt64 at hx
  simp only [Int64.Xywh, Xywh, Int64.Dy, Rect.Dy, wrap, Rect.mk.injEq, Point.mk.injEq, true_and]
  constructor <;> omega

theorem splitXLoop64_eq (r : Rect) (hr : r.InRange) (w g : Int) (hw : 0 ≤ w) (hg : 0 ≤ g)
    (k : Nat) (cur : Int) (hlo : minInt64 ≤ cur)
    (hhi : cur + (k : Int) * (w + g) ≤ maxInt64) :
    Int64.splitXLoop r w g k cur = splitXLoop r w g k cur := by
  induction k generalizing cur with
  | zero => rfl
  | succ k ih =>
    have hk : 0 ≤ (k : Int) * (w + g) := mul_nonneg (by omega) (by omega)
    have e : ((k + 1 : Nat) : Int) * (w + g) = (k : Int) * (w + g) + (w + g) := by
      push_cast; ring
    rw [e] at hhi
    have hnext : wrap (cur + wrap (w + g)) = cur + (w + g) := by
      unfold minInt64 at hlo
      unfold maxInt64 at hhi
      unfold wrap
      omega
    simp only [Int64.splitXLoop, splitXLoop, hnext]
    rw [xywh64_eq r hr cur w ⟨by omega, by omega⟩,
      ih (cur + (w + g)) (by omega) (by omega)]

/-- Under `SplitXInRange` the code's `SplitX` computes what the unbounded arithmetic does. -/
theorem SplitX64_eq (r : Rect) (n gap : Int) (h : SplitXInRange r n gap) :
    Int64.SplitX r n gap = r.SplitX n gap := by
  obtain ⟨hr, hn, hgap, hwf, hD, hG, hC⟩ := h
  by_cases h0 : n ≤ 0
  · simp [Int64.SplitX, Rect.SplitX, h0]
  by_cases h1 : n = 1
  · simp [Int64.SplitX, Rect.SplitX, h1]
  have hn2 : 2 ≤ n := by omega
  have hmm : minInt64 = -9223372036854775808 := rfl
  have hMM : maxInt64 = 9223372036854775807 := rfl
  have hr' := hr
  obtain ⟨r1, r2, r3, r4⟩ := hr'
  unfold InRange at hn hgap r1 r2 r3 r4
  have hgm : (if gap < 0 then 0 else gap) = max gap 0 := by
    split_ifs <;> omega
  have hg0 : 0 ≤ max gap 0 := by omega
  have hG0 : 0 ≤ (n - 1) * max gap 0 := mul_nonneg (by omega) hg0
  have e2 : wrap (n - 1) = n - 1 := by unfold wrap; omega
  have e3 : wrap ((n - 1) * max gap 0) = (n - 1) * max gap 0 := by
    generalize (n - 1) * max gap 0 = G at hG hG0
    unfold wrap; omega
  have e4 : Int64.Dx r = r.Dx := by
    simp only [Int64.Dx, Rect.Dx]
    unfold wrap; omega
  have e5 : wrap (r.Dx - (n - 1) * max gap 0) = r.Dx - (n - 1) * max gap 0 := by
    simp only [Rect.Dx]
    generalize (n - 1) * max gap 0 = G at hG hG0
    unfold wrap; omega
  have hT : (if r.Dx - (n - 1) * max gap 0 < 0 then 0 else r.Dx - (n - 1) * max gap 0) =
      max 0 (r.Dx - (n - 1) * max gap 0) := by
    split_ifs <;> omega
  obtain ⟨t1, t2, t3, -⟩ := tdiv_item (max 0 (r.Dx - (n - 1) * max gap 0)) n (by omega) hn2
  obtain ⟨-, sfit, sbig⟩ := split_arith r.Dx (max gap 0) n _ hn2 rfl
  have hwle : (max 0 (r.Dx - (n - 1) * max gap 0)) / n ≤ max 0 (r.Dx - (n - 1) * max gap 0) :=
    Int.ediv_le_self _ (by omega)
  have hWeq : (max 0 (r.Dx - (n - 1) * max gap 0)).tdiv n =
      (max 0 (r.Dx - (n - 1) * max gap 0)) / n := Int.tdiv_eq_ediv (by omega) (by omega)
  unfold Int64.SplitX Rect.SplitX
  rw [if_neg h0, if_neg h1, if_neg h0, if_neg h1]
  simp only [hgm, e2, e3, e4, e5, hT, hWeq]
  have hDx : r.Dx = r.Max.X - r.Min.X := rfl
  generalize (max 0 (r.Dx - (n - 1) * max gap 0)) / n = w at t2 t3 sfit sbig hwle ⊢
  have e7 : wrap w = w := by
    rw [hDx] at hwle
    generalize (n - 1) * max gap 0 = G at hG hG0 hwle
    unfold wrap; omega
  have hW : (if w < 0 then 0 else w) = w := by
    split_ifs <;> omega
  simp only [e7, hW]
  have hk : (((n - 1).toNat : Nat) : Int) = n - 1 := Int.toNat_of_nonneg (by omega)
  have hCur : r.Min.X + (n - 1) * (w + max gap 0) ≤ maxInt64 ∧
      (r.Max.X - (r.Min.X + (n - 1) * (w + max gap 0)) ≤ maxInt64 ∧
        minInt64 ≤ r.Max.X - (r.Min.X + (n - 1) * (w + max gap 0))) ∧
      r.Min.X ≤ r.Min.X + (n - 1) * (w + max gap 0) := by
    have hc0 : 0 ≤ (n - 1) * (w + max gap 0) := mul_nonneg (by omega) (by omega)
    by_cases hfit : (n - 1) * max gap 0 ≤ r.Dx
    · have := (sfit hfit).1
      rw [hDx] at this
      generalize (n - 1) * (w + max gap 0) = C at this hc0
      omega
    · have hw0 := sbig (by omega)
      subst hw0
      simp only [zero_add]
      rw [hDx] at hfit
      generalize (n - 1) * max gap 0 = G at hG hG0 hC hfit
      omega
  obtain ⟨c1, ⟨c2, c3⟩, c4⟩ := hCur
  rw [splitXLoop64_eq r hr w (max gap 0) (by omega) hg0 (n - 1).toNat r.Min.X (by omega)
    (by rw [hk]; exact c1)]
  rw [splitXLoop_cursor, hk]
  have e8 : wrap (r.Max.X - (r.Min.X + (n - 1) * (w + max gap 0))) =
      r.Max.X - (r.Min.X + (n - 1) * (w + max gap 0)) := by
    generalize (n - 1) * (w + max gap 0) = C at c1 c2 c3 c4
    unfold wrap; omega
  rw [e8]
  congr 2
  refine xywh64_eq r hr _ _ ⟨?_, ?_⟩
  · generalize (n - 1) * (w + max gap 0) = C at c1 c2 c3 c4
    split_ifs <;> omega
  · generalize (n - 1) * (w + max gap 0) = C at c1 c2 c3 c4
    split_ifs <;> omega

theorem splitYLoop64_eq_swap (r : Rect) (h g : Int) (k : Nat) (cur : Int) :
    Int64.splitYLoop r h g k cur =
      ((Int64.splitXLoop r.swap h g k cur).1.map Rect.swap,
        (Int64.splitXLoop r.swap h g k cur).2) := by
  induction k generalizing cur with
  | zero => rfl
  | succ k ih =>
    simp only [Int64.splitYLoop, Int64.splitXLoop, ih, List.map_cons]
    rfl

/-- The code's SplitY is its SplitX reflected about the diagonal. -/
theorem SplitY64_eq_swap (r : Rect) (n gap : Int) :
    Int64.SplitY r n gap = (Int64.SplitX r.swap n gap).map Rect.swap := by
  by_cases h1 : n ≤ 0
  · simp [Int64.SplitY, Int64.SplitX, h1]
  by_cases h2 : n = 1
  · subst h2
    simp [Int64.SplitY, Int64.SplitX, swap_swap]
  unfold Int64.SplitY Int64.SplitX
  rw [if_neg h1, if_neg h2, if_neg h1, if_neg h2]
  simp only [splitYLoop64_eq_swap, List.map_append, List.map_cons, List.map_nil]
  rfl

theorem splitXInRange_swap (r : Rect) (n gap : Int) (h : SplitYInRange r n gap) :
    SplitXInRange r.swap n gap := by
  obtain ⟨⟨a, b, c, d⟩, h2, h3, h4, h5, h6, h7⟩ := h
  exact ⟨⟨b, a, d, c⟩, h2, h3, h4, h5, h6, h7⟩

/-- Under `SplitYInRange` the code's `SplitY` computes what the unbounded arithmetic does. -/
theorem SplitY64_eq (r : Rect) (n gap : Int) (h : SplitYInRange r n gap) :
    Int64.SplitY r n gap = r.SplitY n gap := by
  rw [SplitY64_eq_swap, SplitX64_eq r.swap n gap (splitXInRange_swap r n gap h), SplitY_eq_swap]

/-- When the gaps fit a well-formed rectangle of `int64` coordinates whose width is an
`int64` value, nothing in `SplitX` overflows. -/
theorem splitXInRange_of_fit (r : Rect) (n gap : Int) (hr : r.InRange) (hn : InRange n)
    (hgap : InRange gap) (hD : r.Max.X - r.Min.X ≤ maxInt64)
    (hfit : (n - 1) * max gap 0 ≤ r.Max.X - r.Min.X) (hn1 : 1 ≤ n) :
    SplitXInRange r n gap := by
  have hG0 : 0 ≤ (n - 1) * max gap 0 := mul_nonneg (by omega) (by omega)
  have hr' := hr
  obtain ⟨r1, r2, r3, r4⟩ := hr'
  unfold InRange at r1 r3
  have hMM : maxInt64 = 9223372036854775807 := rfl
  rw [hMM] at hD
  refine ⟨hr, hn, hgap, ?_, by rw [hMM]; exact hD, ?_, ?_⟩
  · generalize (n - 1) * max gap 0 = G at hfit hG0 ⊢
    omega
  · rw [hMM]
    generalize (n - 1) * max gap 0 = G at hfit hG0 ⊢
    omega
  · rw [hMM]
    generalize (n - 1) * max gap 0 = G at hfit hG0 ⊢
    omega

theorem splitYInRange_of_fit (r : Rect) (n gap : Int) (hr : r.InRange) (hn : InRange n)
    (hgap : InRange gap) (hD : r.Max.Y - r.Min.Y ≤ maxInt64)
    (hfit : (n - 1) * max gap 0 ≤ r.Max.Y - r.Min.Y) (hn1 : 1 ≤ n) :
    SplitYInRange r n gap := by
  have hG0 : 0 ≤ (n - 1) * max gap 0 := mul_nonneg (by omega) (by omega)
  have hr' := hr
  obtain ⟨r1, r2, r3, r4⟩ := hr'
  unfold InRange at r2 r4
  have hMM : maxInt64 = 9223372036854775807 := rfl
  rw [hMM] at hD
  refine ⟨hr, hn, hgap, ?_, by rw [hMM]; exact hD, ?_, ?_⟩
  · generalize (n - 1) * max gap 0 = G at hfit hG0 ⊢
    omega
  · rw [hMM]
    generalize (n - 1) * max gap 0 = G at hfit hG0 ⊢
    omega
  · rw [hMM]
    generalize (n - 1) * max gap 0 = G at hfit hG0 ⊢
    omega

/-! ### Repeat -/

theorem repeatXLoop64_eq (r : Rect) (hr : r.InRange) (dx gap : Int) (k : Nat) (cur : Int)
    (hin : ∀ i : Nat, i < k → InRange (cur + (i : Int) * (dx + gap)) ∧
      InRange (cur + (i : Int) * (dx + gap) + dx)) :
    (Int64.repeatXLoop r (wrap dx) gap k cur).1 = (repeatXLoop r dx gap k cur).1 ∧
    wrap (Int64.repeatXLoop r (wrap dx) gap k cur).2 =
      wrap (repeatXLoop r dx gap k cur).2 := by
  induction k generalizing cur with
  | zero => exact ⟨rfl, rfl⟩
  | succ k ih =>
    obtain ⟨h0a, h0b⟩ := hin 0 (by omega)
    simp only [Nat.cast_zero, zero_mul, add_zero] at h0a h0b
    obtain ⟨-, h2, -, h4⟩ := hr
    by_cases hk : k = 0
    · subst hk
      simp only [Int64.repeatXLoop, repeatXLoop, List.cons.injEq, and_true]
      unfold InRange at h0a h0b h2 h4
      refine ⟨?_, ?_⟩
      · simp only [Int64.Xywh, Xywh, Int64.Dy, Rect.Dy, wrap, Rect.mk.injEq, Point.mk.injEq,
          true_and]
        constructor <;> omega
      · unfold wrap; omega
    · obtain ⟨h1a, h1b⟩ := hin 1 (by omega)
      simp only [Nat.cast_one, one_mul] at h1a h1b
      have hnext : wrap (cur + wrap (wrap dx + gap)) = cur + (dx + gap) := by
        unfold InRange at h1a
        unfold wrap; omega
      have hrest := ih (cur + (dx + gap)) (fun i hi => by
        have := hin (i + 1) (by omega)
        have e : cur + (((i + 1 : Nat) : Int)) * (dx + gap) =
            cur + (dx + gap) + (i : Int) * (dx + gap) := by push_cast; ring
        rw [e] at this
        exact this)
      simp only [Int64.repeatXLoop, repeatXLoop, hnext, List.cons.injEq]
      refine ⟨⟨?_, hrest.1⟩, hrest.2⟩
      unfold InRange at h0a h0b h2 h4
      simp only [Int64.Xywh, Xywh, Int64.Dy, Rect.Dy, wrap, Rect.mk.injEq, Point.mk.injEq,
        true_and]
      constructor <;> omega

/-- A value between the two ends of an arithmetic progression is in range when the ends
are. -/
theorem inRange_between (a s : Int) (m i : Nat) (hi : i ≤ m) (h0 : InRange a)
    (hm : InRange (a + (m : Int) * s)) : InRange (a + (i : Int) * s) := by
  unfold InRange at *
  rcases le_or_lt 0 s with hs | hs
  · have h1 : 0 ≤ (i : Int) * s := mul_nonneg (by omega) hs
    have h2 : (i : Int) * s ≤ (m : Int) * s := mul_le_mul_of_nonneg_right (by omega) hs
    omega
  · have h1 : (i : Int) * s ≤ 0 := mul_nonpos_of_nonneg_of_nonpos (by omega) (by omega)
    have h2 : (m : Int) * s ≤ (i : Int) * s :=
      mul_le_mul_of_nonpos_right (by omega) (by omega)
    omega

/-- When the last copy has `int64` coordinates, the code's `RepeatX` computes what the
unbounded arithmetic does. -/
theorem RepeatX64_eq (r : Rect) (n gap : Int) (hr : r.InRange) (hn : 1 ≤ n)
    (hlast : InRange (r.Min.X + (n - 1) * (r.Dx + gap)) ∧
      InRange (r.Max.X + (n - 1) * (r.Dx + gap))) :
    Int64.RepeatX r n gap = r.RepeatX n gap := by
  have hk : ((n.toNat : Nat) : Int) = n := Int.toNat_of_nonneg (by omega)
  have hm : (((n.toNat - 1 : Nat) : Nat) : Int) = n - 1 := by omega
  have hr' := hr
  obtain ⟨r1, r2, r3, r4⟩ := hr'
  have hin : ∀ i : Nat, i < n.toNat → InRange (r.Min.X + (i : Int) * (r.Dx + gap)) ∧
      InRange (r.Min.X + (i : Int) * (r.Dx + gap) + r.Dx) := by
    intro i hi
    refine ⟨inRange_between _ _ (n.toNat - 1) i (by omega) r1 (by rw [hm]; exact hlast.1), ?_⟩
    have := inRange_between r.Max.X (r.Dx + gap) (n.toNat - 1) i (by omega) r3
      (by rw [hm]; exact hlast.2)
    have e : r.Min.X + (i : Int) * (r.Dx + gap) + r.Dx = r.Max.X + (i : Int) * (r.Dx + gap) := by
      simp only [Rect.Dx]; ring
    rw [e]
    exact this
  obtain ⟨e1, e2⟩ := repeatXLoop64_eq r hr r.Dx gap n.toNat r.Min.X hin
  have hcur := splitXLoop_cursor r r.Dx gap n.toNat r.Min.X
  rw [← repeatXLoop_eq, hk] at hcur
  have hD : Int64.Dx r = wrap r.Dx := rfl
  simp only [Int64.RepeatX, Rect.RepeatX, if_neg (show ¬ n ≤ 0 by omega), hD, e1,
    Prod.mk.injEq, true_and, Xyxy, Rect.mk.injEq, Point.mk.injEq, and_true]
  rw [hcur] at e2 ⊢
  have e : r.Min.X + n * (r.Dx + gap) - gap = r.Max.X + (n - 1) * (r.Dx + gap) := by
    simp only [Rect.Dx]; ring
  have hl : InRange (r.Min.X + n * (r.Dx + gap) - gap) := by
    rw [e]
    exact hlast.2
  generalize r.Min.X + n * (r.Dx + gap) = c at e2 hl ⊢
  generalize (Int64.repeatXLoop r (wrap r.Dx) gap n.toNat r.Min.X).2 = c64 at e2 ⊢
  unfold InRange at hl
  unfold wrap at e2 ⊢
  omega

theorem repeatYLoop64_eq_swap (r : Rect) (dy g : Int) (k : Nat) (cur : Int) :
    Int64.repeatYLoop r dy g k cur =
      ((Int64.repeatXLoop r.swap dy g k cur).1.map Rect.swap,
        (Int64.repeatXLoop r.swap dy g k cur).2) := by
  induction k generalizing cur with
  | zero => rfl
  | succ k ih =>
    simp only [Int64.repeatYLoop, Int64.repeatXLoop, ih, List.map_cons]
    rfl

/-- The code's RepeatY is its RepeatX reflected about the diagonal. -/
theorem RepeatY64_eq_swap (r : Rect) (n gap : Int) :
    Int64.RepeatY r n gap =
      ((Int64.RepeatX r.swap n gap).1.map Rect.swap, (Int64.RepeatX r.swap n gap).2.swap) := by
  by_cases h : n ≤ 0
  · simp [Int64.RepeatY, Int64.RepeatX, h]
    rfl
  · simp only [Int64.RepeatY, Int64.RepeatX, if_neg h, repeatYLoop64_eq_swap]
    rfl

theorem RepeatY64_eq (r : Rect) (n gap : Int) (hr : r.InRange) (hn : 1 ≤ n)
    (hlast : InRange (r.Min.Y + (n - 1) * (r.Dy + gap)) ∧
      InRange (r.Max.Y + (n - 1) * (r.Dy + gap))) :
    Int64.RepeatY r n gap = r.RepeatY n gap := by
  obtain ⟨a, b, c, d⟩ := hr
  rw [RepeatY64_eq_swap, RepeatX64_eq r.swap n gap ⟨b, a, d, c⟩ hn hlast, RepeatY_eq_swap]

/-! ## Claims on the code at `S = int`: split -/

/-- C4, refuted as stated: on `Xyxy(0, 0, 100, 50)` with `n = 3` and `gap = 60` the last part
of the code's SplitX is `(120,0)-(120,50)`, whose `Max.X` is 120 and not 100. -/
theorem split_last_far_edge_int64_counterexample :
    (Xyxy 0 0 100 50).WellFormed ∧ (2 : Int) ≤ 3 ∧
    (Int64.SplitX (Xyxy 0 0 100 50) 3 60).getLast? = some (Xyxy 120 0 120 50) ∧
    (Xyxy 120 0 120 50).Max.X ≠ (Xyxy 0 0 100 50).Max.X := by
  decide

/-- C4, amended: for a well-formed r of `int64` coordinates, `n >= 2` and a gap, with no
overflow in the computation (`SplitXInRange`: the width, `(n-1)*max(gap, 0)` and
`r.Min.X + (n-1)*max(gap, 0)` are `int64` values), the last part of `r.SplitX(n, gap)` ends at
`r.Max.X` exactly when the gaps fit, `(n-1) * max(gap, 0) <= r.Dx()`; when they do not, the
last part keeps its cursor position `r.Min.X + (n-1)*max(gap, 0)` and has zero width.  The
same holds for `r.SplitY(n, gap)` on the Y axis. -/
theorem split_last_far_edge_int64 (r : Rect) (n gap : Int) (hn : 2 ≤ n) :
    (SplitXInRange r n gap → ∃ p, (Int64.SplitX r n gap).getLast? = some p ∧
      (p.Max.X = r.Max.X ↔ (n - 1) * max gap 0 ≤ r.Max.X - r.Min.X) ∧
      (r.Max.X - r.Min.X < (n - 1) * max gap 0 →
        p = Xyxy (r.Min.X + (n - 1) * max gap 0) r.Min.Y
          (r.Min.X + (n - 1) * max gap 0) r.Max.Y)) ∧
    (SplitYInRange r n gap → ∃ p, (Int64.SplitY r n gap).getLast? = some p ∧
      (p.Max.Y = r.Max.Y ↔ (n - 1) * max gap 0 ≤ r.Max.Y - r.Min.Y) ∧
      (r.Max.Y - r.Min.Y < (n - 1) * max gap 0 →
        p = Xyxy r.Min.X (r.Min.Y + (n - 1) * max gap 0) r.Max.X
          (r.Min.Y + (n - 1) * max gap 0))) := by
  have key : ∀ (lo hi D : Int), D = hi - lo →
      (lo + (n - 1) * ((max 0 (D - (n - 1) * max gap 0)) / n + max gap 0) +
        max 0 (hi - (lo + (n - 1) * ((max 0 (D - (n - 1) * max gap 0)) / n + max gap 0))) = hi ↔
        (n - 1) * max gap 0 ≤ D) ∧
      (D < (n - 1) * max gap 0 →
        lo + (n - 1) * ((max 0 (D - (n - 1) * max gap 0)) / n + max gap 0) =
          lo + (n - 1) * max gap 0 ∧
        max 0 (hi - (lo + (n - 1) * ((max 0 (D - (n - 1) * max gap 0)) / n + max gap 0))) =
          0) := by
    intro lo hi D hD
    obtain ⟨h0, h1, h2⟩ := split_arith D (max gap 0) n _ hn rfl
    generalize (max 0 (D - (n - 1) * max gap 0)) / n = w at h0 h1 h2 ⊢
    have e : (n - 1) * (w + max gap 0) = (n - 1) * w + (n - 1) * max gap 0 := by ring
    refine ⟨⟨fun h => ?_, fun h => ?_⟩, fun hbig => ?_⟩
    · by_contra hc
      have hw0 := h2 (by omega)
      subst hw0
      simp only [zero_add] at h
      omega
    · have := (h1 h).1
      omega
    · have hw0 := h2 hbig
      subst hw0
      have e0 : (n - 1) * (0 + max gap 0) = (n - 1) * max gap 0 := by rw [zero_add]
      rw [e0]
      constructor <;> omega
  constructor
  · intro h
    rw [SplitX64_eq r n gap h]
    obtain ⟨k1, k2⟩ := key r.Min.X r.Max.X r.Dx rfl
    refine ⟨_, (SplitX_parts r n gap hn _ _ rfl rfl).2.2.2, k1, fun hbig => ?_⟩
    obtain ⟨e1, e2⟩ := k2 hbig
    simp only [Xywh, Xyxy, e1, e2, Rect.Dy, Rect.mk.injEq, Point.mk.injEq, true_and, add_zero]
    omega
  · intro h
    rw [SplitY64_eq r n gap h]
    obtain ⟨k1, k2⟩ := key r.Min.Y r.Max.Y r.Dy rfl
    refine ⟨_, (SplitY_parts r n gap hn _ _ rfl rfl).2.2.2, k1, fun hbig => ?_⟩
    obtain ⟨e1, e2⟩ := k2 hbig
    simp only [Xywh, Xyxy, e1, e2, Rect.Dx, Rect.mk.injEq, Point.mk.injEq, true_and, add_zero,
      and_true]
    omega

/-- Witness of the amended C4 at `Xyxy(0, 0, 100, 50)`, `n = 3`, `gap = 5`. -/
theorem split_last_far_edge_int64_witness :
    (2 : Int) ≤ 3 ∧ SplitXInRange (Xyxy 0 0 100 50) 3 5 ∧
    ∃ p, (Int64.SplitX (Xyxy 0 0 100 50) 3 5).getLast? = some p ∧
      (p.Max.X = (Xyxy 0 0 100 50).Max.X ↔
        (3 - 1) * max 5 0 ≤ (Xyxy 0 0 100 50).Max.X - (Xyxy 0 0 100 50).Min.X) ∧
      ((Xyxy 0 0 100 50).Max.X - (Xyxy 0 0 100 50).Min.X < (3 - 1) * max 5 0 →
        p = Xyxy ((Xyxy 0 0 100 50).Min.X + (3 - 1) * max 5 0) (Xyxy 0 0 100 50).Min.Y
          ((Xyxy 0 0 100 50).Min.X + (3 - 1) * max 5 0) (Xyxy 0 0 100 50).Max.Y) :=
  ⟨by decide, by decide,
    (split_last_far_edge_int64 (Xyxy 0 0 100 50) 3 5 (by decide)).1 (by decide)⟩

/-- C5, refuted as stated: on `Xyxy(0, 0, 100, 50)` with `n = 3` and `gap = 2^62` the code's
cursor wraps around: element 1 is `(2^62,0)-(2^62,50)` and element 2 starts at the least
`int64`, not at element 1's `Max.X + g = 2^63`. -/
theorem split_uniform_parts_int64_counterexample :
    (Xyxy 0 0 100 50).WellFormed ∧ (Xyxy 0 0 100 50).InRange ∧ (2 : Int) ≤ 3 ∧
    InRange 4611686018427387904 ∧
    (Int64.SplitX (Xyxy 0 0 100 50) 3 4611686018427387904)[1]? =
      some (Xyxy 4611686018427387904 0 4611686018427387904 50) ∧
    (Int64.SplitX (Xyxy 0 0 100 50) 3 4611686018427387904)[2]? =
      some (Xyxy minInt64 0 minInt64 50) ∧
    (Xyxy minInt64 0 minInt64 50).Min.X ≠
      (Xyxy 4611686018427387904 0 4611686018427387904 50).Max.X +
        max 4611686018427387904 0 := by
  decide

/-- C5, amended: for a well-formed r of `int64` coordinates, `n >= 2` and a gap, with no
overflow in the computation (`SplitXInRange`), and with `g = max(gap, 0)`,
`avail = max(0, r.Dx() - (n-1)*g)` and `w = avail / n`, `r.SplitX(n, gap)` has exactly n
elements, element `i < n-1` is `Xywh(r.Min.X + i*(w+g), r.Min.Y, w, r.Dy())`, and element
`i+1` starts at element i's `Max.X + g`.  SplitY is the same on the Y axis. -/
theorem split_uniform_parts_int64 (r : Rect) (n gap : Int) (hn : 2 ≤ n) (g w h : Int)
    (hg : g = max gap 0) (hw : w = (max 0 (r.Dx - (n - 1) * g)) / n)
    (hh : h = (max 0 (r.Dy - (n - 1) * g)) / n) :
    (SplitXInRange r n gap →
      ((Int64.SplitX r n gap).length : Int) = n ∧
      (∀ i : Nat, (i : Int) < n - 1 →
        (Int64.SplitX r n gap)[i]? =
          some (Xywh (r.Min.X + (i : Int) * (w + g)) r.Min.Y w r.Dy)) ∧
      (∀ i : Nat, (i : Int) < n - 1 → ∃ p q, (Int64.SplitX r n gap)[i]? = some p ∧
        (Int64.SplitX r n gap)[i + 1]? = some q ∧ q.Min.X = p.Max.X + g)) ∧
    (SplitYInRange r n gap →
      ((Int64.SplitY r n gap).length : Int) = n ∧
      (∀ i : Nat, (i : Int) < n - 1 →
        (Int64.SplitY r n gap)[i]? =
          some (Xywh r.Min.X (r.Min.Y + (i : Int) * (h + g)) r.Dx h)) ∧
      (∀ i : Nat, (i : Int) < n - 1 → ∃ p q, (Int64.SplitY r n gap)[i]? = some p ∧
        (Int64.SplitY r n gap)[i + 1]? = some q ∧ q.Min.Y = p.Max.Y + g)) := by
  obtain ⟨hx, hy⟩ := split_uniform_parts r n gap hn g w h hg hw hh
  constructor
  · intro hin
    rw [SplitX64_eq r n gap hin]
    exact hx
  · intro hin
    rw [SplitY64_eq r n gap hin]
    exact hy

/-- Witness of the amended C5 at `Xyxy(0, 0, 100, 50)`, `n = 3`, `gap = 5`: `g = 5`,
`w = 30`, `h = 13`. -/
theorem split_uniform_parts_int64_witness :
    (2 : Int) ≤ 3 ∧ (5 : Int) = max 5 0 ∧
    (30 : Int) = (max 0 ((Xyxy 0 0 100 50).Dx - (3 - 1) * 5)) / 3 ∧
    (13 : Int) = (max 0 ((Xyxy 0 0 100 50).Dy - (3 - 1) * 5)) / 3 ∧
    SplitXInRange (Xyxy 0 0 100 50) 3 5 ∧
    (Int64.SplitX (Xyxy 0 0 100 50) 3 5)[1]? =
      some (Xywh ((Xyxy 0 0 100 50).Min.X + ((1 : Nat) : Int) * (30 + 5))
        (Xyxy 0 0 100 50).Min.Y 30 (Xyxy 0 0 100 50).Dy) :=
  ⟨by decide, by decide, by decide, by decide, by decide,
    ((split_uniform_parts_int64 (Xyxy 0 0 100 50) 3 5 (by decide) 5 30 13 (by decide)
      (by decide) (by decide)).1 (by decide)).2.1 1 (by decide)⟩

/-- C6, refuted as stated: on the well-formed `Xyxy(-2^62, 0, 2^62+1, 10)` with `n = 2` and
`gap = 0` the gaps fit, but `r.Dx()` wraps to a negative value and the code returns two
zero-width parts at `r.Min.X`: the widths sum to 0 and the last part does not end at
`r.Max.X`. -/
theorem split_tiles_extent_int64_counterexample :
    (Xyxy (-4611686018427387904) 0 4611686018427387905 10).WellFormed ∧
    (Xyxy (-4611686018427387904) 0 4611686018427387905 10).InRange ∧
    (2 - 1) * max (0 : Int) 0 ≤ (Xyxy (-4611686018427387904) 0 4611686018427387905 10).Dx ∧
    Int64.SplitX (Xyxy (-4611686018427387904) 0 4611686018427387905 10) 2 0 =
      [Xyxy (-4611686018427387904) 0 (-4611686018427387904) 10,
        Xyxy (-4611686018427387904) 0 (-4611686018427387904) 10] ∧
    ((Int64.SplitX (Xyxy (-4611686018427387904) 0 4611686018427387905 10) 2 0).map
      Rect.Dx).sum ≠
      (Xyxy (-4611686018427387904) 0 4611686018427387905 10).Dx - (2 - 1) * max 0 0 ∧
    (Xyxy (-4611686018427387904) 0 (-4611686018427387904) 10).Max.X ≠
      (Xyxy (-4611686018427387904) 0 4611686018427387905 10).Max.X := by
  decide

/-- C6, amended: for a rectangle of `int64` coordinates whose width is an `int64` value,
`n >= 1` and a gap with `g = max(gap, 0)` and `(n-1)*g <= r.Dx()`, the widths of the parts of
`r.SplitX(n, gap)` sum to `r.Dx() - (n-1)*g`, the first part starts at `r.Min.X` and the last
part ends at `r.Max.X`.  The same holds for SplitY with heights. -/
theorem split_tiles_extent_int64 (r : Rect) (n gap : Int) (hr : r.InRange) (hn : InRange n)
    (hgap : InRange gap) (hn1 : 1 ≤ n) (g : Int) (hg : g = max gap 0) :
    (r.Dx ≤ maxInt64 → (n - 1) * g ≤ r.Dx →
      ((Int64.SplitX r n gap).map Rect.Dx).sum = r.Dx - (n - 1) * g ∧
      (∃ p, (Int64.SplitX r n gap).head? = some p ∧ p.Min.X = r.Min.X) ∧
      (∃ q, (Int64.SplitX r n gap).getLast? = some q ∧ q.Max.X = r.Max.X)) ∧
    (r.Dy ≤ maxInt64 → (n - 1) * g ≤ r.Dy →
      ((Int64.SplitY r n gap).map Rect.Dy).sum = r.Dy - (n - 1) * g ∧
      (∃ p, (Int64.SplitY r n gap).head? = some p ∧ p.Min.Y = r.Min.Y) ∧
      (∃ q, (Int64.SplitY r n gap).getLast? = some q ∧ q.Max.Y = r.Max.Y)) := by
  obtain ⟨hx, hy⟩ := split_tiles_extent r n gap hn1 g hg
  subst hg
  constructor
  · intro hD hfit
    rw [SplitX64_eq r n gap (splitXInRange_of_fit r n gap hr hn hgap hD hfit hn1)]
    exact hx hfit
  · intro hD hfit
    rw [SplitY64_eq r n gap (splitYInRange_of_fit r n gap hr hn hgap hD hfit hn1)]
    exact hy hfit

/-- Witness of the amended C6 at `Xyxy(0, 0, 100, 50)`, `n = 3`, `gap = 5`. -/
theorem split_tiles_extent_int64_witness :
    (Xyxy 0 0 100 50).InRange ∧ InRange 3 ∧ InRange 5 ∧ (1 : Int) ≤ 3 ∧ (5 : Int) = max 5 0 ∧
    (Xyxy 0 0 100 50).Dx ≤ maxInt64 ∧ (3 - 1) * (5 : Int) ≤ (Xyxy 0 0 100 50).Dx ∧
    ((Int64.SplitX (Xyxy 0 0 100 50) 3 5).map Rect.Dx).sum =
      (Xyxy 0 0 100 50).Dx - (3 - 1) * 5 :=
  ⟨by decide, by decide, by decide, by decide, by decide, by decide, by decide,
    ((split_tiles_extent_int64 (Xyxy 0 0 100 50) 3 5 (by decide) (by decide) (by decide)
      (by decide) 5 (by decide)).1 (by decide) (by decide)).1⟩

/-- C9, refuted as stated: on `Xyxy(0, 0, 100, 50)` with `n = 3` and `gap = 2^62` the gaps
exceed the extent, but the code's cursor wraps around and element 2 is at the least `int64`,
not at `r.Min.X + 2*gap = 2^63`. -/
theorem split_large_gap_int64_counterexample :
    (Xyxy 0 0 100 50).WellFormed ∧ (2 : Int) ≤ 3 ∧ (0 : Int) < 4611686018427387904 ∧
    (3 - 1) * (4611686018427387904 : Int) > (Xyxy 0 0 100 50).Dx ∧
    (Int64.SplitX (Xyxy 0 0 100 50) 3 4611686018427387904)[2]? =
      some (Xyxy minInt64 0 minInt64 50) ∧
    Xyxy minInt64 0 minInt64 50 ≠
      Xyxy ((Xyxy 0 0 100 50).Min.X + ((2 : Nat) : Int) * 4611686018427387904)
        (Xyxy 0 0 100 50).Min.Y
        ((Xyxy 0 0 100 50).Min.X + ((2 : Nat) : Int) * 4611686018427387904)
        (Xyxy 0 0 100 50).Max.Y := by
  decide

/-- C9, amended: for a well-formed r of `int64` coordinates, `n >= 2` and `gap > 0` with
`(n-1)*gap > r.Dx()`, and with no overflow in the computation (`SplitXInRange`: in particular
`(n-1)*gap` and `r.Min.X + (n-1)*gap` are `int64` values), element i of `r.SplitX(n, gap)` is
`Xyxy(r.Min.X + i*gap, r.Min.Y, r.Min.X + i*gap, r.Max.Y)` for every `i < n`, the last
included.  SplitY is the same on the Y axis. -/
theorem split_large_gap_collapses_int64 (r : Rect) (n gap : Int) (hn : 2 ≤ n)
    (hgap : 0 < gap) :
    (SplitXInRange r n gap → (n - 1) * gap > r.Dx → ∀ i : Nat, (i : Int) < n →
      (Int64.SplitX r n gap)[i]? =
        some (Xyxy (r.Min.X + (i : Int) * gap) r.Min.Y (r.Min.X + (i : Int) * gap) r.Max.Y)) ∧
    (SplitYInRange r n gap → (n - 1) * gap > r.Dy → ∀ i : Nat, (i : Int) < n →
      (Int64.SplitY r n gap)[i]? =
        some (Xyxy r.Min.X (r.Min.Y + (i : Int) * gap) r.Max.X (r.Min.Y + (i : Int) * gap))) := by
  obtain ⟨hx, hy⟩ := split_large_gap_collapses r n gap hn hgap
  constructor
  · intro hin
    rw [SplitX64_eq r n gap hin]
    exact hx
  · intro hin
    rw [SplitY64_eq r n gap hin]
    exact hy

/-- Witness of the amended C9 at `Xyxy(0, 0, 100, 50)`, `n = 3`, `gap = 60`. -/
theorem split_large_gap_collapses_int64_witness :
    (2 : Int) ≤ 3 ∧ (0 : Int) < 60 ∧ SplitXInRange (Xyxy 0 0 100 50) 3 60 ∧
    (3 - 1) * (60 : Int) > (Xyxy 0 0 100 50).Dx ∧
    (Int64.SplitX (Xyxy 0 0 100 50) 3 60)[2]? =
      some (Xyxy ((Xyxy 0 0 100 50).Min.X + ((2 : Nat) : Int) * 60) (Xyxy 0 0 100 50).Min.Y
        ((Xyxy 0 0 100 50).Min.X + ((2 : Nat) : Int) * 60) (Xyxy 0 0 100 50).Max.Y) :=
  ⟨by decide, by decide, by decide, by decide,
    (split_large_gap_collapses_int64 (Xyxy 0 0 100 50) 3 60 (by decide) (by decide)).1
      (by decide) (by decide) 2 (by decide)⟩

/-- C10, refuted as stated: on the well-formed, non-empty `Xyxy(-2^62, 0, 2^62+1, 10)` the
code's `SplitX(2, 0)` returns two empty parts at `r.Min.X`, whose union is empty and so not
`Eq` to r. -/
theorem split_no_gap_int64_counterexample :
    (Xyxy (-4611686018427387904) 0 4611686018427387905 10).WellFormed ∧
    (Xyxy (-4611686018427387904) 0 4611686018427387905 10).InRange ∧ (1 : Int) ≤ 2 ∧
    unionAll (Int64.SplitX (Xyxy (-4611686018427387904) 0 4611686018427387905 10) 2 0) =
      Xyxy (-4611686018427387904) 0 (-4611686018427387904) 10 ∧
    (unionAll (Int64.SplitX (Xyxy (-4611686018427387904) 0 4611686018427387905 10) 2 0)).Eq
      (Xyxy (-4611686018427387904) 0 4611686018427387905 10) = false := by
  decide

/-- C10, amended: for a well-formed r of `int64` coordinates whose width is an `int64` value
and every `n >= 1`, folding `Rect.Union` over the elements of `r.SplitX(n, 0)` gives a
rectangle that is `Eq` to r, and r itself when r is not Empty; the same holds for
`r.SplitY(n, 0)` when the height is an `int64` value. -/
theorem split_no_gap_reassembles_int64 (r : Rect) (hr : r.WellFormed) (hin : r.InRange)
    (n : Int) (hn : InRange n) (hn1 : 1 ≤ n) :
    (r.Dx ≤ maxInt64 → (unionAll (Int64.SplitX r n 0)).Eq r = true ∧
      (r.Empty = false → unionAll (Int64.SplitX r n 0) = r)) ∧
    (r.Dy ≤ maxInt64 → (unionAll (Int64.SplitY r n 0)).Eq r = true ∧
      (r.Empty = false → unionAll (Int64.SplitY r n 0) = r)) := by
  obtain ⟨hx, hy⟩ := split_no_gap_reassembles r hr n hn1
  have h0 : InRange 0 := by decide
  constructor
  · intro hD
    rw [SplitX64_eq r n 0 (splitXInRange_of_fit r n 0 hin hn h0 hD
      (by have := hr.1; simp; omega) hn1)]
    exact hx
  · intro hD
    rw [SplitY64_eq r n 0 (splitYInRange_of_fit r n 0 hin hn h0 hD
      (by have := hr.2; simp; omega) hn1)]
    exact hy

/-- Witness of the amended C10 at `Xyxy(0, 0, 100, 50)` split in 4. -/
theorem split_no_gap_reassembles_int64_witness :
    (Xyxy 0 0 100 50).WellFormed ∧ (Xyxy 0 0 100 50).InRange ∧ InRange 4 ∧ (1 : Int) ≤ 4 ∧
    (Xyxy 0 0 100 50).Dx ≤ maxInt64 ∧ (Xyxy 0 0 100 50).Empty = false ∧
    unionAll (Int64.SplitX (Xyxy 0 0 100 50) 4 0) = Xyxy 0 0 100 50 :=
  ⟨by decide, by decide, by decide, by decide, by decide, by decide,
    ((split_no_gap_reassembles_int64 (Xyxy 0 0 100 50) (by decide) (by decide) 4 (by decide)
      (by decide)).1 (by decide)).2 (by decide)⟩

/-- Every part the code's split loop emits spans the cross axis of r. -/
theorem splitXLoop64_cross (r : Rect) (hr : r.InRange) (w g : Int) (k : Nat) (cur : Int) :
    ∀ p ∈ (Int64.splitXLoop r w g k cur).1, p.Min.Y = r.Min.Y ∧ p.Max.Y = r.Max.Y := by
  obtain ⟨-, h2, -, h4⟩ := hr
  unfold InRange at h2 h4
  induction k generalizing cur with
  | zero => simp [Int64.splitXLoop]
  | succ k ih =>
    intro p hp
    simp only [Int64.splitXLoop, List.mem_cons] at hp
    rcases hp with rfl | hp
    · simp only [Int64.Xywh, Int64.Dy, wrap, true_and]
      omega
    · exact ih _ p hp

/-- Every part of the code's `SplitX` spans the cross axis of r, whatever n and gap. -/
theorem SplitX64_cross (r : Rect) (hr : r.InRange) (n gap : Int) :
    ∀ p ∈ Int64.SplitX r n gap, p.Min.Y = r.Min.Y ∧ p.Max.Y = r.Max.Y := by
  intro p hp
  by_cases h0 : n ≤ 0
  · simp [Int64.SplitX, h0] at hp
  by_cases h1 : n = 1
  · subst h1
    simp [Int64.SplitX] at hp
    subst hp
    exact ⟨rfl, rfl⟩
  unfold Int64.SplitX at hp
  rw [if_neg h0, if_neg h1] at hp
  simp only [List.mem_append, List.mem_singleton] at hp
  rcases hp with hp | hp
  · exact splitXLoop64_cross r hr _ _ _ _ p hp
  · obtain ⟨-, h2, -, h4⟩ := hr
    unfold InRange at h2 h4
    rw [hp]
    simp only [Int64.Xywh, Int64.Dy, wrap, true_and]
    omega

/-- C11, refuted as stated: on `Xyxy(0, 0, 100, 50)` with `n = 3` and `gap = 2^62` the code's
parts start at `0`, `2^62` and the least `int64`: the starts are not non-decreasing. -/
theorem split_order_int64_counterexample :
    (Xyxy 0 0 100 50).WellFormed ∧ (1 : Int) ≤ 3 ∧ (1 : Nat) ≤ 2 ∧
    (Int64.SplitX (Xyxy 0 0 100 50) 3 4611686018427387904)[1]? =
      some (Xyxy 4611686018427387904 0 4611686018427387904 50) ∧
    (Int64.SplitX (Xyxy 0 0 100 50) 3 4611686018427387904)[2]? =
      some (Xyxy minInt64 0 minInt64 50) ∧
    ¬ (Xyxy 4611686018427387904 0 4611686018427387904 50).Min.X ≤
      (Xyxy minInt64 0 minInt64 50).Min.X := by
  decide

/-- C11, amended: for every r of `int64` coordinates, every n and gap, every element p of
`r.SplitX(n, gap)` has `p.Min.Y == r.Min.Y` and `p.Max.Y == r.Max.Y` (and every element of
`r.SplitY(n, gap)` has the X extent of r); and when r is well-formed along the axis and
nothing overflows (`SplitXInRange`, `SplitYInRange`), the elements' `Min.X` (`Min.Y`) are
non-decreasing in index order. -/
theorem split_cross_axis_and_order_int64 (r : Rect) (hr : r.InRange) (n gap : Int) :
    ((∀ p ∈ Int64.SplitX r n gap, p.Min.Y = r.Min.Y ∧ p.Max.Y = r.Max.Y) ∧
      (SplitXInRange r n gap → ∀ (i j : Nat) (p q : Rect), i ≤ j →
        (Int64.SplitX r n gap)[i]? = some p → (Int64.SplitX r n gap)[j]? = some q →
        p.Min.X ≤ q.Min.X)) ∧
    ((∀ p ∈ Int64.SplitY r n gap, p.Min.X = r.Min.X ∧ p.Max.X = r.Max.X) ∧
      (SplitYInRange r n gap → ∀ (i j : Nat) (p q : Rect), i ≤ j →
        (Int64.SplitY r n gap)[i]? = some p → (Int64.SplitY r n gap)[j]? = some q →
        p.Min.Y ≤ q.Min.Y)) := by
  obtain ⟨⟨-, ox⟩, ⟨-, oy⟩⟩ := split_cross_axis_and_order r n gap
  refine ⟨⟨SplitX64_cross r hr n gap, fun h => ?_⟩, ⟨fun p hp => ?_, fun h => ?_⟩⟩
  · rw [SplitX64_eq r n gap h]
    exact ox
  · rw [SplitY64_eq_swap, List.mem_map] at hp
    obtain ⟨p0, hp0, rfl⟩ := hp
    obtain ⟨a, b, c, d⟩ := hr
    exact SplitX64_cross r.swap ⟨b, a, d, c⟩ n gap p0 hp0
  · rw [SplitY64_eq r n gap h]
    exact oy

/-- Witness of the amended C11 at `Xyxy(0, 0, 100, 50)`, `n = 3`, `gap = 5`: parts 0 and
2. -/
theorem split_cross_axis_and_order_int64_witness :
    (Xyxy 0 0 100 50).InRange ∧ SplitXInRange (Xyxy 0 0 100 50) 3 5 ∧
    (Int64.SplitX (Xyxy 0 0 100 50) 3 5)[0]? = some (Xyxy 0 0 30 50) ∧
    (Int64.SplitX (Xyxy 0 0 100 50) 3 5)[2]? = some (Xyxy 70 0 100 50) ∧
    (Xyxy 0 0 30 50).Min.X ≤ (Xyxy 70 0 100 50).Min.X :=
  ⟨by decide, by decide, by decide, by decide,
    (split_cross_axis_and_order_int64 (Xyxy 0 0 100 50) (by decide) 3 5).1.2 (by decide) 0 2
      (Xyxy 0 0 30 50) (Xyxy 70 0 100 50) (by decide) (by decide) (by decide)⟩

/-- C25, refuted as stated: on the well-formed `Xyxy(-2^62, 0, 2^62+1, 10)` with `n = 2` and
`gap = 0` the gaps fit, `avail = 2^63+1` and `w = 2^62`, but the code's last part is
`(-2^62,0)-(-2^62,10)` of width 0, not `w + (avail mod n) = 2^62+1`. -/
theorem split_remainder_int64_counterexample :
    (Xyxy (-4611686018427387904) 0 4611686018427387905 10).WellFormed ∧ (2 : Int) ≤ 2 ∧
    (2 - 1) * max (0 : Int) 0 ≤ (Xyxy (-4611686018427387904) 0 4611686018427387905 10).Dx ∧
    (Int64.SplitX (Xyxy (-4611686018427387904) 0 4611686018427387905 10) 2 0).getLast? =
      some (Xyxy (-4611686018427387904) 0 (-4611686018427387904) 10) ∧
    (Xyxy (-4611686018427387904) 0 (-4611686018427387904) 10).Dx ≠
      ((Xyxy (-4611686018427387904) 0 4611686018427387905 10).Dx - (2 - 1) * max 0 0) / 2 +
        ((Xyxy (-4611686018427387904) 0 4611686018427387905 10).Dx - (2 - 1) * max 0 0) % 2 := by
  decide

/-- C25, amended: for a rectangle of `int64` coordinates whose width is an `int64` value,
`n >= 2`, `g = max(gap, 0)` and `(n-1)*g <= r.Dx()`, with `avail = r.Dx() - (n-1)*g` and
`w = avail / n`, the last element of `r.SplitX(n, gap)` has width `w + (avail mod n)` and
every other part has width w, so the last is at least as wide as each of them and wider by
at most `n-1`; the same holds for SplitY with heights. -/
theorem split_last_absorbs_remainder_int64 (r : Rect) (n gap : Int) (hr : r.InRange)
    (hnr : InRange n) (hgap : InRange gap) (hn : 2 ≤ n) (g : Int) (hg : g = max gap 0) :
    (r.Dx ≤ maxInt64 → (n - 1) * g ≤ r.Dx →
      ∃ last, (Int64.SplitX r n gap).getLast? = some last ∧
        last.Dx = (r.Dx - (n - 1) * g) / n + (r.Dx - (n - 1) * g) % n ∧
        ∀ i : Nat, (i : Int) < n - 1 → ∃ p, (Int64.SplitX r n gap)[i]? = some p ∧
          p.Dx = (r.Dx - (n - 1) * g) / n ∧ p.Dx ≤ last.Dx ∧ last.Dx ≤ p.Dx + (n - 1)) ∧
    (r.Dy ≤ maxInt64 → (n - 1) * g ≤ r.Dy →
      ∃ last, (Int64.SplitY r n gap).getLast? = some last ∧
        last.Dy = (r.Dy - (n - 1) * g) / n + (r.Dy - (n - 1) * g) % n ∧
        ∀ i : Nat, (i : Int) < n - 1 → ∃ p, (Int64.SplitY r n gap)[i]? = some p ∧
          p.Dy = (r.Dy - (n - 1) * g) / n ∧ p.Dy ≤ last.Dy ∧ last.Dy ≤ p.Dy + (n - 1)) := by
  obtain ⟨hx, hy⟩ := split_last_absorbs_remainder r n gap hn g hg
  subst hg
  constructor
  · intro hD hfit
    rw [SplitX64_eq r n gap (splitXInRange_of_fit r n gap hr hnr hgap hD hfit (by omega))]
    exact hx hfit
  · intro hD hfit
    rw [SplitY64_eq r n gap (splitYInRange_of_fit r n gap hr hnr hgap hD hfit (by omega))]
    exact hy hfit

/-- Witness of the amended C25 at `Xyxy(0, 0, 100, 50)`, `n = 3`, `gap = 0`: the last width
is `33 + 1`. -/
theorem split_last_absorbs_remainder_int64_witness :
    (Xyxy 0 0 100 50).InRange ∧ InRange 3 ∧ InRange 0 ∧ (2 : Int) ≤ 3 ∧ (0 : Int) = max 0 0 ∧
    (Xyxy 0 0 100 50).Dx ≤ maxInt64 ∧ (3 - 1) * (0 : Int) ≤ (Xyxy 0 0 100 50).Dx ∧
    ∃ last, (Int64.SplitX (Xyxy 0 0 100 50) 3 0).getLast? = some last ∧
      last.Dx = ((Xyxy 0 0 100 50).Dx - (3 - 1) * 0) / 3 +
        ((Xyxy 0 0 100 50).Dx - (3 - 1) * 0) % 3 ∧
      ∀ i : Nat, (i : Int) < 3 - 1 → ∃ p, (Int64.SplitX (Xyxy 0 0 100 50) 3 0)[i]? = some p ∧
        p.Dx = ((Xyxy 0 0 100 50).Dx - (3 - 1) * 0) / 3 ∧ p.Dx ≤ last.Dx ∧
        last.Dx ≤ p.Dx + (3 - 1) :=
  ⟨by decide, by decide, by decide, by decide, by decide, by decide, by decide,
    (split_last_absorbs_remainder_int64 (Xyxy 0 0 100 50) 3 0 (by decide) (by decide)
      (by decide) (by decide) 0 (by decide)).1 (by decide) (by decide)⟩

/-! ## Claims on the code at `S = int`: negative gaps -/

/-- With zero width and zero gap the loop of `SplitX` stays at its cursor. -/
theorem splitXLoop64_zero (r : Rect) (k : Nat) (cur : Int) (hcur : InRange cur) :
    Int64.splitXLoop r 0 0 k cur =
      (List.replicate k (Int64.Xywh cur r.Min.Y 0 (Int64.Dy r)), cur) := by
  induction k with
  | zero => rfl
  | succ k ih =>
    have e : wrap (cur + wrap (0 + 0)) = cur := by
      unfold InRange at hcur
      unfold wrap
      omega
    simp only [Int64.splitXLoop, e, ih, List.replicate_succ]

/-- A rectangle wider than the largest `int64`: `r.Dx()` wraps negative, and with no gap
every part of `SplitX` has zero width at `r.Min.X`. -/
theorem SplitX64_wide (r : Rect) (n gap : Int) (hr : r.InRange) (hn : 2 ≤ n)
    (hnr : InRange n) (hgap : gap ≤ 0) (hw : maxInt64 < r.Max.X - r.Min.X) :
    Int64.SplitX r n gap = List.replicate n.toNat (Xyxy r.Min.X r.Min.Y r.Min.X r.Max.Y) := by
  obtain ⟨r1, r2, r3, r4⟩ := hr
  have hg : (if gap < 0 then 0 else gap) = 0 := by
    split_ifs <;> omega
  have hn1 : wrap (n - 1) = n - 1 := by
    unfold InRange at hnr
    unfold wrap
    omega
  have hD : Int64.Dx r < 0 := by
    unfold InRange at r1 r3
    unfold maxInt64 at hw
    unfold Int64.Dx wrap
    omega
  have hDw : wrap (Int64.Dx r - wrap ((n - 1) * 0)) = Int64.Dx r := by
    rw [mul_zero]
    unfold Int64.Dx wrap
    omega
  have hw0 : wrap (Int.tdiv 0 n) = 0 := by
    rw [Int.zero_tdiv]
    rfl
  have hl : wrap (r.Max.X - r.Min.X) < 0 := hD
  have hX : Int64.Xywh r.Min.X r.Min.Y 0 (Int64.Dy r) = Xyxy r.Min.X r.Min.Y r.Min.X r.Max.Y := by
    unfold InRange at r1 r2 r4
    simp only [Int64.Xywh, Xyxy, Int64.Dy, wrap, Rect.mk.injEq, Point.mk.injEq, true_and]
    constructor <;> omega
  have hk : n.toNat = (n - 1).toNat + 1 := by omega
  unfold Int64.SplitX
  rw [if_neg (by omega), if_neg (by omega)]
  simp only [hg, hn1, hDw, if_pos hD, hw0, lt_irrefl, if_false, splitXLoop64_zero r _ _ r1,
    if_pos hl, hX]
  rw [hk, List.replicate_succ']

/-- With a negative gap the parts of the code's `SplitX` on a well-formed r are laid out left
to right and abut, whether or not `r.Dx()` wraps. -/
theorem SplitX64_neg_ordered (r : Rect) (n gap : Int) (hr : r.InRange) (hwf : r.Min.X ≤ r.Max.X)
    (hn : 2 ≤ n) (hnr : InRange n) (hgr : InRange gap) (hgap : gap < 0) (i j : Nat)
    (hij : i < j) (p q : Rect) (hp : (Int64.SplitX r n gap)[i]? = some p)
    (hq : (Int64.SplitX r n gap)[j]? = some q) :
    p.Max.X ≤ q.Min.X ∧ (j = i + 1 → q.Min.X = p.Max.X) := by
  have hg : max gap 0 = 0 := by omega
  by_cases hw : r.Max.X - r.Min.X ≤ maxInt64
  · have hin : SplitXInRange r n gap := by
      refine ⟨hr, hnr, hgr, hwf, hw, ?_, ?_⟩
      · rw [hg, mul_zero]; decide
      · rw [hg, mul_zero, add_zero]
        exact hr.1.2
    rw [SplitX64_eq r n gap hin] at hp hq
    obtain ⟨h1, h2⟩ := SplitX_ordered r n gap i j hij p q hp hq
    rw [hg, add_zero] at h2
    exact ⟨h1, h2⟩
  · rw [SplitX64_wide r n gap hr hn hnr (by omega) (by omega)] at hp hq
    rw [List.getElem?_replicate] at hp hq
    split_ifs at hp hq
    rw [← Option.some.inj hp, ← Option.some.inj hq]
    simp [Xyxy]

/-- C8, the code against its doc comment: with a negative gap no two parts returned by
`SplitX` or `SplitY` overlap.  For a well-formed r of `int64` coordinates, `n >= 2` and an
`int64` gap `< 0`, parts `i < j` of `r.SplitX(n, gap)` satisfy `p.Max.X <= q.Min.X`, with
equality when `j = i + 1`, and `Rect.Overlaps` is false for them in either order; likewise
for `r.SplitY(n, gap)` on the Y axis.  The doc comments of SplitX and SplitY say that a
negative gap leads to overlap. -/
theorem split_negative_gap_no_overlap_int64 (r : Rect) (n gap : Int) (hwf : r.WellFormed)
    (hr : r.InRange) (hn : 2 ≤ n) (hnr : InRange n) (hgr : InRange gap) (hgap : gap < 0)
    (i j : Nat) (hij : i < j) (p q : Rect) :
    ((Int64.SplitX r n gap)[i]? = some p → (Int64.SplitX r n gap)[j]? = some q →
      p.Max.X ≤ q.Min.X ∧ (j = i + 1 → q.Min.X = p.Max.X) ∧
      p.Overlaps q = false ∧ q.Overlaps p = false) ∧
    ((Int64.SplitY r n gap)[i]? = some p → (Int64.SplitY r n gap)[j]? = some q →
      p.Max.Y ≤ q.Min.Y ∧ (j = i + 1 → q.Min.Y = p.Max.Y) ∧
      p.Overlaps q = false ∧ q.Overlaps p = false) := by
  constructor
  · intro hp hq
    obtain ⟨h1, h2⟩ := SplitX64_neg_ordered r n gap hr hwf.1 hn hnr hgr hgap i j hij p q hp hq
    exact ⟨h1, h2, overlaps_false_of_X p q h1⟩
  · intro hp hq
    rw [SplitY64_eq_swap, List.getElem?_map] at hp hq
    obtain ⟨p0, hp0, rfl⟩ := Option.map_eq_some'.mp hp
    obtain ⟨q0, hq0, rfl⟩ := Option.map_eq_some'.mp hq
    obtain ⟨a, b, c, d⟩ := hr
    obtain ⟨h1, h2⟩ := SplitX64_neg_ordered r.swap n gap ⟨b, a, d, c⟩ hwf.2 hn hnr hgr hgap
      i j hij p0 q0 hp0 hq0
    exact ⟨h1, h2, overlaps_false_of_Y p0.swap q0.swap h1⟩

/-- Witness of C8 on the code at `Xyxy(0, 0, 100, 50)`, `n = 3`, `gap = -10`, parts 0 and
1. -/
theorem split_negative_gap_no_overlap_int64_witness :
    (Xyxy 0 0 100 50).WellFormed ∧ (Xyxy 0 0 100 50).InRange ∧ (2 : Int) ≤ 3 ∧ InRange 3 ∧
    InRange (-10) ∧ (-10 : Int) < 0 ∧ 0 < 1 ∧
    (Int64.SplitX (Xyxy 0 0 100 50) 3 (-10))[0]? = some (Xyxy 0 0 33 50) ∧
    (Int64.SplitX (Xyxy 0 0 100 50) 3 (-10))[1]? = some (Xyxy 33 0 66 50) ∧
    (Xyxy 0 0 33 50).Overlaps (Xyxy 33 0 66 50) = false :=
  ⟨by decide, by decide, by decide, by decide, by decide, by decide, by decide, by decide,
    by decide,
    ((split_negative_gap_no_overlap_int64 (Xyxy 0 0 100 50) 3 (-10) (by decide) (by decide)
      (by decide) (by decide) (by decide) (by decide) 0 1 (by decide)
      (Xyxy 0 0 33 50) (Xyxy 33 0 66 50)).1 (by decide) (by decide)).2.2.1⟩

/-! ## Claims on the code at `S = int`: repeat -/

/-- A wrapped value is an `int64` value. -/
theorem wrap_inRange (x : Int) : InRange (wrap x) := by
  unfold InRange wrap
  omega

/-- Wrapping a factor does not change a wrapped sum. -/
theorem wrap_add_mul_wrap (a i b : Int) : wrap (a + i * wrap b) = wrap (a + i * b) := by
  have e : wrap b = b + 18446744073709551616 * (-((b + 9223372036854775808) /
      18446744073709551616)) := by
    unfold wrap
    omega
  rw [e, mul_add]
  have e2 : i * (18446744073709551616 * -((b + 9223372036854775808) / 18446744073709551616)) =
      18446744073709551616 * (i * -((b + 9223372036854775808) / 18446744073709551616)) := by
    ring
  rw [e2]
  generalize i * -((b + 9223372036854775808) / 18446744073709551616) = c
  generalize i * b = t
  unfold wrap
  omega

theorem repeatXLoop64_length (r : Rect) (dx gap : Int) (k : Nat) (cur : Int) :
    (Int64.repeatXLoop r dx gap k cur).1.length = k := by
  induction k generalizing cur with
  | zero => rfl
  | succ k ih => simp [Int64.repeatXLoop, ih]

theorem repeatXLoop64_cursor (r : Rect) (dx gap : Int) (k : Nat) (cur : Int)
    (hcur : InRange cur) :
    (Int64.repeatXLoop r dx gap k cur).2 = wrap (cur + (k : Int) * (dx + gap)) := by
  induction k generalizing cur with
  | zero => simp [Int64.repeatXLoop, wrap_of_inRange cur hcur]
  | succ k ih =>
    simp only [Int64.repeatXLoop]
    rw [ih _ (wrap_inRange _)]
    have e : ((k + 1 : Nat) : Int) * (dx + gap) = (k : Int) * (dx + gap) + (dx + gap) := by
      push_cast; ring
    rw [e]
    generalize (k : Int) * (dx + gap) = t
    unfold wrap
    omega

theorem repeatXLoop64_getElem (r : Rect) (dx gap : Int) (k : Nat) (cur : Int)
    (hcur : InRange cur) (i : Nat) (hi : i < k) :
    (Int64.repeatXLoop r dx gap k cur).1[i]? =
      some (Int64.Xywh (wrap (cur + (i : Int) * (dx + gap))) r.Min.Y dx (Int64.Dy r)) := by
  induction k generalizing cur i with
  | zero => omega
  | succ k ih =>
    cases i with
    | zero => simp [Int64.repeatXLoop, wrap_of_inRange cur hcur]
    | succ i =>
      simp only [Int64.repeatXLoop, List.getElem?_cons_succ]
      rw [ih _ (wrap_inRange _) i (by omega)]
      have e : ((i + 1 : Nat) : Int) * (dx + gap) = (i : Int) * (dx + gap) + (dx + gap) := by
        push_cast; ring
      rw [e]
      generalize (i : Int) * (dx + gap) = t
      have : wrap (wrap (cur + wrap (dx + gap)) + t) = wrap (cur + (t + (dx + gap))) := by
        unfold wrap
        omega
      rw [this]

/-- The copies and overall rectangle of the code's `RepeatX` for `n >= 1`, in `int64`
arithmetic. -/
theorem RepeatX64_tiles (r : Rect) (n gap : Int) (hr : r.InRange) (hn : 1 ≤ n) :
    (((Int64.RepeatX r n gap).1.length : Int) = n ∧
    (∀ i : Nat, (i : Int) < n → (Int64.RepeatX r n gap).1[i]? =
      some (Int64.Add r ⟨wrap ((i : Int) * wrap (Int64.Dx r + gap)), 0⟩)) ∧
    (∀ c ∈ (Int64.RepeatX r n gap).1, Int64.Size c = Int64.Size r) ∧
    (∃ last, (Int64.RepeatX r n gap).1.getLast? = some last ∧
      (Int64.RepeatX r n gap).2 = ⟨r.Min, last.Max⟩)) := by
  have hk : ((n.toNat : Nat) : Int) = n := Int.toNat_of_nonneg (by omega)
  obtain ⟨r1, r2, r3, r4⟩ := hr
  have hlen : (Int64.RepeatX r n gap).1.length = n.toNat := by
    simp only [Int64.RepeatX, if_neg (show ¬ n ≤ 0 by omega), repeatXLoop64_length]
  have hel : ∀ i : Nat, (i : Int) < n → (Int64.RepeatX r n gap).1[i]? =
      some (Int64.Xywh (wrap (r.Min.X + (i : Int) * (Int64.Dx r + gap))) r.Min.Y (Int64.Dx r)
        (Int64.Dy r)) := by
    intro i hi
    simp only [Int64.RepeatX, if_neg (show ¬ n ≤ 0 by omega)]
    exact repeatXLoop64_getElem r _ gap _ _ r1 i (by omega)
  have hadd : ∀ t : Int, Int64.Xywh (wrap (r.Min.X + t)) r.Min.Y (Int64.Dx r) (Int64.Dy r) =
      ⟨⟨wrap (r.Min.X + t), r.Min.Y⟩, ⟨wrap (r.Max.X + t), r.Max.Y⟩⟩ := by
    intro t
    unfold InRange at r1 r2 r3 r4
    simp only [Int64.Xywh, Int64.Dx, Int64.Dy, wrap, Rect.mk.injEq, Point.mk.injEq, true_and]
    constructor <;> omega
  refine ⟨by rw [hlen, hk], fun i hi => ?_, fun c hc => ?_, ?_⟩
  · rw [hel i hi, hadd]
    simp only [Int64.Add, add_zero, wrap_of_inRange _ r2, wrap_of_inRange _ r4]
    have e : ∀ a : Int, wrap (a + wrap ((i : Int) * wrap (Int64.Dx r + gap))) =
        wrap (a + (i : Int) * (Int64.Dx r + gap)) := by
      intro a
      rw [wrap_add_wrap, wrap_add_mul_wrap]
    rw [e, e]
  · obtain ⟨i, hi⟩ := List.mem_iff_getElem?.mp hc
    have hilen : i < (Int64.RepeatX r n gap).1.length := by
      rcases List.getElem?_eq_some_iff.mp hi with ⟨hlt, -⟩
      exact hlt
    have hin : (i : Int) < n := by
      rw [← hk, ← hlen]
      exact_mod_cast hilen
    have := hel i hin
    rw [hi] at this
    rw [Option.some.inj this, hadd]
    generalize (i : Int) * (Int64.Dx r + gap) = t
    unfold InRange at r1 r2 r3 r4
    simp only [Int64.Size, wrap, Point.mk.injEq, and_true]
    omega
  · have hlen2 : (Int64.RepeatX r n gap).1.length - 1 = (n - 1).toNat := by omega
    have hk1 : (((n - 1).toNat : Nat) : Int) = n - 1 := Int.toNat_of_nonneg (by omega)
    refine ⟨Int64.Xywh (wrap (r.Min.X + (((n - 1).toNat : Nat) : Int) * (Int64.Dx r + gap)))
      r.Min.Y (Int64.Dx r) (Int64.Dy r), ?_, ?_⟩
    · rw [List.getLast?_eq_getElem?, hlen2]
      exact hel (n - 1).toNat (by omega)
    · rw [hadd, hk1]
      simp only [Int64.RepeatX, if_neg (show ¬ n ≤ 0 by omega), Xyxy]
      rw [repeatXLoop64_cursor r _ gap _ _ r1, hk]
      have e : n * (Int64.Dx r + gap) = (n - 1) * (Int64.Dx r + gap) + (Int64.Dx r + gap) := by
        ring
      rw [e]
      generalize (n - 1) * (Int64.Dx r + gap) = t
      unfold InRange at r1 r3
      simp only [Int64.Dx, wrap, Rect.mk.injEq, Point.mk.injEq, and_true, true_and]
      obtain ⟨⟨a, b⟩, ⟨c, d⟩⟩ := r
      simp only [Rect.mk.injEq, Point.mk.injEq, and_true, true_and] at *
      omega

/-- The Y-axis form of `RepeatX64_tiles`, by reflection. -/
theorem RepeatY64_tiles (r : Rect) (n gap : Int) (hr : r.InRange) (hn : 1 ≤ n) :
    (((Int64.RepeatY r n gap).1.length : Int) = n ∧
    (∀ i : Nat, (i : Int) < n → (Int64.RepeatY r n gap).1[i]? =
      some (Int64.Add r ⟨0, wrap ((i : Int) * wrap (Int64.Dy r + gap))⟩)) ∧
    (∀ c ∈ (Int64.RepeatY r n gap).1, Int64.Size c = Int64.Size r) ∧
    (∃ last, (Int64.RepeatY r n gap).1.getLast? = some last ∧
      (Int64.RepeatY r n gap).2 = ⟨r.Min, last.Max⟩)) := by
  obtain ⟨a, b, c, d⟩ := hr
  obtain ⟨t1, t2, t3, ⟨last, t4, t5⟩⟩ := RepeatX64_tiles r.swap n gap ⟨b, a, d, c⟩ hn
  rw [RepeatY64_eq_swap]
  refine ⟨?_, fun i hi => ?_, fun c hc => ?_, ⟨last.swap, ?_, ?_⟩⟩
  · rw [List.length_map]
    exact t1
  · rw [List.getElem?_map, t2 i hi]
    rfl
  · simp only [List.mem_map] at hc
    obtain ⟨c0, hc0, rfl⟩ := hc
    have := t3 c0 hc0
    simp only [Int64.Size, Rect.swap, Point.swap, Point.mk.injEq] at this ⊢
    exact ⟨this.2, this.1⟩
  · simp only
    rw [List.getLast?_map, t4]
    rfl
  · simp only
    rw [t5]
    rfl

/-- C13, refuted as stated: `Xyxy(0, 0, 20, 30).RepeatX(3, 2^62)` returns as its third copy
`(MinInt64+40, 0)-(MinInt64+60, 30)`, not r translated by `2*(20 + 2^62)`, which would be
`(2^63+40, 0)-(2^63+60, 30)`; the overall rectangle ends at `MinInt64+60`. -/
theorem repeat_tiles_copies_int64_counterexample :
    (Xyxy 0 0 20 30).InRange ∧ (1 : Int) ≤ 3 ∧ InRange 4611686018427387904 ∧
    Int64.RepeatX (Xyxy 0 0 20 30) 3 4611686018427387904 =
      ([Xyxy 0 0 20 30, Xyxy 4611686018427387924 0 4611686018427387944 30,
        Xyxy (minInt64 + 40) 0 (minInt64 + 60) 30],
       Xyxy 0 0 (minInt64 + 60) 30) ∧
    (Xyxy 0 0 20 30).Add ⟨((2 : Nat) : Int) * ((Xyxy 0 0 20 30).Dx + 4611686018427387904), 0⟩ =
      Xyxy 9223372036854775848 0 9223372036854775868 30 ∧
    (Int64.RepeatX (Xyxy 0 0 20 30) 3 4611686018427387904).1[2]? ≠
      some ((Xyxy 0 0 20 30).Add
        ⟨((2 : Nat) : Int) * ((Xyxy 0 0 20 30).Dx + 4611686018427387904), 0⟩) := by
  decide

/-- C13, amended: RepeatX tiles fixed-size copies in `int64` arithmetic.  For r of `int64`
coordinates, `n >= 1` and a gap of any sign, `r.RepeatX(n, gap)` returns exactly n
rectangles, element i is r translated by `(i*(r.Dx()+gap), 0)` with every sum and product
taken modulo 2^64, each copy has the size of r (modulo 2^64), and the overall rectangle is
`Rect{Min: r.Min, Max: Max of the last element}`.  When the last copy has `int64`
coordinates, that is `r.Min.X + (n-1)*(r.Dx()+gap)` and `r.Max.X + (n-1)*(r.Dx()+gap)` are
`int64` values, nothing wraps: element i is exactly r translated by `(i*(r.Dx()+gap), 0)`
and has exactly the size of r.  RepeatY is the same with `(0, i*(r.Dy()+gap))`. -/
theorem repeat_tiles_copies_int64 (r : Rect) (n gap : Int) (hr : r.InRange) (hn : 1 ≤ n) :
    (((Int64.RepeatX r n gap).1.length : Int) = n ∧
      (∀ i : Nat, (i : Int) < n → (Int64.RepeatX r n gap).1[i]? =
        some (Int64.Add r ⟨wrap ((i : Int) * wrap (Int64.Dx r + gap)), 0⟩)) ∧
      (∀ c ∈ (Int64.RepeatX r n gap).1, Int64.Size c = Int64.Size r) ∧
      (∃ last, (Int64.RepeatX r n gap).1.getLast? = some last ∧
        (Int64.RepeatX r n gap).2 = ⟨r.Min, last.Max⟩)) ∧
    (InRange (r.Min.X + (n - 1) * (r.Dx + gap)) ∧
        InRange (r.Max.X + (n - 1) * (r.Dx + gap)) →
      (∀ i : Nat, (i : Int) < n →
        (Int64.RepeatX r n gap).1[i]? = some (r.Add ⟨(i : Int) * (r.Dx + gap), 0⟩)) ∧
      (∀ c ∈ (Int64.RepeatX r n gap).1, c.Size = r.Size)) ∧
    (((Int64.RepeatY r n gap).1.length : Int) = n ∧
      (∀ i : Nat, (i : Int) < n → (Int64.RepeatY r n gap).1[i]? =
        some (Int64.Add r ⟨0, wrap ((i : Int) * wrap (Int64.Dy r + gap))⟩)) ∧
      (∀ c ∈ (Int64.RepeatY r n gap).1, Int64.Size c = Int64.Size r) ∧
      (∃ last, (Int64.RepeatY r n gap).1.getLast? = some last ∧
        (Int64.RepeatY r n gap).2 = ⟨r.Min, last.Max⟩)) ∧
    (InRange (r.Min.Y + (n - 1) * (r.Dy + gap)) ∧
        InRange (r.Max.Y + (n - 1) * (r.Dy + gap)) →
      (∀ i : Nat, (i : Int) < n →
        (Int64.RepeatY r n gap).1[i]? = some (r.Add ⟨0, (i : Int) * (r.Dy + gap)⟩)) ∧
      (∀ c ∈ (Int64.RepeatY r n gap).1, c.Size = r.Size)) := by
  obtain ⟨⟨-, x2, x3, -⟩, ⟨-, y2, y3, -⟩⟩ := repeat_tiles_copies r n gap hn
  refine ⟨RepeatX64_tiles r n gap hr hn, fun h => ?_, RepeatY64_tiles r n gap hr hn,
    fun h => ?_⟩
  · rw [RepeatX64_eq r n gap hr hn h]
    exact ⟨x2, x3⟩
  · rw [RepeatY64_eq r n gap hr hn h]
    exact ⟨y2, y3⟩

/-- Witness of the amended C13 at `Xyxy(0, 0, 20, 30)`, `n = 3`, `gap = 5`: the copy of
index 2. -/
theorem repeat_tiles_copies_int64_witness :
    (Xyxy 0 0 20 30).InRange ∧ (1 : Int) ≤ 3 ∧
    (InRange ((Xyxy 0 0 20 30).Min.X + (3 - 1) * ((Xyxy 0 0 20 30).Dx + 5)) ∧
      InRange ((Xyxy 0 0 20 30).Max.X + (3 - 1) * ((Xyxy 0 0 20 30).Dx + 5))) ∧
    (Int64.RepeatX (Xyxy 0 0 20 30) 3 5).1[2]? =
      some ((Xyxy 0 0 20 30).Add ⟨((2 : Nat) : Int) * ((Xyxy 0 0 20 30).Dx + 5), 0⟩) :=
  ⟨by decide, by decide, by decide,
    ((repeat_tiles_copies_int64 (Xyxy 0 0 20 30) 3 5 (by decide) (by decide)).2.1
      (by decide)).1 2 (by decide)⟩

/-! ## Rates through `float64`: where rounding is exact -/

theorem pow2_eq_zpow (e : Int) : pow2 e = (2 : ℚ) ^ e := by
  unfold pow2
  split_ifs with h
  · obtain ⟨k, rfl⟩ := Int.eq_ofNat_of_zero_le h
    simp
  · have : 0 ≤ -e := by omega
    obtain ⟨k, hk⟩ := Int.eq_ofNat_of_zero_le this
    have he : e = -(k : Int) := by omega
    subst he
    simp

theorem log2Fuel_spec (f n : Nat) (hf : n ≤ f) (hn : 1 ≤ n) :
    2 ^ log2Fuel f n ≤ n ∧ n < 2 ^ (log2Fuel f n + 1) := by
  induction f generalizing n with
  | zero => omega
  | succ f ih =>
    unfold log2Fuel
    split_ifs with h2
    · obtain ⟨a, b⟩ := ih (n / 2) (by omega) (by omega)
      constructor
      · rw [pow_succ]; omega
      · rw [pow_succ]; omega
    · have : n = 1 := by omega
      subst this
      simp

theorem natLog2_spec (n : Nat) (hn : 1 ≤ n) :
    2 ^ natLog2 n ≤ n ∧ n < 2 ^ (natLog2 n + 1) := log2Fuel_spec n n le_rfl hn

theorem floorLog2_le (x : ℚ) (hx : 0 < x) : (2 : ℚ) ^ floorLog2 x ≤ x := by
  unfold floorLog2
  simp only
  split_ifs with h
  · rw [← pow2_eq_zpow]; exact h
  · have hnum : 0 < x.num := Rat.num_pos.mpr hx
    obtain ⟨a, ha⟩ := Int.eq_ofNat_of_zero_le (le_of_lt hnum)
    have ha1 : 1 ≤ a := by omega
    have hb1 : 1 ≤ x.den := x.den_pos
    obtain ⟨la1, -⟩ := natLog2_spec a ha1
    obtain ⟨-, lb2⟩ := natLog2_spec x.den hb1
    have hxe : (a : ℚ) / (x.den : ℚ) = x := by
      have := Rat.num_div_den x
      rw [ha] at this
      simpa using this
    have e1 : x.num.natAbs = a := by rw [ha]; simp
    rw [e1]
    have hA : ((2 : ℚ) ^ natLog2 a) ≤ (a : ℚ) := by exact_mod_cast la1
    have hB : (x.den : ℚ) ≤ (2 : ℚ) ^ (natLog2 x.den + 1) := by exact_mod_cast le_of_lt lb2
    have hden : (0 : ℚ) < x.den := by exact_mod_cast hb1
    have e2 : (2 : ℚ) ^ ((natLog2 a : Int) - (natLog2 x.den : Int) - 1) =
        (2 : ℚ) ^ natLog2 a / (2 : ℚ) ^ (natLog2 x.den + 1) := by
      rw [zpow_sub₀ (by norm_num), zpow_sub₀ (by norm_num)]
      simp [pow_succ, div_div]
    rw [e2]
    calc (2 : ℚ) ^ natLog2 a / (2 : ℚ) ^ (natLog2 x.den + 1)
        ≤ (a : ℚ) / (2 : ℚ) ^ (natLog2 x.den + 1) :=
          div_le_div_of_nonneg_right hA (by positivity)
      _ ≤ (a : ℚ) / (x.den : ℚ) :=
          div_le_div_of_nonneg_left (by positivity) hden hB
      _ = x := hxe

theorem floorLog2_lt (x : ℚ) (hx : 0 < x) (E : Int) (h : x < (2 : ℚ) ^ (E + 1)) :
    floorLog2 x ≤ E := by
  have h1 := floorLog2_le x hx
  have h2 : (2 : ℚ) ^ floorLog2 x < (2 : ℚ) ^ (E + 1) := lt_of_le_of_lt h1 h
  have := (zpow_lt_zpow_iff_right₀ (by norm_num : (1 : ℚ) < 2)).mp h2
  omega

theorem roundEven_intCast (m : Int) : roundEven (m : ℚ) = m := by
  simp [roundEven]

/-- A dyadic rational `m / 2^j` with `j <= 1074` below `2^(53-j)` in absolute value is a
`float64` value: rounding leaves it unchanged. -/
theorem roundFloat64_exact (x : ℚ) (m : Int) (j : Nat) (hj : j ≤ 1074)
    (hx : x = (m : ℚ) / (2 : ℚ) ^ j)
    (hlt : (if x < 0 then -x else x) < (2 : ℚ) ^ ((53 : Int) - j)) :
    roundFloat64 x = x := by
  unfold roundFloat64
  by_cases h0 : x = 0
  · rw [if_pos h0]; exact h0.symm
  rw [if_neg h0]
  simp only
  have hpos : 0 < (if x < 0 then -x else x) := by
    by_cases hneg : x < 0
    · rw [if_pos hneg]; linarith
    · rw [if_neg hneg]
      rcases lt_or_eq_of_le (not_lt.mp hneg) with h | h
      · exact h
      · exact absurd h.symm h0
  have hE : floorLog2 (if x < 0 then -x else x) ≤ 52 - j :=
    floorLog2_lt _ hpos (52 - j) (by
      have : (52 : Int) - j + 1 = 53 - j := by ring
      rw [this]; exact hlt)
  generalize floorLog2 (if x < 0 then -x else x) = e at hE
  have hq : max (e - 52) (-1074) ≤ -(j : Int) := by omega
  generalize max (e - 52) (-1074) = q at hq
  obtain ⟨t, ht⟩ := Int.eq_ofNat_of_zero_le (show 0 ≤ -q - j by omega)
  have hqe : q = -((t + j : Nat) : Int) := by push_cast; omega
  rw [hqe, pow2_eq_zpow, zpow_neg, zpow_natCast]
  have e1 : x / ((2 : ℚ) ^ (t + j))⁻¹ = ((m * 2 ^ t : Int) : ℚ) := by
    rw [hx]
    push_cast
    field_simp
    ring
  rw [e1, roundEven_intCast, hx]
  push_cast
  field_simp
  ring


/-- An integer below `2^53` in absolute value converts to `float64` exactly. -/
theorem roundFloat64_int (k : Int)
    (hk : -9007199254740992 < k ∧ k < 9007199254740992) : roundFloat64 (k : ℚ) = k := by
  apply roundFloat64_exact (k : ℚ) k 0 (by omega) (by simp)
  have e : ((53 : Int) - ((0 : Nat) : Int)) = ((53 : Nat) : Int) := by norm_num
  rw [e, zpow_natCast]
  split_ifs
  · have : ((-k : Int) : ℚ) < ((9007199254740992 : Int) : ℚ) := by exact_mod_cast (by omega)
    push_cast at this
    norm_num
    linarith
  · have : ((k : Int) : ℚ) < ((9007199254740992 : Int) : ℚ) := by exact_mod_cast hk.2
    push_cast at this
    norm_num
    linarith

/-- Half of an integer below `2^53` in absolute value is a `float64` value. -/
theorem roundFloat64_half (k : Int)
    (hk : -9007199254740992 < k ∧ k < 9007199254740992) :
    roundFloat64 (1 / 2 * (k : ℚ)) = 1 / 2 * (k : ℚ) := by
  apply roundFloat64_exact (1 / 2 * (k : ℚ)) k 1 (by omega) (by simp; ring)
  have e : ((53 : Int) - ((1 : Nat) : Int)) = ((52 : Nat) : Int) := by norm_num
  rw [e, zpow_natCast]
  split_ifs
  · have : ((-k : Int) : ℚ) < ((9007199254740992 : Int) : ℚ) := by exact_mod_cast (by omega)
    push_cast at this
    norm_num
    linarith
  · have : ((k : Int) : ℚ) < ((9007199254740992 : Int) : ℚ) := by exact_mod_cast hk.2
    push_cast at this
    norm_num
    linarith

theorem truncRat_half (k : Int) : truncRat (1 / 2 * (k : ℚ)) = k.tdiv 2 := by
  have key : ∀ a : Int, 0 ≤ a → truncRat (1 / 2 * (a : ℚ)) = a.tdiv 2 := by
    intro a ha
    have h0 : (0 : ℚ) ≤ 1 / 2 * (a : ℚ) := by
      have : (0 : ℚ) ≤ (a : ℚ) := by exact_mod_cast ha
      linarith
    rw [truncRat_of_nonneg _ h0]
    have e : (1 / 2 * (a : ℚ)) = (a : ℚ) / ((2 : Nat) : ℚ) := by push_cast; ring
    rw [e, Rat.floor_intCast_div_natCast]
    rw [Int.tdiv_eq_ediv ha (by norm_num)]
    rfl
  rcases le_total 0 k with h | h
  · exact key k h
  · have := key (-k) (by omega)
    have e : (1 / 2 * ((-k : Int) : ℚ)) = -(1 / 2 * (k : ℚ)) := by push_cast; ring
    rw [e, truncRat_neg, Int.neg_tdiv] at this
    omega

theorem tdiv_two (k : Int) : k.tdiv 2 = if 0 ≤ k then k / 2 else -((-k) / 2) := by
  split_ifs with h
  · exact Int.tdiv_eq_ediv h (by norm_num)
  · have e : k = -(-k) := by omega
    rw [e, Int.neg_tdiv, Int.tdiv_eq_ediv (by omega) (by norm_num), neg_neg]

/-- On a length below `2^53` in absolute value, `rel(length, 0.5)` is `length / 2` truncated
toward zero. -/
theorem rel64_half (k : Int)
    (hk : -9007199254740992 < k ∧ k < 9007199254740992) : Int64.rel k (1 / 2) = k.tdiv 2 := by
  unfold Int64.rel toInt64
  rw [roundFloat64_int k hk, roundFloat64_half k hk, truncRat_half, tdiv_two]
  have hm : minInt64 = -9223372036854775808 := rfl
  have hM : maxInt64 = 9223372036854775807 := rfl
  rw [hm, hM]
  split_ifs <;> omega

theorem roundFloat64_one_sub_half : roundFloat64 (1 - 1 / 2) = 1 / 2 := by
  have e : (1 - 1 / 2 : ℚ) = 1 / 2 * ((1 : Int) : ℚ) := by norm_num
  rw [e, roundFloat64_half 1 (by omega)]
  norm_num

/-- The absolute value as `roundFloat64` computes it. -/
theorem abs_ite_eq (x : ℚ) : (if x < 0 then -x else x) = |x| := by
  split_ifs with h
  · exact (abs_of_neg h).symm
  · exact (abs_of_nonneg (not_lt.mp h)).symm

/-- The exponent found by `floorLog2` is the greatest: `x < 2^(floorLog2 x + 1)`. -/
theorem lt_floorLog2 (x : ℚ) (hx : 0 < x) : x < (2 : ℚ) ^ (floorLog2 x + 1) := by
  have hnum : 0 < x.num := Rat.num_pos.mpr hx
  obtain ⟨a, ha⟩ := Int.eq_ofNat_of_zero_le (le_of_lt hnum)
  have ha1 : 1 ≤ a := by omega
  have hb1 : 1 ≤ x.den := x.den_pos
  obtain ⟨-, la2⟩ := natLog2_spec a ha1
  obtain ⟨lb1, -⟩ := natLog2_spec x.den hb1
  have hxe : (a : ℚ) / (x.den : ℚ) = x := by
    have := Rat.num_div_den x
    rw [ha] at this
    simpa using this
  have e1 : x.num.natAbs = a := by rw [ha]; simp
  unfold floorLog2
  simp only
  rw [e1]
  split_ifs with h
  · have hA : (a : ℚ) < (2 : ℚ) ^ (natLog2 a + 1) := by exact_mod_cast la2
    have hB : ((2 : ℚ) ^ natLog2 x.den) ≤ (x.den : ℚ) := by exact_mod_cast lb1
    have hden : (0 : ℚ) < x.den := by exact_mod_cast hb1
    have e2 : (2 : ℚ) ^ ((natLog2 a : Int) - (natLog2 x.den : Int) + 1) =
        (2 : ℚ) ^ (natLog2 a + 1) / (2 : ℚ) ^ natLog2 x.den := by
      have : ((natLog2 a : Int) - (natLog2 x.den : Int) + 1) =
          ((natLog2 a + 1 : Nat) : Int) - ((natLog2 x.den : Nat) : Int) := by push_cast; ring
      rw [this, zpow_sub₀ (by norm_num), zpow_natCast, zpow_natCast]
    rw [e2]
    calc x = (a : ℚ) / (x.den : ℚ) := hxe.symm
      _ < (2 : ℚ) ^ (natLog2 a + 1) / (x.den : ℚ) := div_lt_div_of_pos_right hA hden
      _ ≤ (2 : ℚ) ^ (natLog2 a + 1) / (2 : ℚ) ^ natLog2 x.den :=
          div_le_div_of_nonneg_left (by positivity) (by positivity) hB
  · rw [pow2_eq_zpow] at h
    have : ((natLog2 a : Int) - (natLog2 x.den : Int) - 1 + 1) =
        (natLog2 a : Int) - (natLog2 x.den : Int) := by ring
    rw [this]
    exact not_le.mp h

/-- A power of two at or below x has an exponent of at most `floorLog2 x`. -/
theorem le_floorLog2 (x : ℚ) (hx : 0 < x) (E : Int) (h : (2 : ℚ) ^ E ≤ x) :
    E ≤ floorLog2 x := by
  have h1 := lt_floorLog2 x hx
  have h2 : (2 : ℚ) ^ E < (2 : ℚ) ^ (floorLog2 x + 1) := lt_of_le_of_lt h h1
  have := (zpow_lt_zpow_iff_right₀ (by norm_num : (1 : ℚ) < 2)).mp h2
  omega

/-- Rounding to the nearest integer moves a value by at most one half. -/
theorem roundEven_near (m : ℚ) :
    (roundEven m : ℚ) ≤ m + 1 / 2 ∧ m - 1 / 2 ≤ (roundEven m : ℚ) := by
  have hf : m.num / (m.den : Int) = ⌊m⌋ := (Rat.floor_def' m).symm
  have h1 : ((⌊m⌋ : Int) : ℚ) ≤ m := Int.floor_le m
  have h2 : m < ((⌊m⌋ : Int) : ℚ) + 1 := Int.lt_floor_add_one m
  unfold roundEven
  simp only
  rw [hf]
  split_ifs with a b c
  · constructor <;> linarith
  · push_cast; constructor <;> linarith
  · have : m - ⌊m⌋ = 1 / 2 := le_antisymm (not_lt.mp b) (not_lt.mp a)
    constructor <;> linarith
  · have : m - ⌊m⌋ = 1 / 2 := le_antisymm (not_lt.mp b) (not_lt.mp a)
    push_cast; constructor <;> linarith

/-- A value `M * 2^e` with `e >= -1074` below `2^(53+e)` in absolute value is a `float64`
value: rounding leaves it unchanged. -/
theorem roundFloat64_exact_zpow (x : ℚ) (M e : Int) (he : -1074 ≤ e)
    (hx : x = (M : ℚ) * (2 : ℚ) ^ e) (hlt : |x| < (2 : ℚ) ^ (53 + e)) :
    roundFloat64 x = x := by
  unfold roundFloat64
  by_cases h0 : x = 0
  · rw [if_pos h0]; exact h0.symm
  rw [if_neg h0]
  simp only
  rw [abs_ite_eq]
  have hpos : 0 < |x| := abs_pos.mpr h0
  have hE : floorLog2 |x| ≤ 52 + e :=
    floorLog2_lt _ hpos (52 + e) (by
      have : (52 : Int) + e + 1 = 53 + e := by ring
      rw [this]; exact hlt)
  generalize floorLog2 |x| = E at hE
  have hq : max (E - 52) (-1074) ≤ e := by omega
  generalize max (E - 52) (-1074) = q at hq
  obtain ⟨t, ht⟩ := Int.eq_ofNat_of_zero_le (show 0 ≤ e - q by omega)
  have hqe : e = q + (t : Int) := by omega
  rw [pow2_eq_zpow]
  have h2 : (2 : ℚ) ^ q ≠ 0 := zpow_ne_zero _ (by norm_num)
  have e1 : x / (2 : ℚ) ^ q = ((M * 2 ^ t : Int) : ℚ) := by
    rw [hx, hqe, zpow_add₀ (by norm_num), zpow_natCast]
    push_cast
    field_simp
    ring
  rw [e1, roundEven_intCast, hx, hqe, zpow_add₀ (by norm_num), zpow_natCast]
  push_cast
  ring

/-- The same with a significand of `2^53` allowed. -/
theorem roundFloat64_exact_le (M e : Int) (he : -1074 ≤ e)
    (hM : -9007199254740992 ≤ M ∧ M ≤ 9007199254740992) :
    roundFloat64 ((M : ℚ) * (2 : ℚ) ^ e) = (M : ℚ) * (2 : ℚ) ^ e := by
  have h2pos : (0 : ℚ) < (2 : ℚ) ^ e := zpow_pos (by norm_num) _
  have h53 : (2 : ℚ) ^ (53 + e) = 9007199254740992 * (2 : ℚ) ^ e := by
    rw [zpow_add₀ (by norm_num)]
    norm_num
  by_cases hs : -9007199254740992 < M ∧ M < 9007199254740992
  · apply roundFloat64_exact_zpow _ M e he rfl
    rw [h53, abs_mul, abs_of_pos h2pos]
    apply mul_lt_mul_of_pos_right _ h2pos
    rw [abs_lt]
    constructor
    · exact_mod_cast hs.1
    · exact_mod_cast hs.2
  · have hM2 : M = 2 * (M / 2) := by omega
    have hx : (M : ℚ) * (2 : ℚ) ^ e = ((M / 2 : Int) : ℚ) * (2 : ℚ) ^ (e + 1) := by
      rw [zpow_add₀ (by norm_num)]
      have : ((M : Int) : ℚ) = 2 * ((M / 2 : Int) : ℚ) := by exact_mod_cast hM2
      rw [this]
      ring
    apply roundFloat64_exact_zpow _ (M / 2) (e + 1) (by omega) hx
    rw [hx]
    have h2pos1 : (0 : ℚ) < (2 : ℚ) ^ (e + 1) := zpow_pos (by norm_num) _
    have h54 : (2 : ℚ) ^ (53 + (e + 1)) = 9007199254740992 * (2 : ℚ) ^ (e + 1) := by
      rw [zpow_add₀ (by norm_num)]
      norm_num
    rw [h54, abs_mul, abs_of_pos h2pos1]
    apply mul_lt_mul_of_pos_right _ h2pos1
    rw [abs_lt]
    constructor
    · have : -9007199254740992 < M / 2 := by omega
      exact_mod_cast this
    · have : M / 2 < 9007199254740992 := by omega
      exact_mod_cast this

/-- Halving a `float64` value `M * 2^(k+1)` is exact, and converts to the integer
`M * 2^k` when that is an `int64` value. -/
theorem toInt64_half_float (M : Int) (k : Nat)
    (hM : -9007199254740992 ≤ M ∧ M ≤ 9007199254740992)
    (hr : -9223372036854775808 ≤ M * 2 ^ k ∧ M * 2 ^ k ≤ 9223372036854775807) :
    toInt64 (roundFloat64 (1 / 2 * ((M : ℚ) * (2 : ℚ) ^ ((k + 1 : Nat) : Int)))) =
      M * 2 ^ k := by
  have e : (1 / 2 * ((M : ℚ) * (2 : ℚ) ^ ((k + 1 : Nat) : Int))) =
      (M : ℚ) * (2 : ℚ) ^ ((k : Nat) : Int) := by
    rw [zpow_natCast, zpow_natCast, pow_succ]
    ring
  rw [e, roundFloat64_exact_le M k (by omega) hM]
  have e2 : (M : ℚ) * (2 : ℚ) ^ ((k : Nat) : Int) = ((M * 2 ^ k : Int) : ℚ) := by
    rw [zpow_natCast]
    push_cast
    ring
  rw [e2]
  unfold toInt64
  rw [truncRat_intCast]
  have hm : minInt64 = -9223372036854775808 := rfl
  have hMx : maxInt64 = 9223372036854775807 := rfl
  rw [hm, hMx, if_pos hr]

/-- The conversion `float64(D)` of an `int64` of absolute value at least `2^53`: it is
`M * 2^(k+1)` for a significand M of at most 53 bits, within half a unit `2^(k+1)` of D. -/
theorem roundFloat64_int_large (D : Int)
    (hD : -9223372036854775808 ≤ D ∧ D ≤ 9223372036854775807)
    (hbig : D ≤ -9007199254740992 ∨ 9007199254740992 ≤ D) :
    ∃ (M : Int) (k : Nat), k ≤ 10 ∧
      roundFloat64 (D : ℚ) = (M : ℚ) * (2 : ℚ) ^ ((k + 1 : Nat) : Int) ∧
      (-9007199254740992 ≤ M ∧ M ≤ 9007199254740992) ∧
      2 * (M * 2 ^ (k + 1)) ≤ 2 * D + 2 ^ (k + 1) ∧
      2 * D - 2 ^ (k + 1) ≤ 2 * (M * 2 ^ (k + 1)) ∧
      (2 ^ (k + 53) ≤ D ∨ D ≤ -2 ^ (k + 53)) ∧ -(2 ^ (k + 54)) < D ∧ D < 2 ^ (k + 54) := by
  have hx0 : (D : ℚ) ≠ 0 := by
    have : D ≠ 0 := by omega
    exact_mod_cast this
  have habs : |(D : ℚ)| = ((|D| : Int) : ℚ) := (Int.cast_abs).symm
  have hpos : 0 < |(D : ℚ)| := abs_pos.mpr hx0
  have hA1 : (9007199254740992 : Int) ≤ |D| := by
    rcases hbig with h | h
    · rw [abs_of_neg (by omega)]; omega
    · rw [abs_of_nonneg (by omega)]; omega
  have hA2 : |D| ≤ (9223372036854775808 : Int) := by
    rw [abs_le]; omega
  have h53 : (2 : ℚ) ^ (53 : Int) ≤ |(D : ℚ)| := by
    rw [habs]
    have : ((9007199254740992 : Int) : ℚ) ≤ ((|D| : Int) : ℚ) := by exact_mod_cast hA1
    calc (2 : ℚ) ^ (53 : Int) = ((9007199254740992 : Int) : ℚ) := by norm_num
      _ ≤ _ := this
  have h64 : |(D : ℚ)| < (2 : ℚ) ^ ((63 : Int) + 1) := by
    rw [habs]
    have : ((|D| : Int) : ℚ) ≤ ((9223372036854775808 : Int) : ℚ) := by exact_mod_cast hA2
    calc ((|D| : Int) : ℚ) ≤ ((9223372036854775808 : Int) : ℚ) := this
      _ < (2 : ℚ) ^ ((63 : Int) + 1) := by norm_num
  have hE1 : 53 ≤ floorLog2 |(D : ℚ)| := le_floorLog2 _ hpos 53 h53
  have hE2 : floorLog2 |(D : ℚ)| ≤ 63 := floorLog2_lt _ hpos 63 h64
  have hlo := floorLog2_le _ hpos
  have hhi := lt_floorLog2 _ hpos
  obtain ⟨k, hk⟩ := Int.eq_ofNat_of_zero_le (show 0 ≤ floorLog2 |(D : ℚ)| - 53 by omega)
  have hEk : floorLog2 |(D : ℚ)| = ((k + 53 : Nat) : Int) := by push_cast; omega
  have hk10 : k ≤ 10 := by omega
  have hval : roundFloat64 (D : ℚ) =
      (roundEven ((D : ℚ) / (2 : ℚ) ^ ((k + 1 : Nat) : Int)) : ℚ) *
        (2 : ℚ) ^ ((k + 1 : Nat) : Int) := by
    unfold roundFloat64
    rw [if_neg hx0]
    simp only
    rw [abs_ite_eq, hEk]
    have : max ((((k + 53 : Nat) : Int)) - 52) (-1074) = ((k + 1 : Nat) : Int) := by
      push_cast; omega
    rw [this, pow2_eq_zpow]
  rw [hEk] at hlo hhi
  obtain ⟨n1, n2⟩ := roundEven_near ((D : ℚ) / (2 : ℚ) ^ ((k + 1 : Nat) : Int))
  generalize roundEven ((D : ℚ) / (2 : ℚ) ^ ((k + 1 : Nat) : Int)) = M at hval n1 n2
  have hp : (0 : ℚ) < (2 : ℚ) ^ (k + 1) := by positivity
  rw [zpow_natCast] at n1 n2
  have i1 : 2 * (M * 2 ^ (k + 1)) ≤ 2 * D + 2 ^ (k + 1) := by
    have : (2 : ℚ) * ((M : ℚ) * (2 : ℚ) ^ (k + 1)) ≤ 2 * (D : ℚ) + (2 : ℚ) ^ (k + 1) := by
      have := mul_le_mul_of_nonneg_right n1 (le_of_lt hp)
      rw [add_mul, div_mul_cancel₀ _ (ne_of_gt hp)] at this
      linarith
    exact_mod_cast this
  have i2 : 2 * D - 2 ^ (k + 1) ≤ 2 * (M * 2 ^ (k + 1)) := by
    have : 2 * (D : ℚ) - (2 : ℚ) ^ (k + 1) ≤ (2 : ℚ) * ((M : ℚ) * (2 : ℚ) ^ (k + 1)) := by
      have := mul_le_mul_of_nonneg_right n2 (le_of_lt hp)
      rw [sub_mul, div_mul_cancel₀ _ (ne_of_gt hp)] at this
      linarith
    exact_mod_cast this
  have i3 : (2 : Int) ^ (k + 53) ≤ |D| := by
    rw [habs, zpow_natCast] at hlo
    exact_mod_cast hlo
  have i4 : |D| < (2 : Int) ^ (k + 54) := by
    rw [habs] at hhi
    have e : (((k + 53 : Nat) : Int) + 1) = ((k + 54 : Nat) : Int) := by push_cast; ring
    rw [e, zpow_natCast] at hhi
    exact_mod_cast hhi
  have i5 : (2 ^ (k + 53) ≤ D ∨ D ≤ -2 ^ (k + 53)) ∧ -(2 ^ (k + 54)) < D ∧
      D < 2 ^ (k + 54) := by
    rw [abs_lt] at i4
    refine ⟨?_, by omega, i4.2⟩
    rcases le_total 0 D with h | h
    · rw [abs_of_nonneg h] at i3; exact Or.inl i3
    · rw [abs_of_nonpos h] at i3; right; omega
  refine ⟨M, k, hk10, hval, ?_, i1, i2, i5⟩
  clear hval n1 n2 hlo hhi hEk hk hE1 hE2 h53 h64 habs hpos hx0 hp i3 i4
  obtain ⟨j1, j2, j3⟩ := i5
  interval_cases k <;> simp only [Nat.reduceAdd, Int.reducePow] at * <;> omega

/-- Halving through `float64` is stable: for an `int64` length D with `float64(D) < 2^63`,
that is `D <= 2^63 - 513`, twice `rel(D, 0.5)` is an `int64` value and `rel` of it at 0.5 is
`rel(D, 0.5)` again. -/
theorem rel64_half_stable (D : Int)
    (hD : -9223372036854775808 ≤ D ∧ D ≤ 9223372036854775295) :
    (-9223372036854775808 ≤ 2 * Int64.rel D (1 / 2) ∧
      2 * Int64.rel D (1 / 2) ≤ 9223372036854775807) ∧
    Int64.rel (2 * Int64.rel D (1 / 2)) (1 / 2) = Int64.rel D (1 / 2) := by
  by_cases hs : -9007199254740992 < D ∧ D < 9007199254740992
  · rw [rel64_half D hs]
    have hh := tdiv_two D
    generalize D.tdiv 2 = h at hh
    have hb : -9007199254740992 < 2 * h ∧ 2 * h < 9007199254740992 := by
      split_ifs at hh <;> omega
    refine ⟨by omega, ?_⟩
    rw [rel64_half (2 * h) hb, tdiv_two]
    split_ifs <;> omega
  · obtain ⟨M, k, hk, hval, hM, i1, i2, j1, j2, j3⟩ :=
      roundFloat64_int_large D ⟨hD.1, by omega⟩ (by omega)
    have e2 : 2 * (M * 2 ^ k) = M * 2 ^ (k + 1) := by ring
    have hr2 : -9223372036854775808 ≤ M * 2 ^ (k + 1) ∧
        M * 2 ^ (k + 1) ≤ 9223372036854775807 := by
      clear hval e2
      interval_cases k <;> simp only [Nat.reduceAdd, Int.reducePow] at * <;> omega
    have hr : -9223372036854775808 ≤ M * 2 ^ k ∧ M * 2 ^ k ≤ 9223372036854775807 := by
      omega
    have h1 : Int64.rel D (1 / 2) = M * 2 ^ k := by
      unfold Int64.rel
      rw [hval]
      exact toInt64_half_float M k hM hr
    rw [h1]
    refine ⟨by omega, ?_⟩
    unfold Int64.rel
    have e3 : (((2 * (M * 2 ^ k) : Int)) : ℚ) = (M : ℚ) * (2 : ℚ) ^ ((k + 1 : Nat) : Int) := by
      rw [e2, zpow_natCast]
      push_cast
      ring
    rw [e3, roundFloat64_exact_le M _ (by omega) hM]
    exact toInt64_half_float M k hM hr

/-- One axis of the centering round trip: aligning x about the half extent and taking the
center of the result gives x back, when `float64` of the extent is below `2^63`. -/
theorem center_align_axis_tight (x lo hi : Int) (hx : InRange x)
    (hd : wrap (hi - lo) ≤ 9223372036854775295) :
    wrap (wrap (x - Int64.rel (wrap (hi - lo)) (1 / 2)) +
      Int64.rel (wrap (wrap (x + Int64.rel (wrap (hi - lo)) (1 / 2)) -
        wrap (x - Int64.rel (wrap (hi - lo)) (1 / 2)))) (1 / 2)) = x := by
  have hin := wrap_inRange (hi - lo)
  generalize wrap (hi - lo) = d at hd hin
  unfold InRange at hin
  obtain ⟨⟨b1, b2⟩, hst⟩ := rel64_half_stable d ⟨hin.1, hd⟩
  generalize Int64.rel d (1 / 2) = h at b1 b2 hst
  have h2 : wrap (wrap (x + h) - wrap (x - h)) = 2 * h := by
    unfold wrap
    unfold InRange at hx
    omega
  rw [h2, hst]
  unfold wrap
  unfold InRange at hx
  omega

/-- An `int64` length of `2^63 - 512` or more converts to the `float64` value `2^63`, and
`rel` of it at 0.5 is `2^62`. -/
theorem rel64_half_top (D : Int)
    (hD : 9223372036854775296 ≤ D ∧ D ≤ 9223372036854775807) :
    Int64.rel D (1 / 2) = 4611686018427387904 := by
  rcases eq_or_lt_of_le hD.1 with h | h
  · subst h
    decide!
  · obtain ⟨M, k, hk, hval, hM, i1, i2, j1, j2, j3⟩ :=
      roundFloat64_int_large D ⟨by omega, hD.2⟩ (by omega)
    have hk9 : k = 9 := by
      clear hval
      interval_cases k <;> simp only [Nat.reduceAdd, Int.reducePow] at * <;> omega
    subst hk9
    have hM53 : M = 9007199254740992 := by
      simp only [Nat.reduceAdd, Int.reducePow] at i1 i2
      omega
    subst hM53
    unfold Int64.rel
    rw [hval]
    exact toInt64_half_float 9007199254740992 9 (by omega) (by norm_num)

/-- At the least `int64`, `rel` at 0.5 is `-2^62`. -/
theorem rel64_half_min : Int64.rel (-9223372036854775808) (1 / 2) = -4611686018427387904 := by
  decide!

/-- One axis of the centering round trip, failing: when `float64` of the extent is `2^63`
the aligned extent wraps and the center lands `2^63` away. -/
theorem center_align_axis_fails (x lo hi : Int)
    (hd : 9223372036854775296 ≤ wrap (hi - lo)) :
    wrap (wrap (x - Int64.rel (wrap (hi - lo)) (1 / 2)) +
      Int64.rel (wrap (wrap (x + Int64.rel (wrap (hi - lo)) (1 / 2)) -
        wrap (x - Int64.rel (wrap (hi - lo)) (1 / 2)))) (1 / 2)) ≠ x := by
  have hin := wrap_inRange (hi - lo)
  generalize wrap (hi - lo) = d at hd hin
  unfold InRange at hin
  rw [rel64_half_top d ⟨hd, hin.2⟩]
  have h2 : wrap (wrap (x + 4611686018427387904) - wrap (x - 4611686018427387904)) =
      -9223372036854775808 := by
    unfold wrap
    omega
  rw [h2, rel64_half_min]
  unfold wrap
  omega


/-- C17, refuted as stated: `Point{0, 3}.AlignCenter(Xyxy(0, 0, MaxInt64, MaxInt64)).Center()`
is `(MinInt64, MinInt64 + 3)`, not `(0, 3)`: `float64(MaxInt64)` rounds to `2^63`, so each
half extent is `2^62` and the aligned extent `2^63` wraps to `MinInt64`. -/
theorem align_center_round_trip_int64_counterexample :
    Int64.Center (Int64.AlignCenter ⟨0, 3⟩ (Xyxy 0 0 maxInt64 maxInt64)) =
      ⟨minInt64, minInt64 + 3⟩ ∧
    (Int64.Center (Int64.AlignCenter ⟨0, 3⟩ (Xyxy 0 0 maxInt64 maxInt64))).Eq ⟨0, 3⟩ = false := by
  decide!

/-- C17, amended: centering round-trips exactly when `float64` of both extents is below
`2^63`.  For every point p of `int64` coordinates and every rectangle r,
`p.AlignCenter(r).Center().Eq(p)` holds if and only if `r.Dx()` and `r.Dy()` are at most
`2^63 - 513`; odd and negative extents are included. -/
theorem align_center_round_trip_int64 (p : Point) (r : Rect)
    (hp : InRange p.X ∧ InRange p.Y) :
    (Int64.Center (Int64.AlignCenter p r)).Eq p = true ↔
      Int64.Dx r ≤ 9223372036854775295 ∧ Int64.Dy r ≤ 9223372036854775295 := by
  simp only [Int64.Center, Int64.Anchor, Int64.AlignCenter, Int64.Align, Int64.Dx, Int64.Dy,
    roundFloat64_one_sub_half, Point.Eq, Bool.and_eq_true, decide_eq_true_eq]
  constructor
  · rintro ⟨h1, h2⟩
    constructor
    · by_contra hc
      exact center_align_axis_fails p.X r.Min.X r.Max.X (by omega) h1
    · by_contra hc
      exact center_align_axis_fails p.Y r.Min.Y r.Max.Y (by omega) h2
  · rintro ⟨h1, h2⟩
    exact ⟨center_align_axis_tight p.X r.Min.X r.Max.X hp.1 h1,
      center_align_axis_tight p.Y r.Min.Y r.Max.Y hp.2 h2⟩

/-- Witness of the amended C17 at `p = (0, 3)` and the odd-sized `Xyxy(0, 0, 5, 7)`. -/
theorem align_center_round_trip_int64_witness :
    (InRange (⟨0, 3⟩ : Point).X ∧ InRange (⟨0, 3⟩ : Point).Y) ∧
    (Int64.Dx (Xyxy 0 0 5 7) ≤ 9223372036854775295 ∧
      Int64.Dy (Xyxy 0 0 5 7) ≤ 9223372036854775295) ∧
    (Int64.Center (Int64.AlignCenter ⟨0, 3⟩ (Xyxy 0 0 5 7))).Eq ⟨0, 3⟩ = true :=
  ⟨by decide, by decide,
    (align_center_round_trip_int64 ⟨0, 3⟩ (Xyxy 0 0 5 7) (by decide)).mpr (by decide)⟩

/-- C20, refuted as stated: on `Xyxy(0, 0, 10, 10)` the insets `left = 10`, `right = 0` meet
the width exactly, and `Inset4(10, 0, 0, 0)` collapses the X axis at 10, not at the midpoint
5. -/
theorem inset_meets_extent_int64_counterexample :
    (Xyxy 0 0 10 10).WellFormed ∧ (Xyxy 0 0 10 10).InRange ∧
    (10 : Int) + 0 ≥ Int64.Dx (Xyxy 0 0 10 10) ∧
    Int64.Inset4 (Xyxy 0 0 10 10) 10 0 0 0 = Xyxy 10 0 10 10 ∧
    ((Xyxy 0 0 10 10).Min.X + (Xyxy 0 0 10 10).Max.X).tdiv 2 = 5 ∧
    (Int64.Inset4 (Xyxy 0 0 10 10) 10 0 0 0).Min.X ≠
      ((Xyxy 0 0 10 10).Min.X + (Xyxy 0 0 10 10).Max.X).tdiv 2 := by
  decide

/-- C20, amended: Inset collapses an axis to its midpoint when the insets exceed the extent
and nothing overflows.  If `r.Max.X - r.Min.X`, `left + right` and `r.Min.X + r.Max.X` are
`int64` values and `left + right > r.Dx()`, then `r.Inset4(left, top, right, bottom)` has
`Min.X == Max.X == (r.Min.X + r.Max.X) / 2`; likewise on Y when `top + bottom > r.Dy()`.
When the insets meet the extent exactly (and `r.Min.X + left` is an `int64` value) the axis
has zero length at `r.Min.X + left` (`r.Min.Y + top`). -/
theorem inset_collapses_to_midpoint_int64 (r : Rect) (left top right bottom : Int) :
    (InRange (r.Max.X - r.Min.X) → InRange (left + right) → InRange (r.Min.X + r.Max.X) →
      left + right > r.Max.X - r.Min.X →
      (Int64.Inset4 r left top right bottom).Min.X = (r.Min.X + r.Max.X).tdiv 2 ∧
      (Int64.Inset4 r left top right bottom).Max.X = (r.Min.X + r.Max.X).tdiv 2) ∧
    (InRange (r.Max.Y - r.Min.Y) → InRange (top + bottom) → InRange (r.Min.Y + r.Max.Y) →
      top + bottom > r.Max.Y - r.Min.Y →
      (Int64.Inset4 r left top right bottom).Min.Y = (r.Min.Y + r.Max.Y).tdiv 2 ∧
      (Int64.Inset4 r left top right bottom).Max.Y = (r.Min.Y + r.Max.Y).tdiv 2) ∧
    (InRange (r.Max.X - r.Min.X) → InRange (left + right) → InRange (r.Min.X + left) →
      left + right = r.Max.X - r.Min.X →
      (Int64.Inset4 r left top right bottom).Min.X = r.Min.X + left ∧
      (Int64.Inset4 r left top right bottom).Max.X = r.Min.X + left) ∧
    (InRange (r.Max.Y - r.Min.Y) → InRange (top + bottom) → InRange (r.Min.Y + top) →
      top + bottom = r.Max.Y - r.Min.Y →
      (Int64.Inset4 r left top right bottom).Min.Y = r.Min.Y + top ∧
      (Int64.Inset4 r left top right bottom).Max.Y = r.Min.Y + top) := by
  refine ⟨fun hd hs hm h => ?_, fun hd hs hm h => ?_, fun hd hs hm h => ?_,
    fun hd hs hm h => ?_⟩
  · have h2 : Int64.Dx r < wrap (left + right) := by
      rw [Int64.Dx, wrap_of_inRange _ hd, wrap_of_inRange _ hs]
      omega
    simp only [Int64.Inset4, if_pos h2, wrap_of_inRange _ hm, and_self]
  · have h2 : Int64.Dy r < wrap (top + bottom) := by
      rw [Int64.Dy, wrap_of_inRange _ hd, wrap_of_inRange _ hs]
      omega
    simp only [Int64.Inset4, if_pos h2, wrap_of_inRange _ hm, and_self]
  · have h2 : ¬ Int64.Dx r < wrap (left + right) := by
      rw [Int64.Dx, wrap_of_inRange _ hd, wrap_of_inRange _ hs]
      omega
    have e : r.Max.X - right = r.Min.X + left := by omega
    simp only [Int64.Inset4, if_neg h2, e, wrap_of_inRange _ hm, and_self]
  · have h2 : ¬ Int64.Dy r < wrap (top + bottom) := by
      rw [Int64.Dy, wrap_of_inRange _ hd, wrap_of_inRange _ hs]
      omega
    have e : r.Max.Y - bottom = r.Min.Y + top := by omega
    simp only [Int64.Inset4, if_neg h2, e, wrap_of_inRange _ hm, and_self]

/-- Witness of the amended C20 at `Xyxy(0, 0, 100, 50)` inset by 60 on the left and right. -/
theorem inset_collapses_to_midpoint_int64_witness :
    InRange ((Xyxy 0 0 100 50).Max.X - (Xyxy 0 0 100 50).Min.X) ∧ InRange ((60 : Int) + 60) ∧
    InRange ((Xyxy 0 0 100 50).Min.X + (Xyxy 0 0 100 50).Max.X) ∧
    (60 : Int) + 60 > (Xyxy 0 0 100 50).Max.X - (Xyxy 0 0 100 50).Min.X ∧
    (Int64.Inset4 (Xyxy 0 0 100 50) 60 10 60 10).Min.X =
      ((Xyxy 0 0 100 50).Min.X + (Xyxy 0 0 100 50).Max.X).tdiv 2 ∧
    (Int64.Inset4 (Xyxy 0 0 100 50) 60 10 60 10).Max.X =
      ((Xyxy 0 0 100 50).Min.X + (Xyxy 0 0 100 50).Max.X).tdiv 2 :=
  ⟨by decide, by decide, by decide, by decide,
    (inset_collapses_to_midpoint_int64 (Xyxy 0 0 100 50) 60 10 60 10).1
      (by decide) (by decide) (by decide) (by decide)⟩

/-- Where CutX clamps as documented: on a well-formed r of `int64` coordinates whose width is
an `int64` value the code computes what the unbounded arithmetic does. -/
theorem CutX64_eq (r : Rect) (w : Int) (hr : r.InRange) (hwf : r.Min.X ≤ r.Max.X)
    (hD : r.Max.X - r.Min.X ≤ maxInt64) : Int64.CutX r w = r.CutX w := by
  obtain ⟨r1, -, r3, -⟩ := hr
  unfold InRange at r1 r3
  unfold maxInt64 at hD
  have hDx : Int64.Dx r = r.Dx := by
    unfold Int64.Dx Rect.Dx wrap
    omega
  have hw : wrap (r.Min.X + min (max w 0) r.Dx) = r.Min.X + min (max w 0) r.Dx := by
    unfold Rect.Dx wrap
    omega
  simp only [Int64.CutX, Rect.CutX, hDx, hw]

/-- The Y-axis form of `CutX64_eq`. -/
theorem CutY64_eq (r : Rect) (h : Int) (hr : r.InRange) (hwf : r.Min.Y ≤ r.Max.Y)
    (hD : r.Max.Y - r.Min.Y ≤ maxInt64) : Int64.CutY r h = r.CutY h := by
  obtain ⟨-, r2, -, r4⟩ := hr
  unfold InRange at r2 r4
  unfold maxInt64 at hD
  have hDy : Int64.Dy r = r.Dy := by
    unfold Int64.Dy Rect.Dy wrap
    omega
  have hw : wrap (r.Min.Y + min (max h 0) r.Dy) = r.Min.Y + min (max h 0) r.Dy := by
    unfold Rect.Dy wrap
    omega
  simp only [Int64.CutY, Rect.CutY, hDy, hw]

/-- C1, the code at a failing input: on the well-formed `Xyxy(MinInt64, 0, MaxInt64, 1)` the
width `r.Dx()` wraps to -1, so `CutX(-1)` and `CutX(0)` clamp the offset to -1 and return
`got = r`, which is not empty, and `rest = (MaxInt64, 0)-(MaxInt64, 1)`, which is not r. -/
theorem cut_clamps_int64_fails :
    (Xyxy minInt64 0 maxInt64 1).WellFormed ∧ (Xyxy minInt64 0 maxInt64 1).InRange ∧
    Int64.Dx (Xyxy minInt64 0 maxInt64 1) = -1 ∧
    Int64.CutX (Xyxy minInt64 0 maxInt64 1) (-1) =
      (Xyxy minInt64 0 maxInt64 1, Xyxy maxInt64 0 maxInt64 1) ∧
    Int64.CutX (Xyxy minInt64 0 maxInt64 1) 0 =
      (Xyxy minInt64 0 maxInt64 1, Xyxy maxInt64 0 maxInt64 1) ∧
    (Int64.CutX (Xyxy minInt64 0 maxInt64 1) (-1)).1.Empty = false ∧
    (Int64.CutX (Xyxy minInt64 0 maxInt64 1) (-1)).2 ≠ Xyxy minInt64 0 maxInt64 1 ∧
    (Int64.CutX (Xyxy minInt64 0 maxInt64 1) (-1)).1 ≠
      ⟨(Xyxy minInt64 0 maxInt64 1).Min,
        ⟨(Xyxy minInt64 0 maxInt64 1).Min.X, (Xyxy minInt64 0 maxInt64 1).Max.Y⟩⟩ := by
  decide

/-- The code at `Xyxy(0, 0, 100, 50)`, `n = 3`, `gap = -10`: the parts of SplitX and SplitY
abut, and `Rect.Overlaps` is false for every two of them. -/
theorem split_negative_gap_int64_abuts :
    (Xyxy 0 0 100 50).WellFormed ∧ (2 : Int) ≤ 3 ∧ (-10 : Int) < 0 ∧
    Int64.SplitX (Xyxy 0 0 100 50) 3 (-10) =
      [Xyxy 0 0 33 50, Xyxy 33 0 66 50, Xyxy 66 0 100 50] ∧
    (Xyxy 0 0 33 50).Overlaps (Xyxy 33 0 66 50) = false ∧
    (Xyxy 0 0 33 50).Overlaps (Xyxy 66 0 100 50) = false ∧
    (Xyxy 33 0 66 50).Overlaps (Xyxy 66 0 100 50) = false ∧
    Int64.SplitY (Xyxy 0 0 100 50) 3 (-10) =
      [Xyxy 0 0 100 16, Xyxy 0 16 100 32, Xyxy 0 32 100 50] ∧
    (Xyxy 0 0 100 16).Overlaps (Xyxy 0 16 100 32) = false ∧
    (Xyxy 0 0 100 16).Overlaps (Xyxy 0 32 100 50) = false ∧
    (Xyxy 0 16 100 32).Overlaps (Xyxy 0 32 100 50) = false := by
  decide

/-- C15, the code at a failing input: with the rate `1e17`, a `float64` value above 1,
`rel(100, 1e17)` converts `1e19`, which is outside the `int64` range, to `MinInt64`;
`CutX` clamps it to 0, and `Xyxy(0, 0, 100, 50).CutXRate(1e17)` returns the cut part
`(0,0)-(0,50)` of zero width, not the `(0,0)-(100,50)` of `CutXRate(1)`.  CutYRate does the
same on `Xyxy(0, 0, 50, 100)`. -/
theorem rate_cut_int64_fails :
    (Xyxy 0 0 100 50).WellFormed ∧ (1 : ℚ) < 100000000000000000 ∧
    roundFloat64 100000000000000000 = 100000000000000000 ∧
    Int64.rel 100 100000000000000000 = minInt64 ∧
    Int64.CutXRate (Xyxy 0 0 100 50) 100000000000000000 = (Xyxy 0 0 0 50, Xyxy 0 0 100 50) ∧
    Int64.CutXRate (Xyxy 0 0 100 50) 1 = (Xyxy 0 0 100 50, Xyxy 100 0 100 50) ∧
    Int64.CutXRate (Xyxy 0 0 100 50) 100000000000000000 ≠
      Int64.CutXRate (Xyxy 0 0 100 50) 1 ∧
    Int64.CutYRate (Xyxy 0 0 50 100) 100000000000000000 = (Xyxy 0 0 50 0, Xyxy 0 0 50 100) ∧
    Int64.CutYRate (Xyxy 0 0 50 100) 1 = (Xyxy 0 0 50 100, Xyxy 0 100 50 100) := by
  decide!

/-- C18, the code at a failing input: `float64(2^53 + 1)` rounds to `2^53`, so
`Xyxy(0, 0, 2^53+1, 2^53+1).Anchor(1, 1)` is `(2^53, 2^53)`, which is not `r.Max`. -/
theorem anchor_int64_fails :
    (Xyxy 0 0 9007199254740993 9007199254740993).InRange ∧
    roundFloat64 (1 : ℚ) = 1 ∧
    roundFloat64 (9007199254740993 : ℚ) = 9007199254740992 ∧
    Int64.Anchor (Xyxy 0 0 9007199254740993 9007199254740993) 1 1 =
      ⟨9007199254740992, 9007199254740992⟩ ∧
    Int64.Anchor (Xyxy 0 0 9007199254740993 9007199254740993) 1 1 ≠
      (Xyxy 0 0 9007199254740993 9007199254740993).Max := by
  decide!

/-- C19, the code at failing inputs: in `Xyxy(0, 0, 10, 10).Inset4(MaxInt64, 0, 1, 0)` the
sum `left + right` wraps to `MinInt64`, the guard is false, and the result
`(MaxInt64, 0)-(9, 10)` has `Min.X > Max.X`; and the last part of
`Xyxy(MinInt64, 0, MinInt64, 1).SplitX(3, 5*2^60)` is `(6*2^60, 0)-(MinInt64, 1)`, which is
not well-formed either. -/
theorem methods_int64_ill_formed :
    (Xyxy 0 0 10 10).WellFormed ∧ (Xyxy 0 0 10 10).InRange ∧
    wrap (maxInt64 + 1) = minInt64 ∧
    Int64.Inset4 (Xyxy 0 0 10 10) maxInt64 0 1 0 = Xyxy maxInt64 0 9 10 ∧
    ¬ (Int64.Inset4 (Xyxy 0 0 10 10) maxInt64 0 1 0).WellFormed ∧
    (Xyxy minInt64 0 minInt64 1).WellFormed ∧
    (Int64.SplitX (Xyxy minInt64 0 minInt64 1) 3 5764607523034234880).getLast? =
      some (Xyxy 6917529027641081856 0 minInt64 1) ∧
    ¬ (Xyxy 6917529027641081856 0 minInt64 1).WellFormed := by
  decide

/-! ## The code at `S = int`: evaluations -/

example : Int64.SplitX (Xyxy 0 0 100 50) 3 5 =
    [Xyxy 0 0 30 50, Xyxy 35 0 65 50, Xyxy 70 0 100 50] := by decide
example : Int64.SplitX (Xyxy 0 0 100 50) 3 60 =
    [Xyxy 0 0 0 50, Xyxy 60 0 60 50, Xyxy 120 0 120 50] := by decide
example : Int64.SplitX (Xyxy 0 0 100 50) 3 4611686018427387904 =
    [Xyxy 0 0 0 50, Xyxy 4611686018427387904 0 4611686018427387904 50,
      Xyxy minInt64 0 minInt64 50] := by decide
example : Int64.SplitY (Xyxy 0 0 50 100) 3 5 =
    [Xyxy 0 0 50 30, Xyxy 0 35 50 65, Xyxy 0 70 50 100] := by decide
example : Int64.RepeatX (Xyxy 0 0 20 30) 3 5 =
    ([Xyxy 0 0 20 30, Xyxy 25 0 45 30, Xyxy 50 0 70 30], Xyxy 0 0 70 30) := by decide
example : Int64.Inset4 (Xyxy 0 0 10 10) maxInt64 0 1 0 = Xyxy maxInt64 0 9 10 := by decide
example : Int64.CutXRate (Xyxy 0 0 100 50) (5404319552844595 / 18014398509481984) =
    (Xyxy 0 0 30 50, Xyxy 30 0 100 50) := by decide!
example : Int64.CutYRate (Xyxy 0 0 100 50) (3602879701896397 / 9007199254740992) =
    (Xyxy 0 0 100 20, Xyxy 0 20 100 50) := by decide!
example : Int64.rel 3 (6004799503160661 / 18014398509481984) = 1 := by decide!
example : Int64.Anchor (Xyxy 10 20 110 120) (1 / 4) (3 / 4) = ⟨35, 95⟩ := by decide!
example : Int64.AlignCenter (Int64.Center (Xyxy 0 0 800 600)) (Xyxy 0 0 400 300) =
    Xyxy 200 150 600 450 := by decide!
example : (Int64.Center (Int64.AlignCenter ⟨0, 3⟩ (Xyxy 0 0 9223372036854775295 5))).Eq ⟨0, 3⟩ =
    true := by decide!
example : (Int64.Center (Int64.AlignCenter ⟨0, 3⟩ (Xyxy 0 0 9223372036854775296 5))).Eq ⟨0, 3⟩ =
    false := by decide!
example : roundFloat64 9223372036854775295 = 9223372036854774784 := by decide!
example : roundFloat64 9223372036854775296 = 9223372036854775808 := by decide!
example : Int64.RepeatX (Xyxy 0 0 20 30) 3 4611686018427387904 =
    ([Xyxy 0 0 20 30, Xyxy 4611686018427387924 0 4611686018427387944 30,
      Xyxy (minInt64 + 40) 0 (minInt64 + 60) 30], Xyxy 0 0 (minInt64 + 60) 30) := by decide
example : Int64.CutX (Xyxy minInt64 0 maxInt64 1) 0 =
    (Xyxy minInt64 0 maxInt64 1, Xyxy maxInt64 0 maxInt64 1) := by decide

/-! ## The repository's own expectations, evaluated on the embedding -/

example : (Xyxy 0 0 100 50).CutX 120 = (Xyxy 0 0 100 50, Xyxy 100 0 100 50) := by decide
example : (Xyxy 0 0 100 50).CutX (-10) = (Xyxy 0 0 0 50, Xyxy 0 0 100 50) := by decide
example : (Xyxy 0 0 100 50).CutY 70 = (Xyxy 0 0 100 50, Xyxy 0 50 100 50) := by decide
example : (Xyxy 0 0 100 50).CutX 30 = (Xyxy 0 0 30 50, Xyxy 30 0 100 50) := by decide
example : (Xyxy 0 0 100 50).SplitX 3 0 =
    [Xyxy 0 0 33 50, Xyxy 33 0 66 50, Xyxy 66 0 100 50] := by decide
example : (Xyxy 0 0 100 50).SplitX 4 0 =
    [Xyxy 0 0 25 50, Xyxy 25 0 50 50, Xyxy 50 0 75 50, Xyxy 75 0 100 50] := by decide
example : (Xyxy 0 0 100 50).SplitX 3 5 =
    [Xyxy 0 0 30 50, Xyxy 35 0 65 50, Xyxy 70 0 100 50] := by decide
example : (Xyxy 0 0 100 50).SplitX 3 60 =
    [Xyxy 0 0 0 50, Xyxy 60 0 60 50, Xyxy 120 0 120 50] := by decide
example : (Xyxy 0 0 50 100).SplitY 3 5 =
    [Xyxy 0 0 50 30, Xyxy 0 35 50 65, Xyxy 0 70 50 100] := by decide
example : (Xyxy 0 0 50 100).SplitY 3 60 =
    [Xyxy 0 0 50 0, Xyxy 0 60 50 60, Xyxy 0 120 50 120] := by decide
example : (Xyxy 0 0 100 50).SplitX 0 0 = [] ∧ (Xyxy 0 0 100 50).SplitX (-2) 0 = [] := by decide


example : (Xyxy 0 0 20 30).RepeatX 3 5 =
    ([Xyxy 0 0 20 30, Xyxy 25 0 45 30, Xyxy 50 0 70 30], Xyxy 0 0 70 30) := by decide
example : (Xyxy 0 0 20 30).RepeatY 2 10 =
    ([Xyxy 0 0 20 30, Xyxy 0 40 20 70], Xyxy 0 0 20 70) := by decide
example : (Xyxy 0 0 100 50).CutXRate (3/10) = (Xyxy 0 0 30 50, Xyxy 30 0 100 50) := by
  decide!
example : (Xyxy 10 20 110 120).Anchor (1/4) (3/4) = ⟨35, 95⟩ := by
  decide!
example : ((Xyxy 0 0 800 600).Center.AlignCenter (Xyxy 0 0 400 300)) = Xyxy 200 150 600 450 := by
  decide!

end Loc
